import Mathlib

/-!
# hadoofus: the NameNode RPC session engine

A shallow embedding of `src/src/namenode.c` (session, pending table, response
slots, receive pump) and of the two RPC body templates of
`src/src/highlevel.c`, followed by theorems about them.

Conventions of the embedding

* Pointers to response slots are indices into `World.futures`; an index outside
  the list is an invalid pointer and using it ends the run (`Outcome.abort`).
* One session is modelled, so `fu_namenode` is a flag: `true` when the slot
  points at the session, `false` when it is `NULL`.
* A failed `assert`, or a fault on a null pointer, ends the run with
  `Outcome.abort`, carrying the state at that point and the place.
* The answers of the environment (result of `_connect`, of `_write_all`, the
  data arriving on the socket) are explicit inputs.
* Bytes are natural numbers; `nn_msgno` is an `int64_t` and wraps modulo `2^64`.
-/

namespace Hadoofus

/-! ## Objects and the codec -/

/-- Tags of `struct hdfs_object` (the enum lives in `objects.h`, which is not
part of the sources at hand; these are the tags the sources mention). -/
inductive hdfs_object_type where
  | H_VOID
  | H_NULL
  | H_BOOLEAN
  | H_LONG
  | H_STRING
  | H_ARRAY_LONG
  | H_LOCATED_BLOCK
  | H_LOCATED_BLOCKS
  | H_DIRECTORY_LISTING
  | H_FILE_STATUS
  | H_CONTENT_SUMMARY
  | H_TOKEN
  | H_ARRAY_DATANODE_INFO
  | H_UPGRADE_STATUS_REPORT
  | H_FS_SERVER_DEFAULTS
  | H_RPC_INVOCATION
  | H_AUTHHEADER
  | H_PROTOCOL_EXCEPTION
  deriving DecidableEq, Repr

open hdfs_object_type

/-- The `struct hdfs_object`: a tag and the members of `ob_val` that the sources
read (`_long._val`, `_boolean._val`, `_null._type`, the message number of an
invocation); `body` stands for everything else the object holds. -/
structure hdfs_object where
  ob_type : hdfs_object_type
  _long_val : Int := 0
  _boolean_val : Bool := false
  _null_type : hdfs_object_type := H_VOID
  _msgno : Int := 0
  body : List Nat := []
  deriving DecidableEq, Repr

/-- The `struct hdfs_heap_buf`: storage, bytes in use, capacity. -/
structure hdfs_heap_buf where
  buf : List Nat
  used : Nat
  size : Nat
  deriving DecidableEq, Repr

/-- What `_hdfs_result_deserialize` hands back: `NULL` (the frame is not
complete yet), the marker `_HDFS_INVALID_PROTO`, or a `struct _hdfs_result`
together with the frame size stored through `obj_size`. -/
inductive hdfs_result where
  | incomplete
  | invalid
  | result (rs_msgno : Int) (rs_obj : Option hdfs_object) (obj_size : Nat)
  deriving DecidableEq, Repr

/-- Modelled from the spec: the codec collaborator (`objects.c`, not part of the
sources at hand), section 6 of the specification: build an invocation,
serialize an object into a fresh heap buffer, probe a byte slice for one
framed response; `hdfs_authheader_new` builds the authentication header. -/
structure Codec where
  hdfs_rpc_invocation_new : String → List hdfs_object → hdfs_object
  hdfs_authheader_new : String → hdfs_object
  hdfs_object_serialize : hdfs_object → hdfs_heap_buf
  _hdfs_result_deserialize : List Nat → hdfs_result

/-- Modelled from the spec: `_rpc_invocation_set_msgno` (in `objects.c`) stamps
the message number onto the invocation object. -/
def _rpc_invocation_set_msgno (rpc : hdfs_object) (msgno : Int) : hdfs_object :=
  { rpc with _msgno := msgno }

/-! ## Session, pending table, response slots -/

/-- One entry of the pending array, `struct _hdfs_pending`. -/
structure _hdfs_pending where
  pd_msgno : Int
  pd_future : Nat
  deriving DecidableEq, Repr

instance : Inhabited _hdfs_pending := ⟨⟨0, 0⟩⟩

/-- The `struct hdfs_rpc_response_future` without its monitor. -/
structure hdfs_rpc_response_future where
  fu_namenode : Bool
  fu_res : Option hdfs_object
  deriving DecidableEq, Repr

/-- The all-zero slot, `HDFS_RPC_RESPONSE_FUTURE_INITIALIZER` and the result of
`memset(future, 0, sizeof *future)`. -/
def future_zero : hdfs_rpc_response_future :=
  { fu_namenode := false, fu_res := none }

/-- The `struct hdfs_namenode` without its two mutexes. `nn_pending` holds the
allocated cells of the pending array (its length is the allocated capacity,
`[]` is `NULL`), of which the first `nn_pending_len` are in use; `nn_recvbuf`
holds the allocated bytes of the receive buffer. -/
structure hdfs_namenode where
  nn_refs : Int
  nn_sock : Int
  nn_dead : Bool
  nn_authed : Bool
  nn_msgno : Int
  nn_destroy_cb : Option Nat
  nn_pending : List _hdfs_pending
  nn_pending_len : Nat
  nn_worked : Bool
  nn_recvbuf : List Nat
  nn_recvbuf_used : Nat
  nn_recvbuf_size : Nat
  deriving DecidableEq, Repr

/-- Wrap-around of a signed 64-bit integer. -/
def wrap64 (x : Int) : Int := (x + 2 ^ 63) % 2 ^ 64 - 2 ^ 63

/-- The state `hdfs_namenode_init` leaves in the session. -/
def hdfs_namenode_init : hdfs_namenode :=
  { nn_refs := 1
    nn_sock := -1
    nn_dead := false
    nn_authed := false
    nn_msgno := 0
    nn_destroy_cb := none
    nn_pending := []
    nn_pending_len := 0
    nn_worked := false
    nn_recvbuf := []
    nn_recvbuf_used := 0
    nn_recvbuf_size := 0 }

/-- The session after `memset(n, 0, sizeof *n)`. -/
def namenode_zero : hdfs_namenode :=
  { nn_refs := 0
    nn_sock := 0
    nn_dead := false
    nn_authed := false
    nn_msgno := 0
    nn_destroy_cb := none
    nn_pending := []
    nn_pending_len := 0
    nn_worked := false
    nn_recvbuf := []
    nn_recvbuf_used := 0
    nn_recvbuf_size := 0 }

/-! ## The world around the session -/

/-- What one `read` on the socket yields: end of stream (`r == 0`), some bytes
(`r > 0`), or an error (`r < 0`). -/
inductive ReadResult where
  | eof
  | data (bytes : List Nat)
  | error
  deriving DecidableEq, Repr

/-- Observable actions, in the order they happen. -/
inductive Event where
  | write (sock : Int) (bytes : List Nat)
  | close (sock : Int)
  | free_pending
  | free_recvbuf
  | teardown
  | destroy_cb (cb : Nat)
  | notifyall (future : Nat)
  deriving DecidableEq, Repr

/-- The session, the memory holding the response slots, what the peer will
deliver on the socket, and the actions performed so far. -/
structure World where
  n : hdfs_namenode
  futures : List hdfs_rpc_response_future
  sock_in : List ReadResult
  trace : List Event
  deriving DecidableEq, Repr

/-- A freshly initialised session with `nslots` zero-initialised slots. -/
def World.init (nslots : Nat) (sock_in : List ReadResult) : World :=
  { n := hdfs_namenode_init
    futures := List.replicate nslots future_zero
    sock_in := sock_in
    trace := [] }

/-- Places where a run can end abnormally. -/
inductive Fault where
  | assert_future
  | assert_unbound
  | assert_rpc
  | assert_rpc_type
  | assert_refs
  | assert_not_dead
  | assert_sock_absent
  | assert_sock
  | assert_not_authed
  | assert_found
  | assert_worked
  | assert_pending
  | assert_obj
  | assert_no_res
  | assert_tag
  | assert_not_err
  | assert_false_read
  | assert_false_proto
  | null_namenode
  | bad_pointer
  deriving DecidableEq, Repr

/-- How a call ends: it returns, the process aborts, the thread waits with
nobody left to wake it (or reads with nothing left to arrive), or the
evaluation budget ran out. -/
inductive Outcome (α : Type) where
  | ok (w : World) (a : α)
  | abort (w : World) (f : Fault)
  | blocked (w : World)
  | nofuel
  deriving Repr

/-- Sequencing of calls. -/
def Outcome.bind {α β : Type} (o : Outcome α) (k : World → α → Outcome β) : Outcome β :=
  match o with
  | .ok w a => k w a
  | .abort w f => .abort w f
  | .blocked w => .blocked w
  | .nofuel => .nofuel

/-- The `n`-byte block starting at `src` is copied to `dst` (`memmove`). -/
def memmove (buf : List Nat) (dst src n : Nat) : List Nat :=
  buf.take dst ++ ((buf.drop src).take n ++ buf.drop (dst + n))

/-- The bytes `bytes` are stored at offset `dst` (`memcpy`, and the store done
by `read`). -/
def memcpy (buf : List Nat) (dst : Nat) (bytes : List Nat) : List Nat :=
  buf.take dst ++ (bytes ++ buf.drop (dst + bytes.length))

/-- A block resized to `k` cells keeps its first cells; new cells hold `fill`
(`realloc`). -/
def realloc {α : Type} (fill : α) (block : List α) (k : Nat) : List α :=
  block.take k ++ List.replicate (k - block.length) fill

/-! ## Reference counting -/

/-- The session gains a reference; `none` when `assert(n->nn_refs >= 1)` fails. -/
def _namenode_copyref_unlocked (n : hdfs_namenode) : Option hdfs_namenode :=
  if n.nn_refs ≥ 1 then some { n with nn_refs := n.nn_refs + 1 } else none

/-- Lines 216-221 of `_namenode_decref`, the part under the state lock; the
value returned is `lastref`. -/
def decref_locked (w : World) : Outcome Bool :=
  if w.n.nn_refs ≥ 1 then
    .ok { w with n := { w.n with nn_refs := w.n.nn_refs - 1 } } (decide (w.n.nn_refs - 1 = 0))
  else .abort w .assert_refs

/-- Lines 223-236 of `_namenode_decref`, the branch taken on the last
reference: close the socket, free the pending array and the receive buffer,
zero the session, run the callback. The callback receives the session itself
(`dcb(n)`): once the event `destroy_cb` is in the trace the struct is in the
hands of the callback, and the zeroed session kept here only stands for what
`memset` left before the call (see `World.handed_over`). -/
def decref_teardown (w : World) : World :=
  { w with
    n := namenode_zero
    trace := w.trace ++ [Event.teardown]
      ++ (if w.n.nn_sock ≠ -1 then [Event.close w.n.nn_sock] else [])
      ++ (if w.n.nn_pending ≠ [] then [Event.free_pending] else [])
      ++ (if w.n.nn_recvbuf ≠ [] then [Event.free_recvbuf] else [])
      ++ (match w.n.nn_destroy_cb with
          | some cb => [Event.destroy_cb cb]
          | none => []) }

/-- The whole of `_namenode_decref`. -/
def _namenode_decref (w : World) : Outcome Unit :=
  (decref_locked w).bind fun w1 lastref =>
    if lastref then .ok (decref_teardown w1) () else .ok w1 ()

/-! ## Pending table -/

/-- The function `_namenode_pending_insert_unlocked`; `none` when the store
would fall outside the allocated array. -/
def _namenode_pending_insert_unlocked (n : hdfs_namenode) (msgno : Int) (future : Nat) :
    Option hdfs_namenode :=
  let pending :=
    if n.nn_pending_len % 16 = 0 then realloc default n.nn_pending (n.nn_pending_len + 16)
    else n.nn_pending
  if n.nn_pending_len < pending.length then
    some { n with
      nn_pending := pending.set n.nn_pending_len { pd_msgno := msgno, pd_future := future }
      nn_pending_len := n.nn_pending_len + 1 }
  else none

/-- The scan of `_namenode_pending_remove`: the first index `j` with
`i ≤ j < i + k` whose entry carries `msgno`. -/
def pending_scan (pending : List _hdfs_pending) (msgno : Int) : Nat → Nat → Option Nat
  | 0, _ => none
  | k + 1, i =>
    if (pending.getD i default).pd_msgno = msgno then some i
    else pending_scan pending msgno k (i + 1)

/-- The function `_namenode_pending_remove`: the entry found is overwritten by
the last one (unless it is the last one) and the length drops by one. -/
def _namenode_pending_remove (n : hdfs_namenode) (msgno : Int) : hdfs_namenode × Option Nat :=
  match pending_scan n.nn_pending msgno n.nn_pending_len 0 with
  | none => (n, none)
  | some i =>
    let res := (n.nn_pending.getD i default).pd_future
    let pending :=
      if i ≠ n.nn_pending_len - 1 then
        n.nn_pending.set i (n.nn_pending.getD (n.nn_pending_len - 1) default)
      else n.nn_pending
    ({ n with nn_pending := pending, nn_pending_len := n.nn_pending_len - 1 }, some res)

/-! ## Completing a slot -/

/-- The function `_future_complete`: store the object and broadcast the slot's
condition, under the slot's lock. -/
def _future_complete (w : World) (f : Nat) (o : Option hdfs_object) : Outcome Unit :=
  match o with
  | none => .abort w .assert_obj
  | some obj =>
    match w.futures[f]? with
    | none => .abort w .bad_pointer
    | some fu =>
      if fu.fu_res.isSome then .abort w .assert_no_res
      else .ok { w with
        futures := w.futures.set f { fu with fu_res := some obj }
        trace := w.trace ++ [Event.notifyall f] } ()

/-- The function `_future_complete_unlocked`: store the object. -/
def _future_complete_unlocked (w : World) (f : Nat) (o : Option hdfs_object) : Outcome Unit :=
  match o with
  | none => .abort w .assert_obj
  | some obj =>
    match w.futures[f]? with
    | none => .abort w .bad_pointer
    | some fu =>
      if fu.fu_res.isSome then .abort w .assert_no_res
      else .ok { w with futures := w.futures.set f { fu with fu_res := some obj } } ()

/-! ## Connect, authenticate, invoke -/

/-- The function `hdfs_namenode_connect`; `conn` is what `_connect` answers,
an error text or the descriptor of the new socket. -/
def hdfs_namenode_connect (conn : Except String Int) (w : World) : Outcome (Option String) :=
  if w.n.nn_sock ≠ -1 then .abort w .assert_sock_absent
  else
    match conn with
    | .error err => .ok w (some err)
    | .ok fd => .ok { w with n := { w.n with nn_sock := fd } } none

/-- The six bytes of `"hrpc\x04\x50"`. -/
def preamble : List Nat := [0x68, 0x72, 0x70, 0x63, 0x04, 0x50]

/-- The function `hdfs_namenode_authenticate`; `werr` is what `_write_all`
answers. -/
def hdfs_namenode_authenticate (codec : Codec) (username : String) (werr : Option String)
    (w : World) : Outcome (Option String) :=
  if w.n.nn_authed then .abort w .assert_not_authed
  else if w.n.nn_sock = -1 then .abort w .assert_sock
  else
    let header := codec.hdfs_authheader_new username
    let hbuf := codec.hdfs_object_serialize header
    let buf1 := realloc 0 hbuf.buf (hbuf.size + preamble.length)
    let buf2 := memmove buf1 preamble.length 0 hbuf.used
    let buf3 := memcpy buf2 0 preamble
    let hbuf1 : hdfs_heap_buf :=
      { buf := buf3, used := hbuf.used + preamble.length, size := hbuf.size + preamble.length }
    .ok { w with
      n := { w.n with nn_authed := true }
      trace := w.trace ++ [Event.write w.n.nn_sock (hbuf1.buf.take hbuf1.used)] } werr

/-- Lines 115-143 of `hdfs_namenode_invoke`: the assertions and the part under
the state lock. The value is the error text of an early exit, or the message
number taken. -/
def invoke_locked (w : World) (rpc : Option hdfs_object) (future : Nat) :
    Outcome (String ⊕ Int) :=
  match w.futures[future]? with
  | none => .abort w .assert_future
  | some fu =>
    if fu.fu_namenode then .abort w .assert_unbound
    else
      match rpc with
      | none => .abort w .assert_rpc
      | some r =>
        if r.ob_type ≠ H_RPC_INVOCATION then .abort w .assert_rpc_type
        else if ¬ (w.n.nn_refs ≥ 1) then .abort w .assert_refs
        else if w.n.nn_dead then .abort w .assert_not_dead
        else if w.n.nn_sock = -1 then .ok w (.inl "Not connected")
        else if ¬ w.n.nn_authed then .ok w (.inl "Not authenticated")
        else
          let msgno := w.n.nn_msgno
          let n1 := { w.n with nn_msgno := wrap64 (w.n.nn_msgno + 1) }
          match _namenode_copyref_unlocked n1 with
          | none => .abort w .assert_refs
          | some n2 =>
            match _namenode_pending_insert_unlocked n2 msgno future with
            | none => .abort w .bad_pointer
            | some n3 =>
              .ok { w with n := n3, futures := w.futures.set future { fu with fu_namenode := true } }
                (.inr msgno)

/-- Lines 146-154 of `hdfs_namenode_invoke`: stamp, serialize, transmit under
the send lock; `werr` is what `_write_all` answers. -/
def invoke_send (codec : Codec) (rpc : hdfs_object) (msgno : Int) (werr : Option String)
    (w : World) : Outcome (Option String) :=
  let hbuf := codec.hdfs_object_serialize (_rpc_invocation_set_msgno rpc msgno)
  .ok { w with trace := w.trace ++ [Event.write w.n.nn_sock (hbuf.buf.take hbuf.used)] } werr

/-- The function `hdfs_namenode_invoke`. -/
def hdfs_namenode_invoke (codec : Codec) (rpc : Option hdfs_object) (future : Nat)
    (werr : Option String) (w : World) : Outcome (Option String) :=
  (invoke_locked w rpc future).bind fun w1 r =>
    match r with
    | .inl err => .ok w1 (some err)
    | .inr msgno =>
      match rpc with
      | some r => invoke_send codec r msgno werr w1
      | none => .abort w1 .assert_rpc

/-! ## The receive pump -/

/-- Lines 254-264 of `_namenode_recv`: follow the slot to its session and test
and set the flag `nn_worked` under the state lock. The value is `nnworked`,
the flag as found. -/
def recv_enter (w : World) (goal_future : Nat) : Outcome Bool :=
  match w.futures[goal_future]? with
  | none => .abort w .bad_pointer
  | some fu =>
    if ¬ fu.fu_namenode then .abort w .null_namenode
    else
      let nnworked := w.n.nn_worked
      if ¬ nnworked then .ok { w with n := { w.n with nn_worked := true } } nnworked
      else .ok w nnworked

/-- The loop of lines 366-374, with `k` rounds left: every round looks at entry
0 of the pending array; a round that finds the goal there goes on to the next
round, any other round broadcasts that slot's condition and leaves the loop. -/
def recv_wake (n : hdfs_namenode) (goal_future : Nat) : Nat → List Event
  | 0 => []
  | k + 1 =>
    let pf := (n.nn_pending.getD 0 default).pd_future
    if pf = goal_future then recv_wake n goal_future k
    else [Event.notifyall pf]

/-- Lines 358-383 of `_namenode_recv`: clear `nn_worked`, wake a pending slot,
return `res`. -/
def recv_exit (w : World) (goal_future : Nat) (res : Bool) : Outcome Bool :=
  if ¬ w.n.nn_worked then .abort w .assert_worked
  else
    let n1 := { w.n with nn_worked := false }
    let woken := if n1.nn_pending_len > 0 then recv_wake n1 goal_future n1.nn_pending_len else []
    .ok { w with n := n1, trace := w.trace ++ woken } res

/-- Lines 283-290: when fewer than 4 KiB remain, the buffer grows by 16 KiB. -/
def recv_grow (n : hdfs_namenode) : hdfs_namenode :=
  if (n.nn_recvbuf_size : Int) - n.nn_recvbuf_used < 4 * 1024 then
    { n with
      nn_recvbuf_size := n.nn_recvbuf_size + 16 * 1024
      nn_recvbuf := realloc 0 n.nn_recvbuf (n.nn_recvbuf_size + 16 * 1024) }
  else n

/-- The state after lines 302-306 and 320-324: socket closed, session dead. -/
def recv_bail (w : World) : World :=
  { w with
    n := { w.n with nn_sock := -1, nn_dead := true }
    trace := w.trace ++ [Event.close w.n.nn_sock] }

/-- Lines 335-337: skip the buffer forward over a frame of `obj_size` bytes. -/
def recv_advance (n : hdfs_namenode) (obj_size : Nat) : hdfs_namenode :=
  let used := n.nn_recvbuf_used - obj_size
  { n with
    nn_recvbuf_used := used
    nn_recvbuf := if used ≠ 0 then memmove n.nn_recvbuf 0 obj_size used else n.nn_recvbuf }

/-- Where the pump goes after lines 279-337. -/
inductive recv_next where
  | again
  | out
  | got (rs_msgno : Int) (rs_obj : Option hdfs_object)
  deriving DecidableEq, Repr

/-- Lines 279-337 of `_namenode_recv`: probe the buffer; on an incomplete frame
read once from the socket, on a complete one skip the buffer forward. -/
def recv_parse (codec : Codec) (w : World) (sock : Int) : Outcome recv_next :=
  if sock = -1 then .abort w .assert_sock
  else
    match codec._hdfs_result_deserialize (w.n.nn_recvbuf.take w.n.nn_recvbuf_used) with
    | .incomplete =>
      let n1 := recv_grow w.n
      let remain : Int := (n1.nn_recvbuf_size : Int) - n1.nn_recvbuf_used
      match w.sock_in with
      | [] => .blocked { w with n := n1 }
      | .eof :: rest => .ok { w with n := n1, sock_in := rest } .out
      | .error :: rest => .abort (recv_bail { w with n := n1, sock_in := rest }) .assert_false_read
      | .data bytes :: rest =>
        let now := bytes.take remain.toNat
        let later := bytes.drop remain.toNat
        let rest1 := if later = [] then rest else .data later :: rest
        if now.length = 0 then .ok { w with n := n1, sock_in := rest1 } .out
        else
          .ok { w with
            n := { n1 with
              nn_recvbuf := memcpy n1.nn_recvbuf n1.nn_recvbuf_used now
              nn_recvbuf_used := n1.nn_recvbuf_used + now.length }
            sock_in := rest1 } .again
    | .invalid => .abort (recv_bail w) .assert_false_proto
    | .result rs_msgno rs_obj obj_size =>
      .ok { w with n := recv_advance w.n obj_size } (.got rs_msgno rs_obj)

/-- Lines 339-340: take the entry for `rs_msgno` out of the pending table; a
response nobody asked for fails the assertion. -/
def recv_remove (w : World) (rs_msgno : Int) : Outcome Nat :=
  match _namenode_pending_remove w.n rs_msgno with
  | (n1, some future) => .ok { w with n := n1 } future
  | (_, none) => .abort w .assert_found

/-- Lines 342-345: hand the object to the slot, without the slot's lock when
the slot is the caller's own. -/
def recv_complete (w : World) (goal_future future : Nat) (rs_obj : Option hdfs_object) :
    Outcome Unit :=
  if future = goal_future then _future_complete_unlocked w future rs_obj
  else _future_complete w future rs_obj

/-- Lines 339-355: one demultiplexing step. The value tells whether the slot
served is the goal. -/
def recv_demux (w : World) (goal_future : Nat) (rs_msgno : Int) (rs_obj : Option hdfs_object) :
    Outcome Bool :=
  (recv_remove w rs_msgno).bind fun w1 future =>
    (recv_complete w1 goal_future future rs_obj).bind fun w2 _ =>
      .ok w2 (decide (future = goal_future))

/-- The main loop of `_namenode_recv` (lines 267-356) followed by the exit
code, with `fuel` rounds allowed. -/
def recv_loop (codec : Codec) (goal_future : Nat) : Nat → World → Outcome Bool
  | 0, _ => .nofuel
  | fuel + 1, w =>
    if w.n.nn_dead ∨ w.n.nn_refs = 1 then recv_exit w goal_future false
    else
      (recv_parse codec w w.n.nn_sock).bind fun w1 next =>
        match next with
        | .out => .ok w1 false
        | .again => recv_loop codec goal_future fuel w1
        | .got rs_msgno rs_obj =>
          (recv_demux w1 goal_future rs_msgno rs_obj).bind fun w2 mine =>
            if mine then recv_exit w2 goal_future true
            else recv_loop codec goal_future fuel w2

/-- Number of bytes and read results still to arrive; every round of the pump
that reads lowers it. -/
def sock_in_size : List ReadResult → Nat
  | [] => 0
  | .data bytes :: rest => bytes.length + 1 + sock_in_size rest
  | _ :: rest => 1 + sock_in_size rest

/-- The function `_namenode_recv`. Every round of the main loop either lowers
what is left to arrive or removes a pending entry, which bounds the rounds. -/
def _namenode_recv (codec : Codec) (w : World) (goal_future : Nat) : Outcome Bool :=
  (recv_enter w goal_future).bind fun w1 nnworked =>
    if nnworked then .ok w1 false
    else recv_loop codec goal_future (sock_in_size w1.sock_in + w1.n.nn_pending_len + 1) w1

/-! ## Await and destroy -/

/-- Lines 179-183 of `hdfs_future_get`: read the result out, drop the
reference, zero the slot. -/
def future_finish (w : World) (future : Nat) : Outcome (Option hdfs_object) :=
  match w.futures[future]? with
  | none => .abort w .bad_pointer
  | some fu =>
    if ¬ fu.fu_namenode then .abort w .null_namenode
    else
      (_namenode_decref w).bind fun w1 _ =>
        .ok { w1 with futures := w1.futures.set future future_zero } fu.fu_res

/-- The function `hdfs_future_get`, run with no other thread around: a pump
that comes back without the result leaves the caller in `_wait`, where nobody
will wake it. -/
def hdfs_future_get (codec : Codec) (w : World) (future : Nat) : Outcome (Option hdfs_object) :=
  match w.futures[future]? with
  | none => .abort w .bad_pointer
  | some fu =>
    if fu.fu_res.isSome then future_finish w future
    else
      (_namenode_recv codec w future).bind fun w1 found =>
        if found then
          match w1.futures[future]? with
          | none => .abort w1 .bad_pointer
          | some fu1 =>
            if fu1.fu_res.isSome then future_finish w1 future
            else .abort w1 .assert_found
        else .blocked w1

/-- Lines 192-197 of `hdfs_namenode_destroy`, the part under the state lock. -/
def destroy_locked (w : World) (cb : Option Nat) : Outcome Unit :=
  if ¬ (w.n.nn_refs ≥ 1) then .abort w .assert_refs
  else if w.n.nn_dead then .abort w .assert_not_dead
  else .ok { w with n := { w.n with nn_dead := true, nn_destroy_cb := cb } } ()

/-- The function `hdfs_namenode_destroy`. -/
def hdfs_namenode_destroy (w : World) (cb : Option Nat) : Outcome Unit :=
  (destroy_locked w cb).bind fun w1 _ => _namenode_decref w1

/-! ## The RPC bodies of `highlevel.c` -/

/-- The template `_HDFS_PRIM_RPC_BODY(name, htype, result, retval, dflt, args...)`.
The local slot `future` is a new zero-initialised cell; `result` computes
`retval` from the object; `exception_out` is the content of the caller's
variable before the call, and the second component of the value is its content
after the call. -/
def _HDFS_PRIM_RPC_BODY {α : Type} (codec : Codec) (name : String) (htype : hdfs_object_type)
    (result : hdfs_object → α) (dflt : α) (args : List hdfs_object) (werr : Option String)
    (w : World) (exception_out : Option hdfs_object) : Outcome (α × Option hdfs_object) :=
  let future := w.futures.length
  let rpc := codec.hdfs_rpc_invocation_new name args
  (hdfs_namenode_invoke codec (some rpc) future werr
      { w with futures := w.futures ++ [future_zero] }).bind fun w1 error =>
    if error.isSome then .abort w1 .assert_not_err
    else
      (hdfs_future_get codec w1 future).bind fun w2 object =>
        match object with
        | none => .abort w2 .bad_pointer
        | some obj =>
          if ¬ (obj.ob_type = htype ∨ obj.ob_type = H_PROTOCOL_EXCEPTION) then
            .abort w2 .assert_tag
          else if obj.ob_type = H_PROTOCOL_EXCEPTION then .ok w2 (dflt, some obj)
          else .ok w2 (result obj, exception_out)

/-- The template `_HDFS_OBJ_RPC_BODY(name, htype, args...)`; the first component
of the value is the object returned, `none` for `NULL`. -/
def _HDFS_OBJ_RPC_BODY (codec : Codec) (name : String) (htype : hdfs_object_type)
    (args : List hdfs_object) (werr : Option String)
    (w : World) (exception_out : Option hdfs_object) :
    Outcome (Option hdfs_object × Option hdfs_object) :=
  let future := w.futures.length
  let rpc := codec.hdfs_rpc_invocation_new name args
  (hdfs_namenode_invoke codec (some rpc) future werr
      { w with futures := w.futures ++ [future_zero] }).bind fun w1 error =>
    if error.isSome then .abort w1 .assert_not_err
    else
      (hdfs_future_get codec w1 future).bind fun w2 object =>
        match object with
        | none => .abort w2 .bad_pointer
        | some obj =>
          if ¬ (obj.ob_type = htype ∨ (obj.ob_type = H_NULL ∧ obj._null_type = htype)
              ∨ obj.ob_type = H_PROTOCOL_EXCEPTION) then
            .abort w2 .assert_tag
          else if obj.ob_type = H_PROTOCOL_EXCEPTION then .ok w2 (none, some obj)
          else .ok w2 (some obj, exception_out)

/-- Modelled from the spec: the constructor `hdfs_string_new` of `objects.c`. -/
def hdfs_string_new (s : String) : hdfs_object :=
  { ob_type := H_STRING, body := s.toList.map Char.toNat }

/-- Modelled from the spec: the constructor `hdfs_long_new` of `objects.c`. -/
def hdfs_long_new (v : Int) : hdfs_object :=
  { ob_type := H_LONG, _long_val := v }

/-- The function `hdfs_getProtocolVersion`. -/
def hdfs_getProtocolVersion (codec : Codec) (protocol : String) (client_version : Int) :
    Option String → World → Option hdfs_object → Outcome (Int × Option hdfs_object) :=
  _HDFS_PRIM_RPC_BODY codec "getProtocolVersion" H_LONG (fun object => object._long_val) 0
    [hdfs_string_new protocol, hdfs_long_new client_version]

/-- The function `hdfs_rename`. -/
def hdfs_rename (codec : Codec) (src dst : String) :
    Option String → World → Option hdfs_object → Outcome (Bool × Option hdfs_object) :=
  _HDFS_PRIM_RPC_BODY codec "rename" H_BOOLEAN (fun object => object._boolean_val) false
    [hdfs_string_new src, hdfs_string_new dst]

/-- The function `hdfs_renewLease`, one of those returning `void`. -/
def hdfs_renewLease (codec : Codec) (client : String) :
    Option String → World → Option hdfs_object → Outcome (Unit × Option hdfs_object) :=
  _HDFS_PRIM_RPC_BODY codec "renewLease" H_VOID (fun _ => ()) ()
    [hdfs_string_new client]

/-- The function `hdfs_getPreferredBlockSize`. -/
def hdfs_getPreferredBlockSize (codec : Codec) (path : String) :
    Option String → World → Option hdfs_object → Outcome (Int × Option hdfs_object) :=
  _HDFS_PRIM_RPC_BODY codec "getPreferredBlockSize" H_LONG (fun object => object._long_val) 0
    [hdfs_string_new path]

/-- The function `hdfs_getFileInfo`. -/
def hdfs_getFileInfo (codec : Codec) (path : String) :
    Option String → World → Option hdfs_object → Outcome (Option hdfs_object × Option hdfs_object) :=
  _HDFS_OBJ_RPC_BODY codec "getFileInfo" H_FILE_STATUS [hdfs_string_new path]

/-! ## A small codec for concrete runs -/

/-- Tags as bytes, for the small codec. -/
def tag_of_byte : Nat → hdfs_object_type
  | 0 => H_VOID
  | 1 => H_NULL
  | 2 => H_BOOLEAN
  | 3 => H_LONG
  | 4 => H_FILE_STATUS
  | _ => H_PROTOCOL_EXCEPTION

/-- A codec for concrete runs. A response frame is four bytes: message number,
tag, declared type of a null, value. Objects are serialized as their message
number followed by their body, with two spare bytes of capacity. -/
def stub_codec : Codec :=
  { hdfs_rpc_invocation_new := fun name args =>
      { ob_type := H_RPC_INVOCATION, body := name.length :: args.map fun a => a.body.length }
    hdfs_authheader_new := fun username =>
      { ob_type := H_AUTHHEADER, body := username.toList.map Char.toNat }
    hdfs_object_serialize := fun o =>
      { buf := o._msgno.toNat :: o.body ++ [0, 0], used := o.body.length + 1,
        size := o.body.length + 3 }
    _hdfs_result_deserialize := fun bytes =>
      match bytes with
      | m :: t :: d :: v :: _ =>
        if t = 9 then .invalid
        else .result m (some { ob_type := tag_of_byte t, _long_val := v, _boolean_val := decide (v ≠ 0),
                               _null_type := tag_of_byte d }) 4
      | _ => .incomplete }

/-! ## Runs of complete calls -/

/-- The state a call leaves when it returns. -/
def Outcome.world {α : Type} : Outcome α → Option World
  | .ok w _ => some w
  | _ => none

/-- The value a call returns. -/
def Outcome.value {α : Type} : Outcome α → Option α
  | .ok _ a => some a
  | _ => none

/-- The place where a call aborted. -/
def Outcome.fault {α : Type} : Outcome α → Option Fault
  | .abort _ f => some f
  | _ => none

/-- One complete call of the session interface, with the answers of the
environment it meets; `new_future` makes one more zero-initialised slot. -/
inductive Call where
  | new_future
  | connect (conn : Except String Int)
  | authenticate (username : String) (werr : Option String)
  | invoke (rpc : Option hdfs_object) (future : Nat) (werr : Option String)
  | future_get (future : Nat)
  | destroy (cb : Option Nat)

/-- The state after a call that returns; `none` when it does not return. -/
def Call.run (codec : Codec) : Call → World → Option World
  | .new_future, w => some { w with futures := w.futures ++ [future_zero] }
  | .connect conn, w => (hdfs_namenode_connect conn w).world
  | .authenticate username werr, w => (hdfs_namenode_authenticate codec username werr w).world
  | .invoke rpc future werr, w => (hdfs_namenode_invoke codec rpc future werr w).world
  | .future_get future, w => (hdfs_future_get codec w future).world
  | .destroy cb, w => (hdfs_namenode_destroy w cb).world

/-- The state after a sequence of calls, one after the other, all returning. -/
def runCalls (codec : Codec) : List Call → World → Option World
  | [], w => some w
  | c :: cs, w =>
    match c.run codec w with
    | some w1 => runCalls codec cs w1
    | none => none

/-- Whether a call is a `destroy`. -/
def Call.is_destroy : Call → Bool
  | .destroy _ => true
  | _ => false

/-- Number of slots bound to the session. -/
def bound_slots (w : World) : Nat :=
  (w.futures.map fun fu => fu.fu_namenode).count true

/-- Number of times the last-reference branch of `_namenode_decref` has run. -/
def teardowns (w : World) : Nat :=
  w.trace.count Event.teardown

/-- What the receive pump leaves alone. -/
structure PumpFrame (w w1 : World) : Prop where
  refs : w1.n.nn_refs = w.n.nn_refs
  dead : w1.n.nn_dead = w.n.nn_dead
  sock : w1.n.nn_sock = w.n.nn_sock
  authed : w1.n.nn_authed = w.n.nn_authed
  msgno : w1.n.nn_msgno = w.n.nn_msgno
  cb : w1.n.nn_destroy_cb = w.n.nn_destroy_cb
  flags : w1.futures.map (fun fu => fu.fu_namenode) = w.futures.map (fun fu => fu.fu_namenode)
  torn : teardowns w1 = teardowns w

/-- A connected and authenticated session on socket 5 with `nslots`
zero-initialised slots. -/
def ready_world (nslots : Nat) (sock_in : List ReadResult) : World :=
  { World.init nslots sock_in with
    n := { hdfs_namenode_init with nn_sock := 5, nn_authed := true } }

/-- An invocation object of the small codec. -/
def stub_rpc : hdfs_object :=
  stub_codec.hdfs_rpc_invocation_new "getProtocolVersion" []

/-- The state after `calls`, when they all return; the state before otherwise. -/
def World.after (w : World) (calls : List Call) : World :=
  (runCalls stub_codec calls w).getD w

/-- One call in flight on slot 0 of a ready session, and its reply, a long
integer 42 under message number 0, about to arrive. -/
def flight_world : World :=
  (ready_world 1 [.data [0, 3, 0, 42]]).after [.invoke (some stub_rpc) 0 none]

/-- The entries of the pending array that are in use. -/
def pending_entries (n : hdfs_namenode) : List _hdfs_pending :=
  n.nn_pending.take n.nn_pending_len

/-- A stream of parsed responses is demultiplexed one response after the
other; each response comes with the goal slot of the pump that handles it. -/
def demux_stream : World → List (Nat × Int × Option hdfs_object) → Outcome Unit
  | w, [] => .ok w ()
  | w, (goal_future, rs_msgno, rs_obj) :: rest =>
    (recv_demux w goal_future rs_msgno rs_obj).bind fun w1 _ => demux_stream w1 rest

/-- What the demultiplexing of the stream `rs` needs of the state: the entries
in use lie in the allocated array and carry distinct message numbers; the
stream answers each message number at most once and only message numbers of
the table, with objects that are not null; the slots it answers are distinct
and hold no result yet. -/
structure DemuxReady (w : World) (rs : List (Nat × Int × Option hdfs_object)) : Prop where
  cap : w.n.nn_pending_len ≤ w.n.nn_pending.length
  distinct : ((pending_entries w.n).map fun e => e.pd_msgno).Nodup
  fresh : (rs.map fun r => r.2.1).Nodup
  issued : ∀ r ∈ rs, r.2.1 ∈ (pending_entries w.n).map fun e => e.pd_msgno
  objects : ∀ r ∈ rs, r.2.2 ≠ none
  slots : ∀ e1 ∈ pending_entries w.n, ∀ e2 ∈ pending_entries w.n,
    e1.pd_msgno ∈ rs.map (fun r => r.2.1) → e2.pd_msgno ∈ rs.map (fun r => r.2.1) →
    e1.pd_future = e2.pd_future → e1 = e2
  empty : ∀ e ∈ pending_entries w.n, e.pd_msgno ∈ rs.map (fun r => r.2.1) →
    ∃ fu, w.futures[e.pd_future]? = some fu ∧ fu.fu_res = none

/-- What the demultiplexing of the stream `rs` achieves: every slot answered
holds the object sent under its message number and is otherwise as before,
every other slot is untouched, and exactly the entries answered have left the
table. -/
structure DemuxDone (w : World) (rs : List (Nat × Int × Option hdfs_object)) (w1 : World) :
    Prop where
  served : ∀ e ∈ pending_entries w.n, ∀ r ∈ rs, r.2.1 = e.pd_msgno →
    ∃ fu fu1, w.futures[e.pd_future]? = some fu ∧ w1.futures[e.pd_future]? = some fu1 ∧
      fu1.fu_res = r.2.2 ∧ fu1.fu_namenode = fu.fu_namenode
  others : ∀ f, (∀ e ∈ pending_entries w.n, e.pd_msgno ∈ rs.map (fun r => r.2.1) →
    e.pd_future ≠ f) → w1.futures[f]? = w.futures[f]?
  table : ∀ e, e ∈ pending_entries w1.n ↔
    (e ∈ pending_entries w.n ∧ e.pd_msgno ∉ rs.map fun r => r.2.1)
  len : w1.n.nn_pending_len + rs.length = w.n.nn_pending_len

/-- The accounting of references: the count is one for the caller, until
destroy, plus one for every bound slot; the last-reference branch has run once
when destroy has been called and no slot is bound, and not at all otherwise; a
destroyed session with slots outstanding is dead. -/
def RefInvN (refs : Int) (bound torn : Nat) (dead destroyed : Bool) : Prop :=
  refs = (if destroyed then 0 else 1) + bound ∧
  torn = (if destroyed = true ∧ bound = 0 then 1 else 0) ∧
  (destroyed = true → bound > 0 → dead = true)

/-- The accounting `RefInvN` read off a state. -/
def RefInv (w : World) (destroyed : Bool) : Prop :=
  RefInvN w.n.nn_refs (bound_slots w) (teardowns w) w.n.nn_dead destroyed

/-- Two calls are made on slots 0 and 1, both replies arrive while slot 1 is
awaited, the session is destroyed with the result of slot 0 not yet collected,
and at last slot 0 is awaited. -/
def lifetime_calls : List Call :=
  [.connect (.ok 5), .authenticate "bob" none,
   .invoke (some stub_rpc) 0 none, .invoke (some stub_rpc) 1 none,
   .future_get 1, .destroy (some 9), .future_get 0]

/-! ## Threads -/

/-- What the invariants need to know of where a thread stands: in no call that
concerns a slot (`free`); awaiting slot `f` outside the pump's main loop
(`getting`); inside the main loop of the pump with goal `f` (`inside`); past
the decrement of `_namenode_decref` with the last reference in hand, slot `f`
not yet zeroed (`tearing`); past `_namenode_decref`, slot `f` not yet zeroed
(`released`); in `hdfs_namenode_destroy` between its two locked regions
(`destroying`); in the last-reference branch on behalf of destroy
(`destroy_tearing`). -/
inductive Cat where
  | free
  | getting (f : Nat)
  | inside (f : Nat)
  | tearing (f : Nat)
  | released (f : Nat)
  | destroying
  | destroy_tearing
  deriving DecidableEq, Repr

/-- The slot a thread is awaiting. -/
def Cat.slot : Cat → Option Nat
  | .getting f => some f
  | .inside f => some f
  | .tearing f => some f
  | .released f => some f
  | _ => none

/-- Whether the thread is inside the main loop of the pump. -/
def Cat.is_inside : Cat → Bool
  | .inside _ => true
  | _ => false

/-- Whether the thread has dropped the reference of slot `f` and not yet zeroed
the slot. -/
def Cat.is_post (f : Nat) : Cat → Bool
  | .tearing g => decide (g = f)
  | .released g => decide (g = f)
  | _ => false

/-- Whether the thread holds the last reference, about to tear down. -/
def Cat.is_tearing : Cat → Bool
  | .tearing _ => true
  | .destroy_tearing => true
  | _ => false

/-- The part of the state the invariants speak of: reference count, the flag
`nn_worked`, the flag `nn_dead`, the counter `nn_msgno`, for every slot whether
it is bound, where every thread stands, and whether the reference of the
caller has not been dropped yet (an auxiliary that no step reads). -/
structure Abs where
  refs : Int
  worked : Bool
  dead : Bool
  msgno : Int
  flags : List Bool
  cats : List Cat
  caller_ref : Bool

/-- Whether slot `f` accounts for one reference: it is bound and its reference
has not been dropped. -/
def Abs.contrib (a : Abs) (f : Nat) : Bool :=
  a.flags.getD f false && !(a.cats.any (Cat.is_post f))

/-- Number of slots that account for a reference. -/
def Abs.held (a : Abs) : Nat :=
  (List.range a.flags.length).countP a.contrib

/-- The steps of the threads, seen on `Abs`; a step that takes a message number
is labelled with it. -/
inductive AStep : Abs → Option Int → Abs → Prop where
  | stutter (a : Abs) : AStep a none a
  | quiet (a : Abs) (t f : Nat) (c : Cat) :
      a.cats[t]? = some c → (c = .free ∨ c = .getting f ∨ c = .inside f) →
      AStep a none a
  | start_get (a : Abs) (t f : Nat) :
      a.cats[t]? = some .free → (∀ c ∈ a.cats, c.slot ≠ some f) →
      AStep a none { a with cats := a.cats.set t (.getting f) }
  | enter (a : Abs) (t f : Nat) :
      a.cats[t]? = some (.getting f) → a.worked = false → a.flags[f]? = some true →
      AStep a none { a with worked := true, cats := a.cats.set t (.inside f) }
  | leave (a : Abs) (t f : Nat) (worked : Bool) :
      a.cats[t]? = some (.inside f) → (worked = a.worked ∨ worked = false) →
      AStep a none { a with worked := worked, cats := a.cats.set t (.getting f) }
  | bind (a : Abs) (t f : Nat) :
      a.cats[t]? = some .free → a.flags[f]? = some false → a.refs ≥ 1 → a.dead = false →
      AStep a (some a.msgno)
        { a with refs := a.refs + 1, msgno := wrap64 (a.msgno + 1), flags := a.flags.set f true }
  | release (a : Abs) (t f : Nat) :
      a.cats[t]? = some (.getting f) → a.flags[f]? = some true → a.refs ≥ 1 →
      AStep a none { a with
        refs := a.refs - 1
        cats := a.cats.set t (if a.refs - 1 = 0 then .tearing f else .released f) }
  | teardown (a : Abs) (t f : Nat) :
      a.cats[t]? = some (.tearing f) →
      AStep a none { a with
        refs := 0, worked := false, dead := false, msgno := 0
        cats := a.cats.set t (.released f) }
  | memset (a : Abs) (t f : Nat) :
      a.cats[t]? = some (.released f) →
      AStep a none { a with flags := a.flags.set f false, cats := a.cats.set t .free }
  | destroy (a : Abs) (t : Nat) :
      a.cats[t]? = some .free → a.refs ≥ 1 → a.dead = false →
      AStep a none { a with dead := true, cats := a.cats.set t .destroying }
  | destroy_release (a : Abs) (t : Nat) :
      a.cats[t]? = some .destroying → a.refs ≥ 1 →
      AStep a none { a with
        refs := a.refs - 1, caller_ref := false
        cats := a.cats.set t (if a.refs - 1 = 0 then .destroy_tearing else .free) }
  | destroy_teardown (a : Abs) (t : Nat) :
      a.cats[t]? = some .destroy_tearing →
      AStep a none { a with
        refs := 0, worked := false, dead := false, msgno := 0
        cats := a.cats.set t .free }
  | new_slot (a : Abs) : AStep a none { a with flags := a.flags ++ [false] }

/-- The invariant of the threads: at most one thread is inside the main loop
of the pump, and then `nn_worked` is set; no slot is awaited by two threads; a
slot whose thread is inside the pump or has dropped its reference is bound;
the reference count is that of the caller plus one for every slot accounting
for one; a thread between the two parts of destroy finds the session dead
with the reference of the caller in place; without that reference the session
is dead or without references; a thread in the last-reference branch finds
no reference; at most one thread is between the two parts of destroy. -/
structure AInv (a : Abs) : Prop where
  excl : ∀ t u f g : Nat, a.cats[t]? = some (.inside f) → a.cats[u]? = some (.inside g) → t = u
  flag : ∀ t f : Nat, a.cats[t]? = some (.inside f) → a.worked = true
  own : ∀ (t u : Nat) (c d : Cat) (f : Nat), a.cats[t]? = some c → a.cats[u]? = some d →
    c.slot = some f → d.slot = some f → t = u
  bound : ∀ t f : Nat, (a.cats[t]? = some (.inside f) ∨ a.cats[t]? = some (.tearing f) ∨
    a.cats[t]? = some (.released f)) → a.flags[f]? = some true
  count : a.refs = (if a.caller_ref then 1 else 0) + a.held
  destroying : ∀ t : Nat, a.cats[t]? = some .destroying → a.caller_ref = true ∧ a.dead = true
  gone : a.caller_ref = false → a.dead = true ∨ a.refs = 0
  tearing : ∀ (t : Nat) (c : Cat), a.cats[t]? = some c → c.is_tearing = true → a.refs = 0
  single : ∀ t u : Nat, a.cats[t]? = some .destroying → a.cats[u]? = some .destroying → t = u

/-- The message numbers taken so far are `0, 1, 2, ...` in this order, and the
counter of a session that holds a reference is their number, as a signed
64-bit integer. -/
def MsgnoInv (a : Abs) (issued : List Int) : Prop :=
  (a.refs ≥ 1 → a.msgno = wrap64 issued.length) ∧
  (issued.length ≤ 2 ^ 63 → issued = (List.range issued.length).map Int.ofNat)

/-- The labels of a step appended to the message numbers taken so far. -/
def issue (issued : List Int) : Option Int → List Int
  | none => issued
  | some m => issued ++ [m]


/-- Where a thread stands in the code: in no call (`idle`); in
`hdfs_namenode_invoke` before line 146, number taken; in `hdfs_future_get` at
the loop test of line 168, in `_wait` at line 177, after the loop at line 179,
in the last-reference branch of `_namenode_decref`, before the `memset` of line
183; in `_namenode_recv` before line 256, at the top of the main loop (line
268), before line 279, before line 339, before line 342, before line 359 with
`res` set; in `hdfs_namenode_destroy` before line 199, and in the
last-reference branch of its `_namenode_decref`. -/
inductive Pc where
  | idle
  | invoke_send (rpc : hdfs_object) (msgno : Int)
  | get_loop (future : Nat)
  | get_wait (future : Nat)
  | get_finish (future : Nat)
  | get_teardown (future : Nat)
  | get_memset (future : Nat)
  | recv_enter (goal_future : Nat)
  | recv_head (goal_future : Nat)
  | recv_parse (goal_future : Nat) (sock : Int)
  | recv_remove (goal_future : Nat) (rs_msgno : Int) (rs_obj : Option hdfs_object)
  | recv_complete (goal_future future : Nat) (rs_obj : Option hdfs_object)
  | recv_exit (goal_future : Nat)
  | destroy_decref
  | destroy_teardown
  deriving DecidableEq, Repr

/-- What the invariants need to know of a place in the code. -/
def Pc.cat : Pc → Cat
  | .idle => .free
  | .invoke_send _ _ => .free
  | .get_loop f => .getting f
  | .get_wait f => .getting f
  | .get_finish f => .getting f
  | .recv_enter f => .getting f
  | .recv_head f => .inside f
  | .recv_parse f _ => .inside f
  | .recv_remove f _ _ => .inside f
  | .recv_complete f _ _ => .inside f
  | .recv_exit f => .inside f
  | .get_teardown f => .tearing f
  | .get_memset f => .released f
  | .destroy_decref => .destroying
  | .destroy_teardown => .destroy_tearing

/-- What a thread is told to do: start a call when it is idle, or carry on with
the call it is in (`next`; `werr` is what `_write_all` answers when the step
writes). -/
inductive Move where
  | new_future
  | connect (conn : Except String Int)
  | authenticate (username : String) (werr : Option String)
  | invoke (rpc : Option hdfs_object) (future : Nat)
  | future_get (future : Nat)
  | destroy (cb : Option Nat)
  | next (werr : Option String)

/-- Threads sharing one session: the world, where every thread stands, and
whether the reference of the caller has not been dropped yet (an auxiliary
that no step reads). -/
structure Threads where
  w : World
  pcs : List Pc
  caller_ref : Bool

/-- Any number of idle threads around a freshly initialised session. -/
def Threads.init (nthreads nslots : Nat) (sock_in : List ReadResult) : Threads :=
  { w := World.init nslots sock_in
    pcs := List.replicate nthreads .idle
    caller_ref := true }

/-- One step of thread `t`: one region under the state lock, or one stretch of
code between two such regions. A slot is awaited by one thread at a time: a
thread starts awaiting slot `future` only when no other thread is awaiting it.
A wait on the condition may end at any time. The value is the new state and
the message number taken, if any; `none` when the thread cannot make the
step, or the process aborts. -/
def step (codec : Codec) (s : Threads) (t : Nat) (mv : Move) : Option (Threads × Option Int) :=
  match s.pcs[t]?, mv with
  | some .idle, .new_future =>
    some ({ s with w := { s.w with futures := s.w.futures ++ [future_zero] } }, none)
  | some .idle, .connect conn =>
    match hdfs_namenode_connect conn s.w with
    | .ok w1 _ => some ({ s with w := w1 }, none)
    | _ => none
  | some .idle, .authenticate username werr =>
    match hdfs_namenode_authenticate codec username werr s.w with
    | .ok w1 _ => some ({ s with w := w1 }, none)
    | _ => none
  | some .idle, .invoke rpc future =>
    match invoke_locked s.w rpc future, rpc with
    | .ok w1 (.inl _), _ => some ({ s with w := w1 }, none)
    | .ok w1 (.inr msgno), some r =>
      some ({ s with w := w1, pcs := s.pcs.set t (.invoke_send r msgno) }, some msgno)
    | _, _ => none
  | some .idle, .future_get future =>
    if s.pcs.all (fun pc => decide (pc.cat.slot ≠ some future)) then
      some ({ s with pcs := s.pcs.set t (.get_loop future) }, none)
    else none
  | some .idle, .destroy cb =>
    match destroy_locked s.w cb with
    | .ok w1 _ => some ({ s with w := w1, pcs := s.pcs.set t .destroy_decref }, none)
    | _ => none
  | some (.invoke_send rpc msgno), .next werr =>
    match invoke_send codec rpc msgno werr s.w with
    | .ok w1 _ => some ({ s with w := w1, pcs := s.pcs.set t .idle }, none)
    | _ => none
  | some (.get_loop future), .next _ =>
    match s.w.futures[future]? with
    | none => none
    | some fu =>
      some ({ s with
        pcs := s.pcs.set t (if fu.fu_res.isSome then .get_finish future
                            else .recv_enter future) }, none)
  | some (.get_wait future), .next _ =>
    some ({ s with pcs := s.pcs.set t (.get_loop future) }, none)
  | some (.recv_enter goal_future), .next _ =>
    match recv_enter s.w goal_future with
    | .ok w1 nnworked =>
      some ({ s with
        w := w1
        pcs := s.pcs.set t (if nnworked then .get_wait goal_future
                            else .recv_head goal_future) }, none)
    | _ => none
  | some (.recv_head goal_future), .next _ =>
    if s.w.n.nn_dead ∨ s.w.n.nn_refs = 1 then
      match recv_exit s.w goal_future false with
      | .ok w1 _ => some ({ s with w := w1, pcs := s.pcs.set t (.get_wait goal_future) }, none)
      | _ => none
    else some ({ s with pcs := s.pcs.set t (.recv_parse goal_future s.w.n.nn_sock) }, none)
  | some (.recv_parse goal_future sock), .next _ =>
    match recv_parse codec s.w sock with
    | .ok w1 .out => some ({ s with w := w1, pcs := s.pcs.set t (.get_wait goal_future) }, none)
    | .ok w1 .again => some ({ s with w := w1, pcs := s.pcs.set t (.recv_head goal_future) }, none)
    | .ok w1 (.got rs_msgno rs_obj) =>
      some ({ s with w := w1, pcs := s.pcs.set t (.recv_remove goal_future rs_msgno rs_obj) }, none)
    | _ => none
  | some (.recv_remove goal_future rs_msgno rs_obj), .next _ =>
    match recv_remove s.w rs_msgno with
    | .ok w1 future =>
      some ({ s with w := w1, pcs := s.pcs.set t (.recv_complete goal_future future rs_obj) }, none)
    | _ => none
  | some (.recv_complete goal_future future rs_obj), .next _ =>
    match recv_complete s.w goal_future future rs_obj with
    | .ok w1 _ =>
      some ({ s with
        w := w1
        pcs := s.pcs.set t (if future = goal_future then .recv_exit goal_future
                            else .recv_head goal_future) }, none)
    | _ => none
  | some (.recv_exit goal_future), .next _ =>
    match recv_exit s.w goal_future true with
    | .ok w1 _ =>
      match w1.futures[goal_future]? with
      | some fu =>
        if fu.fu_res.isSome then
          some ({ s with w := w1, pcs := s.pcs.set t (.get_finish goal_future) }, none)
        else none
      | none => none
    | _ => none
  | some (.get_finish future), .next _ =>
    match s.w.futures[future]? with
    | none => none
    | some fu =>
      if fu.fu_namenode then
        match decref_locked s.w with
        | .ok w1 lastref =>
          some ({ s with
            w := w1
            pcs := s.pcs.set t (if lastref then .get_teardown future
                                else .get_memset future) }, none)
        | _ => none
      else none
  | some (.get_teardown future), .next _ =>
    some ({ s with w := decref_teardown s.w, pcs := s.pcs.set t (.get_memset future) }, none)
  | some (.get_memset future), .next _ =>
    some ({ s with
      w := { s.w with futures := s.w.futures.set future future_zero }
      pcs := s.pcs.set t .idle }, none)
  | some .destroy_decref, .next _ =>
    match decref_locked s.w with
    | .ok w1 lastref =>
      some ({ s with
        w := w1
        pcs := s.pcs.set t (if lastref then .destroy_teardown else .idle)
        caller_ref := false }, none)
    | _ => none
  | some .destroy_teardown, .next _ =>
    some ({ s with w := decref_teardown s.w, pcs := s.pcs.set t .idle }, none)
  | _, _ => none

/-- A schedule is run step by step; the message numbers taken are collected in
the order they are taken. -/
def run (codec : Codec) : List (Nat × Move) → Threads → List Int → Option (Threads × List Int)
  | [], s, issued => some (s, issued)
  | (t, mv) :: rest, s, issued =>
    match step codec s t mv with
    | some (s1, l) => run codec rest s1 (issue issued l)
    | none => none

/-- The part of the state of the threads that the invariants speak of. -/
def Threads.abs (s : Threads) : Abs :=
  { refs := s.w.n.nn_refs
    worked := s.w.n.nn_worked
    dead := s.w.n.nn_dead
    msgno := s.w.n.nn_msgno
    flags := s.w.futures.map fun fu => fu.fu_namenode
    cats := s.pcs.map Pc.cat
    caller_ref := s.caller_ref }

/-- Whether thread `t` is inside the main loop of the pump, between setting
and clearing `nn_worked`. -/
def Threads.in_pump (s : Threads) (t : Nat) : Prop :=
  ∃ pc, s.pcs[t]? = some pc ∧ pc.cat.is_inside = true

/-- Two worlds that agree on what the invariants speak of. -/
structure SameView (w w1 : World) : Prop where
  refs : w1.n.nn_refs = w.n.nn_refs
  worked : w1.n.nn_worked = w.n.nn_worked
  dead : w1.n.nn_dead = w.n.nn_dead
  msgno : w1.n.nn_msgno = w.n.nn_msgno
  flags : w1.futures.map (fun fu => fu.fu_namenode) = w.futures.map (fun fu => fu.fu_namenode)

/-- The state of the threads after the schedule `sched` of the small codec, when
every step of it can be made; the state before otherwise. -/
def Threads.after (s : Threads) (sched : List (Nat × Move)) : Threads :=
  ((run stub_codec sched s []).map Prod.fst).getD s

/-- The message numbers taken along the schedule `sched` of the small codec. -/
def Threads.issued (s : Threads) (sched : List (Nat × Move)) : List Int :=
  ((run stub_codec sched s []).map Prod.snd).getD []

/-- Two threads make one call each, on slots 0 and 1; thread 0 then awaits slot
0 and gets into the main loop of the pump; thread 1 awaits slot 1, finds the
flag set, leaves the pump and waits. -/
def two_callers : List (Nat × Move) :=
  [(0, .connect (.ok 5)), (0, .authenticate "bob" none),
   (0, .invoke (some stub_rpc) 0), (1, .invoke (some stub_rpc) 1),
   (0, .next none), (1, .next none),
   (0, .future_get 0), (0, .next none), (0, .next none),
   (1, .future_get 1), (1, .next none), (1, .next none)]

/-- A session with three calls pending, under message numbers 0, 1 and 2, in
an array of four cells. -/
def three_pending : hdfs_namenode :=
  { hdfs_namenode_init with
    nn_refs := 4, nn_sock := 5, nn_authed := true, nn_msgno := 3
    nn_pending := [⟨0, 10⟩, ⟨1, 11⟩, ⟨2, 12⟩, ⟨0, 0⟩]
    nn_pending_len := 3 }

/-- A session whose receive buffer of eight cells holds one whole frame of four
bytes followed by the first two bytes of the next frame. -/
def frame_and_a_half : hdfs_namenode :=
  { hdfs_namenode_init with
    nn_refs := 2, nn_sock := 5, nn_authed := true, nn_msgno := 1
    nn_recvbuf := [0, 3, 0, 42, 1, 3, 0, 0]
    nn_recvbuf_used := 6
    nn_recvbuf_size := 8 }

/-- One operation on the pending table. -/
inductive PendingOp where
  | insert (msgno : Int) (future : Nat)
  | remove (msgno : Int)
  deriving DecidableEq, Repr

/-- The session after one operation on the pending table; `none` when an insert
stores outside the allocated array. -/
def PendingOp.apply (n : hdfs_namenode) : PendingOp → Option hdfs_namenode
  | .insert msgno future => _namenode_pending_insert_unlocked n msgno future
  | .remove msgno => some (_namenode_pending_remove n msgno).1

/-- The session after a sequence of operations on the pending table. -/
def pending_ops : List PendingOp → hdfs_namenode → Option hdfs_namenode
  | [], n => some n
  | op :: ops, n =>
    match op.apply n with
    | some n1 => pending_ops ops n1
    | none => none

/-- The allocated pending array covers the entries in use, rounded up to the
next multiple of 16. -/
def CapInv (n : hdfs_namenode) : Prop :=
  16 * ((n.nn_pending_len + 15) / 16) ≤ n.nn_pending.length

/-- Seventeen inserts, then seventeen removes. -/
def grow_and_shrink : List PendingOp :=
  (List.range 17).map (fun i : Nat => PendingOp.insert (i : Int) i)
    ++ (List.range 17).map (fun i : Nat => PendingOp.remove (i : Int))

/-- One call in flight on slot 0 of a ready session with an empty receive
buffer; the peer then closes the connection, so the next `read` returns 0. -/
def eof_world : World :=
  (ready_world 1 [.eof]).after [.invoke (some stub_rpc) 0 none]

/-- Two calls in flight, on slots 0 and 1 (entries 0 and 1 of the pending
array), on a session on which `hdfs_namenode_destroy` has then been called. -/
def destroyed_world : World :=
  (ready_world 2 []).after
    [.invoke (some stub_rpc) 0 none, .invoke (some stub_rpc) 1 none, .destroy none]

/-- The slot a thread has taken out of the pending table and is about to
complete. -/
def Pc.completing : Pc → Option Nat
  | .recv_complete _ future _ => some future
  | _ => none

/-- The slot a thread has found complete and is about to read, release and
zero. -/
def Pc.finishing : Pc → Option Nat
  | .get_finish future => some future
  | .get_teardown future => some future
  | .get_memset future => some future
  | _ => none

/-- Slot `f` is bound and holds no result. -/
def Waiting (futures : List hdfs_rpc_response_future) (f : Nat) : Prop :=
  ∃ fu, futures[f]? = some fu ∧ fu.fu_namenode = true ∧ fu.fu_res = none

/-- The invariant of the slots: the pending array covers its entries; no slot
is pending twice; a pending slot is bound and empty; so is a slot taken out of
the table and not yet completed, and it is no longer pending; an unbound slot
is empty; a slot being finished holds a result. -/
structure SlotInv (w : World) (pcs : List Pc) : Prop where
  cap : CapInv w.n
  nodup : ((pending_entries w.n).map fun e => e.pd_future).Nodup
  pending : ∀ e ∈ pending_entries w.n, Waiting w.futures e.pd_future
  taken : ∀ (t : Nat) (pc : Pc) (f : Nat), pcs[t]? = some pc → pc.completing = some f →
    Waiting w.futures f ∧ ∀ e ∈ pending_entries w.n, e.pd_future ≠ f
  unbound : ∀ (f : Nat) (fu : hdfs_rpc_response_future), w.futures[f]? = some fu →
    fu.fu_namenode = false → fu.fu_res = none
  finishing : ∀ (t : Nat) (pc : Pc) (f : Nat), pcs[t]? = some pc → pc.finishing = some f →
    ∃ fu, w.futures[f]? = some fu ∧ fu.fu_res.isSome = true

/-- Two worlds with the same pending table and the same slots. -/
structure SameSlots (w w1 : World) : Prop where
  pending : w1.n.nn_pending = w.n.nn_pending
  len : w1.n.nn_pending_len = w.n.nn_pending_len
  futures : w1.futures = w.futures

/-- Two threads make one call each, on slots 0 and 1; thread 0 awaits slot 0,
takes the receiver role, reads the response to message number 1 and takes
slot 1 out of the pending table: it is about to complete slot 1. -/
def until_complete : List (Nat × Move) :=
  [(0, .connect (.ok 5)), (0, .authenticate "bob" none),
   (0, .invoke (some stub_rpc) 0), (1, .invoke (some stub_rpc) 1),
   (0, .next none), (1, .next none),
   (0, .future_get 0), (0, .next none), (0, .next none), (0, .next none), (0, .next none),
   (0, .next none), (0, .next none), (0, .next none)]

/-- The session with another receive buffer: its bytes, its used count and its
size. -/
def hdfs_namenode.rebuf (n : hdfs_namenode) (buf : List Nat) (used size : Nat) : hdfs_namenode :=
  { n with nn_recvbuf := buf, nn_recvbuf_used := used, nn_recvbuf_size := size }

/-- The used part of the receive buffer is `c`, and `nn_recvbuf_size` is the
number of bytes allocated. -/
def Holds (n : hdfs_namenode) (c : List Nat) : Prop :=
  n.nn_recvbuf_used = c.length ∧ n.nn_recvbuf.take c.length = c ∧
    n.nn_recvbuf_size = n.nn_recvbuf.length

/-- The world without the spare room of its receive buffer: the buffer is cut
down to its used bytes `[0, used)`. -/
def World.trim (w : World) : World :=
  { w with
    n := w.n.rebuf (w.n.nn_recvbuf.take w.n.nn_recvbuf_used) w.n.nn_recvbuf_used
      w.n.nn_recvbuf_used }

/-- The world after the pump has skipped a frame carrying `m`, which leaves the
buffer `buf` with `used` bytes in use, and has handed `obj` to slot `f`. -/
def served (w : World) (goal f : Nat) (m : Int) (obj : hdfs_object)
    (fu : hdfs_rpc_response_future) (buf : List Nat) (used size : Nat)
    (rest : List ReadResult) : World :=
  { n := (_namenode_pending_remove w.n m).1.rebuf buf used size
    futures := w.futures.set f { fu with fu_res := some obj }
    sock_in := rest
    trace := w.trace ++ (if f = goal then [] else [Event.notifyall f]) }

/-- The world after the pump has left `served` through the end of its critical
section, `nn_worked` cleared and the slot at the head of the pending array
woken. -/
def served_exit (w : World) (goal f : Nat) (m : Int) (obj : hdfs_object)
    (fu : hdfs_rpc_response_future) (buf : List Nat) (used size : Nat)
    (rest : List ReadResult) : World :=
  { served w goal f m obj fu buf used size rest with
    n := ({ (_namenode_pending_remove w.n m).1 with nn_worked := false }).rebuf buf used size
    trace := (w.trace ++ (if f = goal then [] else [Event.notifyall f]))
      ++ (if (_namenode_pending_remove w.n m).1.nn_pending_len > 0 then
            recv_wake (_namenode_pending_remove w.n m).1 goal
              (_namenode_pending_remove w.n m).1.nn_pending_len
          else []) }

/-- The object the small codec parses out of the frame `[0, 3, 0, 42]`: the
long integer 42. -/
def long_42 : hdfs_object :=
  { ob_type := H_LONG, _long_val := 42, _boolean_val := true }

/-- C3: on a live session (`nn_refs >= 1`, not dead) and an unbound slot,
`hdfs_namenode_invoke` of an invocation object returns "Not connected" when the
socket is absent, and otherwise "Not authenticated" when the session is not
authenticated; in both cases the whole state, slot included, is as before. -/
theorem invoke_not_ready (codec : Codec) (w : World) (rpc : hdfs_object) (future : Nat)
    (werr : Option String) (fu : hdfs_rpc_response_future)
    (hrefs : w.n.nn_refs ≥ 1) (hdead : w.n.nn_dead = false)
    (hslot : w.futures[future]? = some fu) (hunbound : fu.fu_namenode = false)
    (hrpc : rpc.ob_type = H_RPC_INVOCATION) :
    (w.n.nn_sock = -1 →
      hdfs_namenode_invoke codec (some rpc) future werr w = .ok w (some "Not connected")) ∧
    (w.n.nn_sock ≠ -1 → w.n.nn_authed = false →
      hdfs_namenode_invoke codec (some rpc) future werr w = .ok w (some "Not authenticated")) := by
  constructor
  · intro hs
    simp [hdfs_namenode_invoke, invoke_locked, hslot, hunbound, hrpc, hrefs, hdead, hs,
      Outcome.bind]
  · intro hs ha
    simp [hdfs_namenode_invoke, invoke_locked, hslot, hunbound, hrpc, hrefs, hdead, hs, ha,
      Outcome.bind]

/-- Witness of C3: a fresh session is not connected; once connected it is not
authenticated. -/
theorem invoke_not_ready_witness :
    hdfs_namenode_invoke stub_codec (some { ob_type := H_RPC_INVOCATION }) 0 none
        (World.init 1 []) = .ok (World.init 1 []) (some "Not connected") ∧
    hdfs_namenode_invoke stub_codec (some { ob_type := H_RPC_INVOCATION }) 0 none
        { World.init 1 [] with n := { hdfs_namenode_init with nn_sock := 5 } }
      = .ok { World.init 1 [] with n := { hdfs_namenode_init with nn_sock := 5 } }
          (some "Not authenticated") :=
  ⟨(invoke_not_ready stub_codec (World.init 1 []) { ob_type := H_RPC_INVOCATION } 0 none
      future_zero (by decide) rfl rfl rfl rfl).1 (by decide),
   (invoke_not_ready stub_codec { World.init 1 [] with n := { hdfs_namenode_init with nn_sock := 5 } }
      { ob_type := H_RPC_INVOCATION } 0 none future_zero (by decide) rfl rfl rfl rfl).2
      (by decide) rfl⟩

theorem map_set_same {α β : Type} (g : α → β) (l : List α) (i : Nat) (a b : α)
    (h : l[i]? = some a) (hg : g b = g a) : (l.set i b).map g = l.map g := by
  induction l generalizing i with
  | nil => simp
  | cons x xs ih =>
    cases i with
    | zero => simp at h; simp [h, hg]
    | succ j => simp at h; simp [ih j h]

theorem pumpframe_refl (w : World) : PumpFrame w w :=
  ⟨rfl, rfl, rfl, rfl, rfl, rfl, rfl, rfl⟩

theorem PumpFrame.trans {a b c : World} (h1 : PumpFrame a b) (h2 : PumpFrame b c) :
    PumpFrame a c :=
  ⟨h2.refs.trans h1.refs, h2.dead.trans h1.dead, h2.sock.trans h1.sock,
   h2.authed.trans h1.authed, h2.msgno.trans h1.msgno, h2.cb.trans h1.cb,
   h2.flags.trans h1.flags, h2.torn.trans h1.torn⟩

theorem recv_enter_frame {w w1 : World} {g : Nat} {b : Bool}
    (h : recv_enter w g = .ok w1 b) : PumpFrame w w1 := by
  unfold recv_enter at h
  split at h
  · simp at h
  · split at h
    · simp at h
    · dsimp only at h
      split at h <;> (simp at h; obtain ⟨rfl, _⟩ := h; exact ⟨rfl, rfl, rfl, rfl, rfl, rfl, rfl, rfl⟩)

theorem recv_wake_no_teardown (n : hdfs_namenode) (g k : Nat) :
    (recv_wake n g k).count Event.teardown = 0 := by
  induction k with
  | zero => simp [recv_wake]
  | succ k ih =>
    simp only [recv_wake]
    split
    · exact ih
    · simp

theorem recv_exit_frame {w w1 : World} {g : Nat} {r b : Bool}
    (h : recv_exit w g r = .ok w1 b) : PumpFrame w w1 := by
  unfold recv_exit at h
  split at h
  · simp at h
  · simp at h
    obtain ⟨rfl, _⟩ := h
    refine ⟨rfl, rfl, rfl, rfl, rfl, rfl, rfl, ?_⟩
    simp only [teardowns, List.count_append]
    split
    · simp [recv_wake_no_teardown]
    · simp

theorem recv_parse_frame {codec : Codec} {w w1 : World} {sock : Int} {nx : recv_next}
    (h : recv_parse codec w sock = .ok w1 nx) : PumpFrame w w1 := by
  unfold recv_parse at h
  split at h
  · simp at h
  · split at h
    · split at h
      · simp at h
      · simp at h
        obtain ⟨rfl, _⟩ := h
        refine ⟨?_, ?_, ?_, ?_, ?_, ?_, rfl, rfl⟩ <;> (simp only [recv_grow]; split <;> rfl)
      · simp at h
      · dsimp only at h
        split at h <;>
        · simp at h
          obtain ⟨rfl, _⟩ := h
          refine ⟨?_, ?_, ?_, ?_, ?_, ?_, rfl, rfl⟩ <;> (simp only [recv_grow]; split <;> rfl)
    · simp at h
    · simp at h
      obtain ⟨rfl, _⟩ := h
      exact ⟨rfl, rfl, rfl, rfl, rfl, rfl, rfl, rfl⟩


theorem pending_remove_fields (n : hdfs_namenode) (m : Int) :
    (_namenode_pending_remove n m).1.nn_refs = n.nn_refs ∧
    (_namenode_pending_remove n m).1.nn_dead = n.nn_dead ∧
    (_namenode_pending_remove n m).1.nn_sock = n.nn_sock ∧
    (_namenode_pending_remove n m).1.nn_authed = n.nn_authed ∧
    (_namenode_pending_remove n m).1.nn_msgno = n.nn_msgno ∧
    (_namenode_pending_remove n m).1.nn_destroy_cb = n.nn_destroy_cb ∧
    (_namenode_pending_remove n m).1.nn_worked = n.nn_worked ∧
    (_namenode_pending_remove n m).1.nn_recvbuf = n.nn_recvbuf ∧
    (_namenode_pending_remove n m).1.nn_recvbuf_used = n.nn_recvbuf_used ∧
    (_namenode_pending_remove n m).1.nn_recvbuf_size = n.nn_recvbuf_size := by
  unfold _namenode_pending_remove
  split <;> simp

theorem recv_remove_frame {w w1 : World} {m : Int} {f : Nat}
    (h : recv_remove w m = .ok w1 f) : PumpFrame w w1 := by
  unfold recv_remove at h
  have hf := pending_remove_fields w.n m
  split at h
  · rename_i n1 fut heq
    simp at h
    obtain ⟨rfl, _⟩ := h
    rw [heq] at hf
    exact ⟨hf.1, hf.2.1, hf.2.2.1, hf.2.2.2.1, hf.2.2.2.2.1, hf.2.2.2.2.2.1, rfl, rfl⟩
  · simp at h

theorem future_complete_frame {w w1 : World} {f : Nat} {o : Option hdfs_object}
    (h : _future_complete w f o = .ok w1 ()) : PumpFrame w w1 := by
  unfold _future_complete at h
  split at h
  · simp at h
  · split at h
    · simp at h
    · rename_i fu hfu
      split at h
      · simp at h
      · simp at h
        subst h
        refine ⟨rfl, rfl, rfl, rfl, rfl, rfl, ?_, ?_⟩
        · exact map_set_same _ _ _ fu _ hfu rfl
        · simp [teardowns, List.count_append]

theorem future_complete_unlocked_frame {w w1 : World} {f : Nat} {o : Option hdfs_object}
    (h : _future_complete_unlocked w f o = .ok w1 ()) : PumpFrame w w1 := by
  unfold _future_complete_unlocked at h
  split at h
  · simp at h
  · split at h
    · simp at h
    · rename_i fu hfu
      split at h
      · simp at h
      · simp at h
        subst h
        exact ⟨rfl, rfl, rfl, rfl, rfl, rfl, map_set_same _ _ _ fu _ hfu rfl, rfl⟩

theorem recv_complete_frame {w w1 : World} {g f : Nat} {o : Option hdfs_object}
    (h : recv_complete w g f o = .ok w1 ()) : PumpFrame w w1 := by
  unfold recv_complete at h
  split at h
  · exact future_complete_unlocked_frame h
  · exact future_complete_frame h

theorem bind_ok {α β : Type} {o : Outcome α} {k : World → α → Outcome β} {w : World} {b : β}
    (h : o.bind k = .ok w b) : ∃ w1 a, o = .ok w1 a ∧ k w1 a = .ok w b := by
  cases o with
  | ok w1 a => exact ⟨w1, a, rfl, h⟩
  | abort w1 f => simp [Outcome.bind] at h
  | blocked w1 => simp [Outcome.bind] at h
  | nofuel => simp [Outcome.bind] at h

theorem recv_demux_frame {w w1 : World} {g : Nat} {m : Int} {o : Option hdfs_object} {b : Bool}
    (h : recv_demux w g m o = .ok w1 b) : PumpFrame w w1 := by
  unfold recv_demux at h
  obtain ⟨wa, f, h1, h2⟩ := bind_ok h
  obtain ⟨wb, u, h3, h4⟩ := bind_ok h2
  simp at h4
  obtain ⟨rfl, _⟩ := h4
  exact (recv_remove_frame h1).trans (recv_complete_frame h3)

theorem recv_loop_frame (codec : Codec) (g : Nat) (fuel : Nat) :
    ∀ (w w1 : World) (b : Bool), recv_loop codec g fuel w = .ok w1 b → PumpFrame w w1 := by
  induction fuel with
  | zero => intro w w1 b h; simp [recv_loop] at h
  | succ fuel ih =>
    intro w w1 b h
    unfold recv_loop at h
    split at h
    · exact recv_exit_frame h
    · obtain ⟨wa, nx, h1, h2⟩ := bind_ok h
      have f1 := recv_parse_frame h1
      cases nx with
      | out => simp at h2; obtain ⟨rfl, _⟩ := h2; exact f1
      | again => exact f1.trans (ih _ _ _ h2)
      | got m o =>
        simp only at h2
        obtain ⟨wb, mine, h3, h4⟩ := bind_ok h2
        have f2 := f1.trans (recv_demux_frame h3)
        split at h4
        · exact f2.trans (recv_exit_frame h4)
        · exact f2.trans (ih _ _ _ h4)

theorem namenode_recv_frame {codec : Codec} {w w1 : World} {g : Nat} {b : Bool}
    (h : _namenode_recv codec w g = .ok w1 b) : PumpFrame w w1 := by
  unfold _namenode_recv at h
  obtain ⟨wa, nw, h1, h2⟩ := bind_ok h
  have f1 := recv_enter_frame h1
  split at h2
  · simp at h2; obtain ⟨rfl, _⟩ := h2; exact f1
  · exact f1.trans (recv_loop_frame _ _ _ _ _ _ h2)

theorem decref_cases {w w1 : World} (h : _namenode_decref w = .ok w1 ()) :
    w.n.nn_refs ≥ 1 ∧
    ((w.n.nn_refs = 1 ∧ w1 = decref_teardown { w with n := { w.n with nn_refs := w.n.nn_refs - 1 } }) ∨
     (w.n.nn_refs ≠ 1 ∧ w1 = { w with n := { w.n with nn_refs := w.n.nn_refs - 1 } })) := by
  unfold _namenode_decref decref_locked at h
  split at h
  · rename_i hr
    refine ⟨hr, ?_⟩
    simp only [Outcome.bind] at h
    split at h
    · rename_i hl
      simp at hl
      simp at h
      left
      exact ⟨by omega, h.symm⟩
    · rename_i hl
      simp at hl
      simp at h
      right
      exact ⟨by omega, h.symm⟩
  · simp [Outcome.bind] at h

theorem future_finish_ok {w w1 : World} {f : Nat} {o : Option hdfs_object}
    (h : future_finish w f = .ok w1 o) :
    ∃ fu w2, w.futures[f]? = some fu ∧ fu.fu_namenode = true ∧ o = fu.fu_res ∧
      _namenode_decref w = .ok w2 () ∧ w1 = { w2 with futures := w2.futures.set f future_zero } := by
  unfold future_finish at h
  split at h
  · simp at h
  · rename_i fu hfu
    split at h
    · simp at h
    · rename_i hb
      simp at hb
      obtain ⟨w2, u, h1, h2⟩ := bind_ok h
      simp at h2
      exact ⟨fu, w2, hfu, hb, h2.2.symm, h1, h2.1.symm⟩

theorem future_get_ok {codec : Codec} {w w1 : World} {f : Nat} {o : Option hdfs_object}
    (h : hdfs_future_get codec w f = .ok w1 o) :
    ∃ fu, w.futures[f]? = some fu ∧
      ((fu.fu_res.isSome = true ∧ future_finish w f = .ok w1 o) ∨
       (fu.fu_res = none ∧ ∃ w2 fu2, _namenode_recv codec w f = .ok w2 true ∧
          w2.futures[f]? = some fu2 ∧ fu2.fu_res.isSome = true ∧
          future_finish w2 f = .ok w1 o)) := by
  unfold hdfs_future_get at h
  split at h
  · simp at h
  · rename_i fu hfu
    refine ⟨fu, hfu, ?_⟩
    split at h
    · rename_i hs
      exact Or.inl ⟨hs, h⟩
    · rename_i hs
      simp at hs
      right
      refine ⟨hs, ?_⟩
      obtain ⟨w2, found, h1, h2⟩ := bind_ok h
      cases found with
      | false => simp at h2
      | true =>
        simp only [if_true] at h2
        split at h2
        · simp at h2
        · rename_i fu2 hfu2
          split at h2
          · rename_i hs2
            exact ⟨w2, fu2, h1, hfu2, hs2, h2⟩
          · simp at h2

theorem future_get_pre_finish {codec : Codec} {w w1 : World} {f : Nat} {o : Option hdfs_object}
    (h : hdfs_future_get codec w f = .ok w1 o) :
    ∃ w2, PumpFrame w w2 ∧ future_finish w2 f = .ok w1 o := by
  obtain ⟨fu, _, h1 | h1⟩ := future_get_ok h
  · exact ⟨w, pumpframe_refl w, h1.2⟩
  · obtain ⟨_, w2, fu2, hr, _, _, hf⟩ := h1
    exact ⟨w2, namenode_recv_frame hr, hf⟩

theorem world_some {α : Type} {o : Outcome α} {w : World} (h : o.world = some w) :
    ∃ a, o = .ok w a := by
  cases o with
  | ok w1 a => simp [Outcome.world] at h; exact ⟨a, by rw [h]⟩
  | abort w1 f => simp [Outcome.world] at h
  | blocked w1 => simp [Outcome.world] at h
  | nofuel => simp [Outcome.world] at h

/-- C6: when `hdfs_future_get` on a bound slot returns, the object handed back
is the result deposited in the slot (the one already there, or the one the
pump put there when it reported success), it is not null, the session holds
one reference less and the slot is all-zero. A pump that comes back without
the result does not make the call return. -/
theorem future_get_returns (codec : Codec) (w : World) (future : Nat)
    (fu : hdfs_rpc_response_future)
    (hslot : w.futures[future]? = some fu) (hbound : fu.fu_namenode = true) :
    (∀ (w1 : World) (object : Option hdfs_object),
      hdfs_future_get codec w future = .ok w1 object →
        (∃ o, object = some o ∧
          (fu.fu_res = some o ∨
           (fu.fu_res = none ∧ ∃ w2 fu2, _namenode_recv codec w future = .ok w2 true ∧
              w2.futures[future]? = some fu2 ∧ fu2.fu_res = some o))) ∧
        w1.n.nn_refs = w.n.nn_refs - 1 ∧
        w1.futures[future]? = some future_zero) ∧
    (∀ w2 : World, fu.fu_res = none → _namenode_recv codec w future = .ok w2 false →
      hdfs_future_get codec w future = .blocked w2) := by
  have _ := hbound
  constructor
  · intro w1 object hget
    obtain ⟨w2, hfr, hfin⟩ := future_get_pre_finish hget
    obtain ⟨fu', hfu', hcase⟩ := future_get_ok hget
    rw [hslot] at hfu'
    cases hfu'
    obtain ⟨fuf, w3, hf1, hf2, hf3, hdec, rfl⟩ := future_finish_ok hfin
    have hlen : future < w3.futures.length := by
      have h1 : future < w2.futures.length := by
        rcases Nat.lt_or_ge future w2.futures.length with h | h
        · exact h
        · rw [List.getElem?_eq_none h] at hf1; cases hf1
      obtain ⟨_, hc | hc⟩ := decref_cases hdec
      · rw [hc.2]; exact h1
      · rw [hc.2]; exact h1
    refine ⟨?_, ?_, ?_⟩
    · rcases hcase with ⟨hs, hfin0⟩ | ⟨hn, w2', fu2, hr, hfu2, hs2, hfin2⟩
      · obtain ⟨fu0, _, hg1, _, hg3, _, _⟩ := future_finish_ok hfin0
        rw [hslot] at hg1
        cases hg1
        obtain ⟨o, ho⟩ := Option.isSome_iff_exists.mp hs
        exact ⟨o, by rw [hg3, ho], Or.inl ho⟩
      · obtain ⟨fu0, _, hg1, _, hg3, _, _⟩ := future_finish_ok hfin2
        rw [hfu2] at hg1
        cases hg1
        obtain ⟨o, ho⟩ := Option.isSome_iff_exists.mp hs2
        exact ⟨o, by rw [hg3, ho], Or.inr ⟨hn, w2', fu2, hr, hfu2, ho⟩⟩
    · obtain ⟨_, hc | hc⟩ := decref_cases hdec
      · rw [hc.2, ← hfr.refs, hc.1]
        rfl
      · rw [hc.2, ← hfr.refs]
    · simp [hlen]
  · intro w2 hn hr
    unfold hdfs_future_get
    simp [hslot, hn, hr, Outcome.bind]

/-- Witness of C6: the reply to the call in flight is handed back, the
reference count drops from 2 to 1 and the slot is zeroed. -/
theorem future_get_returns_witness :
    (∃ o, some ({ ob_type := H_LONG, _long_val := 42, _boolean_val := true } : hdfs_object) = some o ∧
      ((⟨true, none⟩ : hdfs_rpc_response_future).fu_res = some o ∨
       ((⟨true, none⟩ : hdfs_rpc_response_future).fu_res = none ∧
        ∃ w2 fu2, _namenode_recv stub_codec flight_world 0 = .ok w2 true ∧
          w2.futures[0]? = some fu2 ∧ fu2.fu_res = some o))) ∧
    (flight_world.after [.future_get 0]).n.nn_refs = flight_world.n.nn_refs - 1 ∧
    (flight_world.after [.future_get 0]).futures[0]? = some future_zero :=
  (future_get_returns stub_codec flight_world 0 ⟨true, none⟩ rfl rfl).1
    (flight_world.after [.future_get 0])
    (some { ob_type := H_LONG, _long_val := 42, _boolean_val := true }) rfl

theorem preamble_bytes (hb : hdfs_heap_buf) (hused : hb.used ≤ hb.size)
    (hsize : hb.size = hb.buf.length) :
    List.take (hb.used + preamble.length)
      (memcpy (memmove (realloc 0 hb.buf (hb.size + preamble.length)) preamble.length 0 hb.used)
        0 preamble) = [0x68, 0x72, 0x70, 0x63, 0x04, 0x50] ++ hb.buf.take hb.used := by
  have h6 : preamble.length = 6 := rfl
  have hu : hb.used ≤ hb.buf.length := by omega
  have hb1 : realloc 0 hb.buf (hb.size + preamble.length) = hb.buf ++ List.replicate 6 0 := by
    unfold realloc
    rw [h6, hsize, List.take_of_length_le (by omega)]
    congr 2
    omega
  rw [hb1]
  unfold memmove memcpy
  simp only [List.take_zero, List.nil_append, List.drop_zero, h6, Nat.zero_add]
  rw [List.take_append_eq_append_take]
  have hp : List.take (hb.used + 6) preamble = preamble := List.take_of_length_le (by rw [h6]; omega)
  have h7 : (List.take 6 (hb.buf ++ List.replicate 6 0)).length = 6 := by
    simp
  have h8 : (List.take hb.used (hb.buf ++ List.replicate 6 0)).length = hb.used := by
    simp
    omega
  rw [hp, h6, List.drop_append_of_le_length (by omega), List.drop_of_length_le (by omega)]
  have : hb.used + 6 - 6 = hb.used := by omega
  rw [this, List.nil_append, List.take_append_of_le_length (by omega),
    List.take_of_length_le (by omega), List.take_append_of_le_length hu]
  rfl

/-- C9: on a connected session that is not authenticated,
`hdfs_namenode_authenticate` hands to the socket write the bytes
68 72 70 63 04 50 followed by the serialized authentication header, and leaves
`nn_authed` set, whatever the write answers. The heap buffer of the codec has
`used` bytes in use out of `size` allocated. -/
theorem authenticate_writes (codec : Codec) (username : String) (werr : Option String)
    (w : World) (hsock : w.n.nn_sock ≠ -1) (hauth : w.n.nn_authed = false)
    (hused : (codec.hdfs_object_serialize (codec.hdfs_authheader_new username)).used
      ≤ (codec.hdfs_object_serialize (codec.hdfs_authheader_new username)).size)
    (hsize : (codec.hdfs_object_serialize (codec.hdfs_authheader_new username)).size
      = (codec.hdfs_object_serialize (codec.hdfs_authheader_new username)).buf.length) :
    ∃ w1, hdfs_namenode_authenticate codec username werr w = .ok w1 werr ∧
      w1.n.nn_authed = true ∧
      w1.trace = w.trace ++ [Event.write w.n.nn_sock
        ([0x68, 0x72, 0x70, 0x63, 0x04, 0x50] ++
          (codec.hdfs_object_serialize (codec.hdfs_authheader_new username)).buf.take
            (codec.hdfs_object_serialize (codec.hdfs_authheader_new username)).used)] ∧
      ([0x68, 0x72, 0x70, 0x63, 0x04, 0x50] ++
          (codec.hdfs_object_serialize (codec.hdfs_authheader_new username)).buf.take
            (codec.hdfs_object_serialize (codec.hdfs_authheader_new username)).used).length
        = 6 + (codec.hdfs_object_serialize (codec.hdfs_authheader_new username)).used := by
  unfold hdfs_namenode_authenticate
  simp only [hauth, hsock, if_false, Bool.false_eq_true]
  refine ⟨_, rfl, rfl, ?_, ?_⟩
  · simp only [List.append_cancel_left_eq, List.cons.injEq, Event.write.injEq, true_and, and_true]
    exact preamble_bytes _ hused hsize
  · simp
    omega

/-- Witness of C9: the small codec and user "bob" on a connected session, with
a failing write. -/
theorem authenticate_writes_witness :
    ∃ w1, hdfs_namenode_authenticate stub_codec "bob" (some "Broken pipe")
        { World.init 0 [] with n := { hdfs_namenode_init with nn_sock := 5 } }
        = .ok w1 (some "Broken pipe") ∧
      w1.n.nn_authed = true ∧
      w1.trace = [] ++ [Event.write 5 ([0x68, 0x72, 0x70, 0x63, 0x04, 0x50] ++
        (stub_codec.hdfs_object_serialize (stub_codec.hdfs_authheader_new "bob")).buf.take
          (stub_codec.hdfs_object_serialize (stub_codec.hdfs_authheader_new "bob")).used)] ∧
      ([0x68, 0x72, 0x70, 0x63, 0x04, 0x50] ++
        (stub_codec.hdfs_object_serialize (stub_codec.hdfs_authheader_new "bob")).buf.take
          (stub_codec.hdfs_object_serialize (stub_codec.hdfs_authheader_new "bob")).used).length
        = 6 + (stub_codec.hdfs_object_serialize (stub_codec.hdfs_authheader_new "bob")).used :=
  authenticate_writes stub_codec "bob" (some "Broken pipe")
    { World.init 0 [] with n := { hdfs_namenode_init with nn_sock := 5 } }
    (by decide) rfl (by decide) (by decide)

/-- C7: in both body templates, when the awaited object carries the tag
`H_PROTOCOL_EXCEPTION` the function returns its default (`dflt`, or `NULL` for
object returns) and stores that object through `exception_out`; when it
carries the expected tag the function returns the value extracted (the object
itself for object returns) and leaves `exception_out` as it was. -/
theorem facade_reply {α : Type} (codec : Codec) (name : String) (htype : hdfs_object_type)
    (result : hdfs_object → α) (dflt : α) (args : List hdfs_object) (werr : Option String)
    (w w1 w2 : World) (exception_out : Option hdfs_object) (obj : hdfs_object)
    (hinvoke : hdfs_namenode_invoke codec (some (codec.hdfs_rpc_invocation_new name args))
      w.futures.length werr { w with futures := w.futures ++ [future_zero] } = .ok w1 none)
    (hawait : hdfs_future_get codec w1 w.futures.length = .ok w2 (some obj)) :
    (obj.ob_type = H_PROTOCOL_EXCEPTION →
      _HDFS_PRIM_RPC_BODY codec name htype result dflt args werr w exception_out
        = .ok w2 (dflt, some obj) ∧
      _HDFS_OBJ_RPC_BODY codec name htype args werr w exception_out
        = .ok w2 (none, some obj)) ∧
    (obj.ob_type = htype → htype ≠ H_PROTOCOL_EXCEPTION →
      _HDFS_PRIM_RPC_BODY codec name htype result dflt args werr w exception_out
        = .ok w2 (result obj, exception_out) ∧
      _HDFS_OBJ_RPC_BODY codec name htype args werr w exception_out
        = .ok w2 (some obj, exception_out)) := by
  constructor
  · intro hex
    constructor
    · simp [_HDFS_PRIM_RPC_BODY, hinvoke, hawait, Outcome.bind, hex]
    · simp [_HDFS_OBJ_RPC_BODY, hinvoke, hawait, Outcome.bind, hex]
  · intro ht hne
    have hne2 : ¬ obj.ob_type = H_PROTOCOL_EXCEPTION := by rw [ht]; exact hne
    constructor
    · simp [_HDFS_PRIM_RPC_BODY, hinvoke, hawait, Outcome.bind, ht, hne]
    · simp [_HDFS_OBJ_RPC_BODY, hinvoke, hawait, Outcome.bind, ht, hne]

/-- Witness of C7: `hdfs_getProtocolVersion` answered by a long integer 42
returns 42, leaves the pending table empty and `exception_out` untouched;
`hdfs_rename` answered by a protocol exception returns `false` and hands the
exception object out. -/
theorem facade_reply_witness :
    (hdfs_getProtocolVersion stub_codec "x" 1 none (ready_world 0 [.data [0, 3, 0, 42]]) none
        = .ok ((ready_world 0 [.data [0, 3, 0, 42]]).after [.new_future,
            .invoke (some (stub_codec.hdfs_rpc_invocation_new "getProtocolVersion"
              [hdfs_string_new "x", hdfs_long_new 1])) 0 none, .future_get 0])
          (42, none) ∧
      ((ready_world 0 [.data [0, 3, 0, 42]]).after [.new_future,
            .invoke (some (stub_codec.hdfs_rpc_invocation_new "getProtocolVersion"
              [hdfs_string_new "x", hdfs_long_new 1])) 0 none, .future_get 0]).n.nn_pending_len = 0) ∧
    hdfs_rename stub_codec "/x" "/y" none (ready_world 0 [.data [0, 7, 0, 0]]) none
        = .ok ((ready_world 0 [.data [0, 7, 0, 0]]).after [.new_future,
            .invoke (some (stub_codec.hdfs_rpc_invocation_new "rename"
              [hdfs_string_new "/x", hdfs_string_new "/y"])) 0 none, .future_get 0])
          (false, some { ob_type := H_PROTOCOL_EXCEPTION, _null_type := H_VOID }) :=
  ⟨⟨((facade_reply stub_codec "getProtocolVersion" H_LONG (fun object => object._long_val) 0
        [hdfs_string_new "x", hdfs_long_new 1] none (ready_world 0 [.data [0, 3, 0, 42]])
        ((ready_world 0 [.data [0, 3, 0, 42]]).after [.new_future,
            .invoke (some (stub_codec.hdfs_rpc_invocation_new "getProtocolVersion"
              [hdfs_string_new "x", hdfs_long_new 1])) 0 none])
        _ none { ob_type := H_LONG, _long_val := 42, _boolean_val := true } rfl rfl).2 rfl
          (by decide)).1, by decide⟩,
   ((facade_reply stub_codec "rename" H_BOOLEAN (fun object => object._boolean_val) false
        [hdfs_string_new "/x", hdfs_string_new "/y"] none (ready_world 0 [.data [0, 7, 0, 0]])
        ((ready_world 0 [.data [0, 7, 0, 0]]).after [.new_future,
            .invoke (some (stub_codec.hdfs_rpc_invocation_new "rename"
              [hdfs_string_new "/x", hdfs_string_new "/y"])) 0 none])
        _ none { ob_type := H_PROTOCOL_EXCEPTION } rfl rfl).1 rfl).1⟩

/-- C8, as the code has it: a typed null (tag `H_NULL` declared as the expected
tag) passes the assertion of the object-return template and is returned as a
normal reply, `exception_out` as it was; the primitive-return template admits
only the expected tag and `H_PROTOCOL_EXCEPTION`, so there a typed null fails
the assertion. -/
theorem typed_null_reply {α : Type} (codec : Codec) (name : String) (htype : hdfs_object_type)
    (result : hdfs_object → α) (dflt : α) (args : List hdfs_object) (werr : Option String)
    (w w1 w2 : World) (exception_out : Option hdfs_object) (obj : hdfs_object)
    (hinvoke : hdfs_namenode_invoke codec (some (codec.hdfs_rpc_invocation_new name args))
      w.futures.length werr { w with futures := w.futures ++ [future_zero] } = .ok w1 none)
    (hawait : hdfs_future_get codec w1 w.futures.length = .ok w2 (some obj))
    (hnull : obj.ob_type = H_NULL) (hdecl : obj._null_type = htype) :
    _HDFS_OBJ_RPC_BODY codec name htype args werr w exception_out
      = .ok w2 (some obj, exception_out) ∧
    (htype ≠ H_NULL →
      _HDFS_PRIM_RPC_BODY codec name htype result dflt args werr w exception_out
        = .abort w2 .assert_tag) := by
  constructor
  · simp [_HDFS_OBJ_RPC_BODY, hinvoke, hawait, Outcome.bind, hnull, hdecl]
  · intro hne
    have h1 : ¬ H_NULL = htype := fun h => hne h.symm
    simp [_HDFS_PRIM_RPC_BODY, hinvoke, hawait, Outcome.bind, hnull, h1]

/-- Witness of C8: `hdfs_getFileInfo` answered by a null declared as a file
status returns that null object; `hdfs_getProtocolVersion` answered by a null
declared as a long integer aborts. -/
theorem typed_null_reply_witness :
    hdfs_getFileInfo stub_codec "/missing" none (ready_world 0 [.data [0, 1, 4, 0]]) none
      = .ok ((ready_world 0 [.data [0, 1, 4, 0]]).after [.new_future,
            .invoke (some (stub_codec.hdfs_rpc_invocation_new "getFileInfo"
              [hdfs_string_new "/missing"])) 0 none, .future_get 0])
          (some { ob_type := H_NULL, _null_type := H_FILE_STATUS }, none) :=
  (typed_null_reply stub_codec "getFileInfo" H_FILE_STATUS (fun _ => ()) ()
      [hdfs_string_new "/missing"] none (ready_world 0 [.data [0, 1, 4, 0]])
      ((ready_world 0 [.data [0, 1, 4, 0]]).after [.new_future,
            .invoke (some (stub_codec.hdfs_rpc_invocation_new "getFileInfo"
              [hdfs_string_new "/missing"])) 0 none])
      _ none { ob_type := H_NULL, _null_type := H_FILE_STATUS } rfl rfl rfl rfl).1

/-- Counterexample to C8 as stated: the reply awaited by
`hdfs_getProtocolVersion`, a primitive-return function expecting `H_LONG`, is
a null declared as `H_LONG`, and the function fails its tag assertion. -/
theorem prim_body_rejects_typed_null :
    (hdfs_future_get stub_codec
        ((ready_world 0 [.data [0, 1, 3, 0]]).after [.new_future,
            .invoke (some (stub_codec.hdfs_rpc_invocation_new "getProtocolVersion"
              [hdfs_string_new "x", hdfs_long_new 1])) 0 none]) 0).value
      = some (some { ob_type := H_NULL, _null_type := H_LONG }) ∧
    (hdfs_getProtocolVersion stub_codec "x" 1 none (ready_world 0 [.data [0, 1, 3, 0]]) none).fault
      = some Fault.assert_tag := by
  constructor
  · decide
  · decide

theorem pending_scan_some {pending : List _hdfs_pending} {m : Int} :
    ∀ {k i j : Nat}, pending_scan pending m k i = some j →
      i ≤ j ∧ j < i + k ∧ (pending.getD j default).pd_msgno = m := by
  intro k
  induction k with
  | zero => intro i j h; simp [pending_scan] at h
  | succ k ih =>
    intro i j h
    simp only [pending_scan] at h
    split at h
    · rename_i hm
      simp at h
      subst h
      exact ⟨le_refl _, by omega, hm⟩
    · obtain ⟨h1, h2, h3⟩ := ih h
      exact ⟨by omega, by omega, h3⟩

theorem pending_scan_none {pending : List _hdfs_pending} {m : Int} :
    ∀ {k i : Nat}, pending_scan pending m k i = none →
      ∀ j, i ≤ j → j < i + k → (pending.getD j default).pd_msgno ≠ m := by
  intro k
  induction k with
  | zero => intro i _ j h1 h2; omega
  | succ k ih =>
    intro i h j h1 h2
    simp only [pending_scan] at h
    split at h
    · simp at h
    · rename_i hm
      rcases Nat.eq_or_lt_of_le h1 with heq | hlt
      · subst heq; exact hm
      · exact ih h j (by omega) (by omega)

theorem pending_scan_mem {pending : List _hdfs_pending} {m : Int} {len : Nat}
    {e : _hdfs_pending}
    (he : e ∈ pending.take len) (hm : e.pd_msgno = m) :
    ∃ j, pending_scan pending m len 0 = some j := by
  cases h : pending_scan pending m len 0 with
  | some j => exact ⟨j, rfl⟩
  | none =>
    exfalso
    obtain ⟨j, hj, hje⟩ := List.getElem_of_mem he
    simp at hj
    have := pending_scan_none h j (Nat.zero_le _) (by omega)
    apply this
    rw [List.getElem_take] at hje
    rw [List.getD_eq_getElem _ _ (by omega), hje, hm]

theorem set_at_length {α : Type} (A : List α) (x l : α) (D : List α) :
    (A ++ x :: D).set A.length l = A ++ l :: D := by
  induction A with
  | nil => rfl
  | cons a A ih => simp [ih]

theorem nodup_key_unique {es : List _hdfs_pending}
    (hd : (es.map fun e => e.pd_msgno).Nodup) {a b : _hdfs_pending}
    (ha : a ∈ es) (hb : b ∈ es) (hab : a.pd_msgno = b.pd_msgno) : a = b :=
  List.inj_on_of_nodup_map hd ha hb hab


theorem swap_remove_perm {α : Type} [DecidableEq α] (d : α) (L : List α) :
    ∀ (k i : Nat), k + 1 ≤ L.length → i ≤ k → (L.take (k + 1)).Nodup →
      (List.take k (if i ≠ k then L.set i (L.getD k d) else L)).Perm
        ((L.take (k + 1)).erase (L.getD i d)) := by
  induction L with
  | nil => intro k i h; simp at h
  | cons a L ih =>
    intro k i hcap hi hnd
    cases i with
    | zero =>
      cases k with
      | zero => simp
      | succ k =>
        simp only [List.length_cons, Nat.add_le_add_iff_right] at hcap
        simp only [ne_eq, Nat.self_eq_add_left, Nat.add_one_ne_zero, not_false_eq_true,
          if_true, List.set_cons_zero, List.take_succ_cons, List.getD_cons_zero,
          List.erase_cons_head, List.getD_cons_succ, Nat.zero_ne_add_one]
        rw [List.take_succ, List.getD_eq_getElem?_getD]
        have hk : k < L.length := by omega
        rw [List.getElem?_eq_getElem hk]
        simp only [Option.getD_some, Option.toList_some]
        have := (List.perm_append_singleton L[k] (List.take k L))
        exact this.symm
    | succ i =>
      cases k with
      | zero => omega
      | succ k =>
        simp only [List.length_cons, Nat.add_le_add_iff_right] at hcap
        have hi' : i ≤ k := by omega
        rw [List.take_succ_cons, List.nodup_cons] at hnd
        have hih := ih k i hcap hi' hnd.2
        have hmem : L.getD i d ∈ List.take (k + 1) L := by
          have hil : i < L.length := by omega
          rw [List.getD_eq_getElem _ _ hil]
          rw [List.mem_take_iff_getElem]
          exact ⟨i, by simp; omega, rfl⟩
        have hne : a ≠ L.getD i d := by
          intro h
          rw [h] at hnd
          exact hnd.1 hmem
        simp only [List.getD_cons_succ, List.set_cons_succ, List.take_succ_cons]
        rw [List.erase_cons_tail (by simpa using hne)]
        by_cases hik : i = k
        · subst hik
          simp only [ne_eq, not_true_eq_false, if_false, List.take_succ_cons] at hih ⊢
          exact List.Perm.cons a hih
        · have : i + 1 ≠ k + 1 := by omega
          simp only [ne_eq, hik, not_false_eq_true, if_true, this, List.take_succ_cons] at hih ⊢
          exact List.Perm.cons a hih


theorem pending_remove_spec {n : hdfs_namenode} {m : Int} {f : Nat}
    (hcap : n.nn_pending_len ≤ n.nn_pending.length)
    (hd : ((pending_entries n).map fun e => e.pd_msgno).Nodup)
    (he : (⟨m, f⟩ : _hdfs_pending) ∈ pending_entries n) :
    (_namenode_pending_remove n m).2 = some f ∧
    (_namenode_pending_remove n m).1.nn_pending_len + 1 = n.nn_pending_len ∧
    (_namenode_pending_remove n m).1.nn_pending.length = n.nn_pending.length ∧
    (pending_entries (_namenode_pending_remove n m).1).Perm
      ((pending_entries n).erase ⟨m, f⟩) := by
  obtain ⟨j, hj⟩ := pending_scan_mem he rfl
  obtain ⟨_, hjlt, hjm⟩ := pending_scan_some hj
  simp only [Nat.zero_add] at hjlt
  have hjl : j < n.nn_pending.length := by omega
  have hjmem : n.nn_pending.getD j default ∈ pending_entries n := by
    rw [List.getD_eq_getElem _ _ hjl]
    unfold pending_entries
    rw [List.mem_take_iff_getElem]
    exact ⟨j, by simp; omega, rfl⟩
  have hje : n.nn_pending.getD j default = ⟨m, f⟩ := nodup_key_unique hd hjmem he hjm
  obtain ⟨k, hk⟩ : ∃ k, n.nn_pending_len = k + 1 := ⟨n.nn_pending_len - 1, by omega⟩
  have hperm := swap_remove_perm default n.nn_pending k j (by omega) (by omega)
    (by
      have := List.Nodup.of_map _ hd
      unfold pending_entries at this
      rw [hk] at this
      exact this)
  unfold _namenode_pending_remove
  rw [hj]
  simp only [hje, true_and, hk, Nat.add_sub_cancel]
  refine ⟨?_, ?_⟩
  · split <;> simp
  · unfold pending_entries
    simp only [hk]
    rw [hje] at hperm
    exact hperm


theorem entries_after_remove {n : hdfs_namenode} {m : Int} {f : Nat}
    (hcap : n.nn_pending_len ≤ n.nn_pending.length)
    (hd : ((pending_entries n).map fun e => e.pd_msgno).Nodup)
    (he : (⟨m, f⟩ : _hdfs_pending) ∈ pending_entries n) (e : _hdfs_pending) :
    e ∈ pending_entries (_namenode_pending_remove n m).1 ↔
      (e ∈ pending_entries n ∧ e.pd_msgno ≠ m) := by
  obtain ⟨_, _, _, hperm⟩ := pending_remove_spec hcap hd he
  rw [hperm.mem_iff, (List.Nodup.of_map _ hd).mem_erase_iff]
  constructor
  · rintro ⟨hne, hmem⟩
    refine ⟨hmem, fun hm => hne ?_⟩
    exact nodup_key_unique hd hmem he hm
  · rintro ⟨hmem, hne⟩
    refine ⟨fun h => hne ?_, hmem⟩
    rw [h]

theorem recv_demux_spec {w : World} (goal : Nat) {m : Int} {f : Nat} (obj : hdfs_object)
    {fu : hdfs_rpc_response_future}
    (hcap : w.n.nn_pending_len ≤ w.n.nn_pending.length)
    (hd : ((pending_entries w.n).map fun e => e.pd_msgno).Nodup)
    (he : (⟨m, f⟩ : _hdfs_pending) ∈ pending_entries w.n)
    (hfu : w.futures[f]? = some fu) (hempty : fu.fu_res = none) :
    ∃ w1, recv_demux w goal m (some obj) = .ok w1 (decide (f = goal)) ∧
      w1.futures = w.futures.set f { fu with fu_res := some obj } ∧
      w1.n = (_namenode_pending_remove w.n m).1 ∧
      w1.trace = w.trace ++ (if f = goal then [] else [Event.notifyall f]) ∧
      w1.sock_in = w.sock_in := by
  obtain ⟨hres, _, _, _⟩ := pending_remove_spec hcap hd he
  have hrm : recv_remove w m = .ok { w with n := (_namenode_pending_remove w.n m).1 } f := by
    unfold recv_remove
    split
    · rename_i n1 fut heq
      rw [heq] at hres
      simp at hres
      subst hres
      simp [heq]
    · rename_i n1 heq
      rw [heq] at hres
      simp at hres
  unfold recv_demux
  rw [hrm]
  simp only [Outcome.bind, recv_complete]
  by_cases hg : f = goal
  · subst hg
    simp [_future_complete_unlocked, hfu, hempty, Outcome.bind]
  · simp [hg, _future_complete, hfu, hempty, Outcome.bind]


theorem demux_stream_done (rs : List (Nat × Int × Option hdfs_object)) :
    ∀ w : World, DemuxReady w rs → ∃ w1, demux_stream w rs = .ok w1 () ∧ DemuxDone w rs w1 := by
  induction rs with
  | nil =>
    intro w _
    refine ⟨w, rfl, ?_, ?_, ?_, ?_⟩
    · intro e _ r hr; simp at hr
    · intro f _; rfl
    · intro e; simp
    · simp
  | cons r rest ih =>
    intro w hw
    obtain ⟨goal, m, ro⟩ := r
    -- the head response
    have hobj := hw.objects (goal, m, ro) (List.mem_cons_self _ _)
    obtain ⟨obj, rfl⟩ := Option.ne_none_iff_exists'.mp hobj
    have hiss := hw.issued (goal, m, some obj) (List.mem_cons_self _ _)
    simp only [List.mem_map] at hiss
    obtain ⟨em, hem, hemm⟩ := hiss
    obtain ⟨m', f⟩ := em
    simp only at hemm
    subst hemm
    have hmrs : m' ∈ List.map (fun r => r.2.1) ((goal, m', some obj) :: rest) := by simp
    obtain ⟨fu, hfu, hfe⟩ := hw.empty _ hem hmrs
    obtain ⟨w1, hstep, hfut, hn, _, _⟩ :=
      recv_demux_spec goal obj hw.cap hw.distinct hem hfu hfe
    obtain ⟨_, hlen, hlength, hperm⟩ := pending_remove_spec hw.cap hw.distinct hem
    have hent : ∀ e, e ∈ pending_entries w1.n ↔ (e ∈ pending_entries w.n ∧ e.pd_msgno ≠ m') := by
      intro e
      rw [hn]
      exact entries_after_remove hw.cap hw.distinct hem e
    have hfresh := hw.fresh
    simp only [List.map_cons, List.nodup_cons] at hfresh
    have hrest_sub : ∀ x, x ∈ rest.map (fun r => r.2.1) →
        x ∈ List.map (fun r => r.2.1) ((goal, m', some obj) :: rest) := by
      intro x hx
      simp only [List.map_cons, List.mem_cons]
      exact Or.inr hx
    -- slots answered later differ from the slot answered now
    have hslot_ne : ∀ e ∈ pending_entries w1.n, e.pd_msgno ∈ rest.map (fun r => r.2.1) →
        e.pd_future ≠ f := by
      intro e he hmr hef
      have he0 := (hent e).mp he
      have := hw.slots e he0.1 _ hem (hrest_sub _ hmr) hmrs hef
      exact he0.2 (by rw [this])
    have hfut_ne : ∀ f', f' ≠ f → w1.futures[f']? = w.futures[f']? := by
      intro f' hne
      rw [hfut, List.getElem?_set_ne (Ne.symm hne)]
    have hready : DemuxReady w1 rest := by
      refine ⟨?_, ?_, hfresh.2, ?_, ?_, ?_, ?_⟩
      · have := hw.cap
        rw [hn, hlength]; omega
      · rw [hn]
        exact (hperm.map _).nodup_iff.mpr
          (List.Nodup.sublist ((List.erase_sublist _ _).map _) hw.distinct)
      · intro r hr
        have h1 := hw.issued r (List.mem_cons_of_mem _ hr)
        simp only [List.mem_map] at h1 ⊢
        obtain ⟨e, he, hem'⟩ := h1
        refine ⟨e, (hent e).mpr ⟨he, ?_⟩, hem'⟩
        intro h
        apply hfresh.1
        rw [← h, hem']
        exact List.mem_map_of_mem _ hr
      · intro r hr
        exact hw.objects r (List.mem_cons_of_mem _ hr)
      · intro e1 h1 e2 h2 hm1 hm2 hf
        exact hw.slots e1 ((hent e1).mp h1).1 e2 ((hent e2).mp h2).1 (hrest_sub _ hm1)
          (hrest_sub _ hm2) hf
      · intro e he hmr
        obtain ⟨fu', hfu', hfe'⟩ := hw.empty e ((hent e).mp he).1 (hrest_sub _ hmr)
        exact ⟨fu', by rw [hfut_ne _ (hslot_ne e he hmr)]; exact hfu', hfe'⟩
    obtain ⟨w2, hrun, hdone⟩ := ih w1 hready
    refine ⟨w2, ?_, ?_, ?_, ?_, ?_⟩
    · simp only [demux_stream, hstep, Outcome.bind]
      exact hrun
    · intro e he r hr hrm
      rcases List.mem_cons.mp hr with rfl | hr'
      · simp only at hrm
        have hee : e = ⟨m', f⟩ := nodup_key_unique hw.distinct he hem (by rw [← hrm])
        subst hee
        simp only
        have h2 : w2.futures[f]? = w1.futures[f]? := hdone.others f hslot_ne
        refine ⟨fu, { fu with fu_res := some obj }, hfu, ?_, rfl, rfl⟩
        rw [h2, hfut]
        have hlt : f < w.futures.length := by
          rcases Nat.lt_or_ge f w.futures.length with h | h
          · exact h
          · rw [List.getElem?_eq_none h] at hfu; cases hfu
        simp [hlt]
      · have hne : e.pd_msgno ≠ m' := by
          intro h
          apply hfresh.1
          rw [← h, ← hrm]
          exact List.mem_map_of_mem _ hr'
        have he1 : e ∈ pending_entries w1.n := (hent e).mpr ⟨he, hne⟩
        obtain ⟨fu1, fu2, h1, h2, h3, h4⟩ := hdone.served e he1 r hr' hrm
        have hmr : e.pd_msgno ∈ rest.map (fun r => r.2.1) := by
          rw [← hrm]; exact List.mem_map_of_mem _ hr'
        rw [hfut_ne _ (hslot_ne e he1 hmr)] at h1
        exact ⟨fu1, fu2, h1, h2, h3, h4⟩
    · intro f' hf'
      have hne : f' ≠ f := fun h => hf' _ hem hmrs h.symm
      rw [← hfut_ne _ hne]
      apply hdone.others
      intro e he hmr
      exact hf' e ((hent e).mp he).1 (hrest_sub _ hmr)
    · intro e
      rw [hdone.table e, hent e]
      simp only [List.map_cons, List.mem_cons, not_or]
      tauto
    · have hl := hdone.len
      rw [hn] at hl
      simp only [List.length_cons]
      omega


/-- C2: take a state whose pending entries lie in the allocated array and carry
pairwise distinct message numbers, and a stream of parsed responses, each
handled by one demultiplexing step of the pump (`_namenode_pending_remove`,
then `_future_complete` or `_future_complete_unlocked`), that answers message
numbers of the table, each at most once, with objects that are not null, for
distinct slots that hold no result yet. Then every step succeeds and in the
end every slot answered holds the object sent under its message number, every
other slot is as before, and exactly the entries answered have left the table.
A stream of one response is the single step. -/
theorem demux_correct (w : World) (rs : List (Nat × Int × Option hdfs_object))
    (hcap : w.n.nn_pending_len ≤ w.n.nn_pending.length)
    (hdistinct : ((pending_entries w.n).map fun e => e.pd_msgno).Nodup)
    (hfresh : (rs.map fun r => r.2.1).Nodup)
    (hissued : ∀ r ∈ rs, r.2.1 ∈ (pending_entries w.n).map fun e => e.pd_msgno)
    (hobjects : ∀ r ∈ rs, r.2.2 ≠ none)
    (hslots : ∀ e1 ∈ pending_entries w.n, ∀ e2 ∈ pending_entries w.n,
      e1.pd_msgno ∈ rs.map (fun r => r.2.1) → e2.pd_msgno ∈ rs.map (fun r => r.2.1) →
      e1.pd_future = e2.pd_future → e1 = e2)
    (hempty : ∀ e ∈ pending_entries w.n, e.pd_msgno ∈ rs.map (fun r => r.2.1) →
      (w.futures[e.pd_future]?).map (fun fu => fu.fu_res) = some none) :
    ∃ w1, demux_stream w rs = .ok w1 () ∧
      (∀ e ∈ pending_entries w.n, ∀ r ∈ rs, r.2.1 = e.pd_msgno →
        (w1.futures[e.pd_future]?).map (fun fu => fu.fu_res) = some r.2.2 ∧
        (w1.futures[e.pd_future]?).map (fun fu => fu.fu_namenode)
          = (w.futures[e.pd_future]?).map (fun fu => fu.fu_namenode)) ∧
      (∀ f, (∀ e ∈ pending_entries w.n, e.pd_msgno ∈ rs.map (fun r => r.2.1) →
        e.pd_future ≠ f) → w1.futures[f]? = w.futures[f]?) ∧
      (∀ e, e ∈ pending_entries w1.n ↔
        (e ∈ pending_entries w.n ∧ e.pd_msgno ∉ rs.map fun r => r.2.1)) ∧
      w1.n.nn_pending_len + rs.length = w.n.nn_pending_len := by
  have hready : DemuxReady w rs := by
    refine ⟨hcap, hdistinct, hfresh, hissued, hobjects, hslots, ?_⟩
    intro e he hm
    have h := hempty e he hm
    cases hf : w.futures[e.pd_future]? with
    | none => rw [hf] at h; simp at h
    | some fu =>
      rw [hf] at h
      simp at h
      exact ⟨fu, rfl, h⟩
  obtain ⟨w1, hrun, hdone⟩ := demux_stream_done rs w hready
  refine ⟨w1, hrun, ?_, hdone.others, hdone.table, hdone.len⟩
  intro e he r hr hrm
  obtain ⟨fu, fu1, h1, h2, h3, h4⟩ := hdone.served e he r hr hrm
  rw [h1, h2]
  simp [h3, h4]

/-- Witness of C2: two calls in flight, slot 0 under message number 0 and slot 1
under message number 1; the reply to 1 carrying 256 comes first, then the
reply to 0 carrying 128. Slot 0 ends up with 128 and slot 1 with 256. -/
theorem demux_correct_witness :
    ∃ w1, demux_stream
        ((ready_world 2 []).after [.invoke (some stub_rpc) 0 none, .invoke (some stub_rpc) 1 none])
        [(1, 1, some (hdfs_long_new 256)), (0, 0, some (hdfs_long_new 128))] = .ok w1 () ∧
      (w1.futures[0]?).map (fun fu => fu.fu_res) = some (some (hdfs_long_new 128)) ∧
      (w1.futures[1]?).map (fun fu => fu.fu_res) = some (some (hdfs_long_new 256)) ∧
      w1.n.nn_pending_len = 0 := by
  obtain ⟨w1, hrun, hserved, _, _, hlen⟩ := demux_correct
    ((ready_world 2 []).after [.invoke (some stub_rpc) 0 none, .invoke (some stub_rpc) 1 none])
    [(1, 1, some (hdfs_long_new 256)), (0, 0, some (hdfs_long_new 128))]
    (by decide) (by decide) (by decide) (by decide) (by decide) (by decide) (by decide)
  refine ⟨w1, hrun, ?_, ?_, ?_⟩
  · exact (hserved ⟨0, 0⟩ (by decide) (0, 0, some (hdfs_long_new 128)) (by decide) rfl).1
  · exact (hserved ⟨1, 1⟩ (by decide) (1, 1, some (hdfs_long_new 256)) (by decide) rfl).1
  · have h2 : ((ready_world 2 []).after
        [.invoke (some stub_rpc) 0 none, .invoke (some stub_rpc) 1 none]).n.nn_pending_len = 2 := by
      decide
    rw [h2] at hlen
    simpa using hlen

theorem count_set_bind {l : List hdfs_rpc_response_future} {i : Nat}
    {fu : hdfs_rpc_response_future} (h : l[i]? = some fu) (hf : fu.fu_namenode = false)
    (x : hdfs_rpc_response_future) (hx : x.fu_namenode = true) :
    ((l.set i x).map fun fu => fu.fu_namenode).count true
      = (l.map fun fu => fu.fu_namenode).count true + 1 := by
  induction l generalizing i with
  | nil => simp at h
  | cons a l ih =>
    cases i with
    | zero =>
      simp at h
      subst h
      simp [hf, hx]
    | succ i =>
      simp at h
      simp only [List.set_cons_succ, List.map_cons, List.count_cons, ih h]
      omega

theorem count_set_unbind {l : List hdfs_rpc_response_future} {i : Nat}
    {fu : hdfs_rpc_response_future} (h : l[i]? = some fu) (hf : fu.fu_namenode = true)
    (x : hdfs_rpc_response_future) (hx : x.fu_namenode = false) :
    ((l.set i x).map fun fu => fu.fu_namenode).count true + 1
      = (l.map fun fu => fu.fu_namenode).count true := by
  induction l generalizing i with
  | nil => simp at h
  | cons a l ih =>
    cases i with
    | zero =>
      simp at h
      subst h
      simp [hf, hx]
    | succ i =>
      simp at h
      simp only [List.set_cons_succ, List.map_cons, List.count_cons]
      have := ih h
      omega

theorem pending_insert_fields {n n1 : hdfs_namenode} {m : Int} {f : Nat}
    (h : _namenode_pending_insert_unlocked n m f = some n1) :
    n1.nn_refs = n.nn_refs ∧ n1.nn_dead = n.nn_dead ∧ n1.nn_sock = n.nn_sock ∧
    n1.nn_authed = n.nn_authed ∧ n1.nn_msgno = n.nn_msgno ∧
    n1.nn_destroy_cb = n.nn_destroy_cb ∧ n1.nn_worked = n.nn_worked ∧
    n1.nn_recvbuf = n.nn_recvbuf ∧ n1.nn_recvbuf_used = n.nn_recvbuf_used ∧
    n1.nn_recvbuf_size = n.nn_recvbuf_size ∧ n1.nn_pending_len = n.nn_pending_len + 1 := by
  unfold _namenode_pending_insert_unlocked at h
  dsimp only at h
  split at h <;> (simp at h; obtain ⟨_, rfl⟩ := h; simp)

/-- What `invoke_locked` does when it takes a message number. -/
theorem invoke_locked_ok {w w1 : World} {rpc : Option hdfs_object} {f : Nat} {r : String ⊕ Int}
    (h : invoke_locked w rpc f = .ok w1 r) :
    (∃ err, r = .inl err ∧ w1 = w) ∨
    (∃ fu, r = .inr w.n.nn_msgno ∧ w.futures[f]? = some fu ∧ fu.fu_namenode = false ∧
      w.n.nn_refs ≥ 1 ∧ w.n.nn_dead = false ∧
      w1.futures = w.futures.set f { fu with fu_namenode := true } ∧
      w1.n.nn_refs = w.n.nn_refs + 1 ∧ w1.n.nn_dead = false ∧
      w1.n.nn_msgno = wrap64 (w.n.nn_msgno + 1) ∧ w1.n.nn_worked = w.n.nn_worked ∧
      w1.trace = w.trace ∧ w1.sock_in = w.sock_in) := by
  unfold invoke_locked at h
  split at h
  · simp at h
  · rename_i fu hfu
    split at h
    · simp at h
    · rename_i hb
      split at h
      · simp at h
      · split at h
        · simp at h
        · split at h
          · simp at h
          · rename_i hrefs
            split at h
            · simp at h
            · rename_i hdead
              split at h
              · simp at h
                exact Or.inl ⟨_, h.2.symm, h.1.symm⟩
              · split at h
                · simp at h
                  exact Or.inl ⟨_, h.2.symm, h.1.symm⟩
                · dsimp only at h
                  split at h
                  · simp at h
                  · rename_i n2 hn2
                    split at h
                    · simp at h
                    · rename_i n3 hn3
                      simp at h
                      obtain ⟨rfl, rfl⟩ := h
                      right
                      have hi := pending_insert_fields hn3
                      unfold _namenode_copyref_unlocked at hn2
                      split at hn2
                      · simp at hn2
                        subst hn2
                        simp at hi
                        simp at hb hdead
                        refine ⟨fu, rfl, hfu, hb, not_not.mp hrefs, hdead, rfl, ?_, ?_, ?_, ?_, rfl, rfl⟩
                        · simp [hi.1]
                        · simp [hi.2.1, hdead]
                        · simp [hi.2.2.2.2.1]
                        · simp [hi.2.2.2.2.2.2.1]
                      · simp at hn2

theorem invoke_ok_cases {codec : Codec} {w w1 : World} {rpc : Option hdfs_object} {f : Nat}
    {werr r : Option String} (h : hdfs_namenode_invoke codec rpc f werr w = .ok w1 r) :
    w1 = w ∨
    (∃ fu, w.futures[f]? = some fu ∧ fu.fu_namenode = false ∧
      w.n.nn_refs ≥ 1 ∧ w.n.nn_dead = false ∧
      w1.futures = w.futures.set f { fu with fu_namenode := true } ∧
      w1.n.nn_refs = w.n.nn_refs + 1 ∧ w1.n.nn_dead = false ∧
      teardowns w1 = teardowns w) := by
  unfold hdfs_namenode_invoke at h
  obtain ⟨w2, r2, h1, h2⟩ := bind_ok h
  rcases invoke_locked_ok h1 with ⟨err, rfl, rfl⟩ | ⟨fu, rfl, hfu, hb, hr, hd, hfut, hrefs, hdead, _, _, htr, _⟩
  · simp at h2
    exact Or.inl h2.1.symm
  · right
    simp only at h2
    split at h2
    · unfold invoke_send at h2
      simp at h2
      obtain ⟨rfl, _⟩ := h2
      refine ⟨fu, hfu, hb, hr, hd, hfut, hrefs, hdead, ?_⟩
      simp [teardowns, htr, List.count_append]
    · simp at h2


theorem teardowns_decref_teardown (w : World) :
    teardowns (decref_teardown w) = teardowns w + 1 := by
  unfold teardowns decref_teardown
  simp only [List.count_append]
  have h1 : (if w.n.nn_sock ≠ -1 then [Event.close w.n.nn_sock] else []).count Event.teardown = 0 := by
    split <;> simp
  have h2 : (if w.n.nn_pending ≠ [] then [Event.free_pending] else []).count Event.teardown = 0 := by
    split <;> simp
  have h3 : (if w.n.nn_recvbuf ≠ [] then [Event.free_recvbuf] else []).count Event.teardown = 0 := by
    split <;> simp
  have h4 : (match w.n.nn_destroy_cb with
      | some cb => [Event.destroy_cb cb]
      | none => []).count Event.teardown = 0 := by
    split <;> simp
  rw [h1, h2, h3, h4]
  simp

theorem RefInv.frame {w w1 : World} {d : Bool} (hf : PumpFrame w w1) (h : RefInv w d) :
    RefInv w1 d := by
  unfold RefInv bound_slots at *
  rw [hf.refs, hf.flags, hf.torn, hf.dead]
  exact h

theorem refinv_iff (w : World) (d : Bool) :
    RefInv w d ↔ RefInvN w.n.nn_refs (bound_slots w) (teardowns w) w.n.nn_dead d :=
  Iff.rfl

theorem refinvN_release {r : Int} {b t : Nat} {dd d : Bool}
    (h : RefInvN r (b + 1) t dd d) (hne : r ≠ 1) : RefInvN (r - 1) b t dd d := by
  obtain ⟨h1, h2, h3⟩ := h
  cases d with
  | false =>
    refine ⟨?_, ?_, ?_⟩
    · simp at h1 ⊢; omega
    · simp at h2 ⊢; exact h2
    · intro hd; cases hd
  | true =>
    simp at h1 h2 h3
    refine ⟨?_, ?_, ?_⟩
    · simp; omega
    · have : b ≠ 0 := by omega
      simp [this, h2]
    · intro _ _; exact h3

theorem refinvN_release_last {r : Int} {b t : Nat} {dd d : Bool}
    (h : RefInvN r (b + 1) t dd d) (hone : r = 1) : RefInvN 0 b (t + 1) false d := by
  obtain ⟨h1, h2, h3⟩ := h
  cases d with
  | false => simp at h1; omega
  | true =>
    simp at h1 h2
    have hb : b = 0 := by omega
    subst hb
    refine ⟨by simp, by simp [h2], ?_⟩
    intro _ hpos
    omega

theorem refinvN_destroy {r : Int} {b t : Nat} {dd : Bool}
    (h : RefInvN r b t dd false) (hne : r ≠ 1) : RefInvN (r - 1) b t true true := by
  obtain ⟨h1, h2, _⟩ := h
  simp at h1 h2
  refine ⟨by simp; omega, ?_, fun _ _ => rfl⟩
  have : b ≠ 0 := by omega
  simp [this, h2]

theorem refinvN_destroy_last {r : Int} {b t : Nat} {dd : Bool}
    (h : RefInvN r b t dd false) (hone : r = 1) : RefInvN 0 b (t + 1) false true := by
  obtain ⟨h1, h2, _⟩ := h
  simp at h1 h2
  have hb : b = 0 := by omega
  subst hb
  exact ⟨by simp, by simp [h2], fun _ hpos => absurd hpos (by omega)⟩

theorem refinvN_not_destroyable {r : Int} {b t : Nat} {dd : Bool}
    (h : RefInvN r b t dd true) (hr : r ≥ 1) : dd = true := by
  obtain ⟨h1, _, h3⟩ := h
  simp at h1
  exact h3 rfl (by omega)

theorem release_refinv {w w1 : World} {d : Bool} {f : Nat} {fu : hdfs_rpc_response_future}
    (h : RefInv w d) (hfu : w.futures[f]? = some fu) (hb : fu.fu_namenode = true)
    (hdec : _namenode_decref w = .ok w1 ()) :
    RefInv { w1 with futures := w1.futures.set f future_zero } d := by
  have hcount := count_set_unbind hfu hb future_zero rfl
  rw [refinv_iff] at h
  unfold bound_slots at h
  rw [← hcount] at h
  rcases (decref_cases hdec).2 with ⟨hone, rfl⟩ | ⟨hne, rfl⟩
  · have := refinvN_release_last h hone
    have e : teardowns (decref_teardown { w with n := { w.n with nn_refs := w.n.nn_refs - 1 } })
        = teardowns w + 1 := teardowns_decref_teardown _
    rw [← e] at this
    exact this
  · exact refinvN_release h hne

theorem destroy_refinv {w w1 : World} {d : Bool} {cb : Option Nat} (h : RefInv w d)
    (hdes : hdfs_namenode_destroy w cb = .ok w1 ()) : RefInv w1 true := by
  unfold hdfs_namenode_destroy at hdes
  obtain ⟨w2, u, h1, h2⟩ := bind_ok hdes
  unfold destroy_locked at h1
  split at h1
  · simp at h1
  · rename_i hrefs
    split at h1
    · simp at h1
    · rename_i hdead
      simp only [Outcome.ok.injEq, and_true] at h1
      subst h1
      rw [refinv_iff] at h
      have hd0 : d = false := by
        cases d with
        | false => rfl
        | true => exact absurd (refinvN_not_destroyable h (not_not.mp hrefs)) hdead
      subst hd0
      rcases (decref_cases h2).2 with ⟨hone, rfl⟩ | ⟨hne, rfl⟩
      · have := refinvN_destroy_last h hone
        have e : teardowns (decref_teardown { w with
            n := { w.n with nn_refs := w.n.nn_refs - 1, nn_dead := true, nn_destroy_cb := cb } })
            = teardowns w + 1 := teardowns_decref_teardown _
        rw [← e] at this
        exact this
      · exact refinvN_destroy h hne

theorem call_refinv {codec : Codec} {c : Call} {w w1 : World} {d : Bool} (h : RefInv w d)
    (hc : c.run codec w = some w1) : RefInv w1 (d || c.is_destroy) := by
  cases c with
  | new_future =>
    simp [Call.run] at hc
    subst hc
    simp only [Call.is_destroy, Bool.or_false]
    unfold RefInv bound_slots at *
    simpa [future_zero, teardowns] using h
  | connect conn =>
    simp only [Call.run] at hc
    obtain ⟨a, hc⟩ := world_some hc
    simp only [Call.is_destroy, Bool.or_false]
    unfold hdfs_namenode_connect at hc
    split at hc
    · simp at hc
    · split at hc <;> (simp at hc; obtain ⟨rfl, _⟩ := hc; exact h)
  | authenticate username werr =>
    simp only [Call.run] at hc
    obtain ⟨a, hc⟩ := world_some hc
    simp only [Call.is_destroy, Bool.or_false]
    unfold hdfs_namenode_authenticate at hc
    split at hc
    · simp at hc
    · split at hc
      · simp at hc
      · simp at hc
        obtain ⟨rfl, _⟩ := hc
        unfold RefInv bound_slots teardowns at *
        simpa [List.count_append] using h
  | invoke rpc future werr =>
    simp only [Call.run] at hc
    obtain ⟨a, hc⟩ := world_some hc
    simp only [Call.is_destroy, Bool.or_false]
    rcases invoke_ok_cases hc with rfl | ⟨fu, hfu, hb, hr, hdead, hfut, hrefs, hdead1, htd⟩
    · exact h
    · have hcount := count_set_bind hfu hb { fu with fu_namenode := true } rfl
      rw [refinv_iff] at h ⊢
      have hd0 : d = false := by
        cases d with
        | false => rfl
        | true =>
          have := refinvN_not_destroyable h hr
          rw [hdead] at this
          cases this
      subst hd0
      obtain ⟨h1, h2, _⟩ := h
      unfold bound_slots at *
      rw [hfut, hcount, hrefs, htd]
      refine ⟨?_, ?_, ?_⟩
      · simp at h1 ⊢; omega
      · simp at h2 ⊢; exact h2
      · intro hd; cases hd
  | future_get future =>
    simp only [Call.run] at hc
    obtain ⟨a, hc⟩ := world_some hc
    simp only [Call.is_destroy, Bool.or_false]
    obtain ⟨w2, hfr, hfin⟩ := future_get_pre_finish hc
    obtain ⟨fu, w3, hfu, hb, _, hdec, rfl⟩ := future_finish_ok hfin
    exact release_refinv (h.frame hfr) hfu hb hdec
  | destroy cb =>
    simp only [Call.run] at hc
    obtain ⟨a, hc⟩ := world_some hc
    simp only [Call.is_destroy, Bool.or_true]
    exact destroy_refinv h hc

theorem runCalls_refinv {codec : Codec} (cs : List Call) :
    ∀ {w w1 : World} {d : Bool}, RefInv w d → runCalls codec cs w = some w1 →
      RefInv w1 (d || cs.any Call.is_destroy) := by
  induction cs with
  | nil =>
    intro w w1 d h hrun
    simp [runCalls] at hrun
    subst hrun
    simpa using h
  | cons c cs ih =>
    intro w w1 d h hrun
    simp only [runCalls] at hrun
    split at hrun
    · rename_i w2 hc
      have := ih (call_refinv h hc) hrun
      simpa [Bool.or_assoc] using this
    · simp at hrun

theorem refinv_init (nslots : Nat) (sock_in : List ReadResult) :
    RefInv (World.init nslots sock_in) false := by
  unfold RefInv RefInvN bound_slots teardowns World.init
  simp [hdfs_namenode_init, future_zero, List.count_replicate]

/-- C4: in every state reached from a freshly initialised session with
zero-initialised slots by complete calls (connect, authenticate, invoke,
await, destroy, and new zero-initialised slots), the reference count is 1
until destroy has been called and 0 afterwards, plus the number of bound
slots; and the last-reference branch of `_namenode_decref` has run exactly once
if destroy has been called and no slot is bound any more, and never
otherwise. -/
theorem refcount_lifetime (codec : Codec) (nslots : Nat) (sock_in : List ReadResult)
    (calls : List Call) (w : World)
    (hrun : runCalls codec calls (World.init nslots sock_in) = some w) :
    w.n.nn_refs = (if calls.any Call.is_destroy then 0 else 1) + bound_slots w ∧
    teardowns w = (if calls.any Call.is_destroy = true ∧ bound_slots w = 0 then 1 else 0) := by
  have h := runCalls_refinv calls (refinv_init nslots sock_in) hrun
  simp only [Bool.false_or] at h
  exact ⟨h.1, h.2.1⟩


/-- Witness of C4: along `lifetime_calls` the last-reference branch has not run
after destroy, while slot 0 is still bound, and has run once after the await
of slot 0. -/
theorem refcount_lifetime_witness :
    (((World.init 2 [.data [0, 3, 0, 42, 1, 3, 0, 7]]).after lifetime_calls).n.nn_refs
        = (if lifetime_calls.any Call.is_destroy then 0 else 1)
          + bound_slots ((World.init 2 [.data [0, 3, 0, 42, 1, 3, 0, 7]]).after lifetime_calls) ∧
      teardowns ((World.init 2 [.data [0, 3, 0, 42, 1, 3, 0, 7]]).after lifetime_calls)
        = (if lifetime_calls.any Call.is_destroy = true ∧
            bound_slots ((World.init 2 [.data [0, 3, 0, 42, 1, 3, 0, 7]]).after lifetime_calls) = 0
           then 1 else 0)) ∧
    teardowns ((World.init 2 [.data [0, 3, 0, 42, 1, 3, 0, 7]]).after (lifetime_calls.take 6)) = 0 ∧
    ((World.init 2 [.data [0, 3, 0, 42, 1, 3, 0, 7]]).after (lifetime_calls.take 6)).n.nn_refs = 1 ∧
    teardowns ((World.init 2 [.data [0, 3, 0, 42, 1, 3, 0, 7]]).after lifetime_calls) = 1 ∧
    ((World.init 2 [.data [0, 3, 0, 42, 1, 3, 0, 7]]).after lifetime_calls).trace.getLast?
      = some (Event.destroy_cb 9) :=
  ⟨refcount_lifetime stub_codec 2 [.data [0, 3, 0, 42, 1, 3, 0, 7]] lifetime_calls
      ((World.init 2 [.data [0, 3, 0, 42, 1, 3, 0, 7]]).after lifetime_calls) rfl,
    by decide, by decide, by decide, by decide⟩


theorem get_set {α : Type} {l : List α} {t : Nat} {c : α} (h : l[t]? = some c) (c1 : α)
    (u : Nat) : (l.set t c1)[u]? = if u = t then some c1 else l[u]? := by
  have hlt : t < l.length := by
    rcases Nat.lt_or_ge t l.length with h1 | h1
    · exact h1
    · rw [List.getElem?_eq_none h1] at h; cases h
  by_cases hu : u = t
  · subst hu
    simp [hlt]
  · simp [hu, List.getElem?_set_ne (Ne.symm hu)]

theorem any_set_same {l : List Cat} {t : Nat} {c : Cat} (h : l[t]? = some c) (c1 : Cat)
    (p : Cat → Bool) (hp : p c1 = p c) : (l.set t c1).any p = l.any p := by
  induction l generalizing t with
  | nil => simp at h
  | cons x xs ih =>
    cases t with
    | zero => simp at h; subst h; simp [hp]
    | succ t => simp at h; simp [ih h]

theorem any_set_true {l : List Cat} {t : Nat} {c : Cat} (h : l[t]? = some c) (c1 : Cat)
    (p : Cat → Bool) (hp : p c1 = true) : (l.set t c1).any p = true := by
  rw [List.any_eq_true]
  refine ⟨c1, ?_, hp⟩
  have hlt : t < l.length := by
    rcases Nat.lt_or_ge t l.length with h1 | h1
    · exact h1
    · rw [List.getElem?_eq_none h1] at h; cases h
  exact List.mem_iff_getElem?.mpr ⟨t, by simp [hlt]⟩

theorem any_post_iff {l : List Cat} {f : Nat} :
    l.any (Cat.is_post f) = true ↔
      ∃ u : Nat, l[u]? = some (.tearing f) ∨ l[u]? = some (.released f) := by
  rw [List.any_eq_true]
  constructor
  · rintro ⟨c, hc, hp⟩
    obtain ⟨u, hu⟩ := List.mem_iff_getElem?.mp hc
    cases c <;> simp [Cat.is_post] at hp
    · subst hp; exact ⟨u, Or.inl hu⟩
    · subst hp; exact ⟨u, Or.inr hu⟩
  · rintro ⟨u, hu | hu⟩
    · exact ⟨_, List.mem_iff_getElem?.mpr ⟨u, hu⟩, by simp [Cat.is_post]⟩
    · exact ⟨_, List.mem_iff_getElem?.mpr ⟨u, hu⟩, by simp [Cat.is_post]⟩

theorem countP_range_congr (p q : Nat → Bool) (n : Nat) (h : ∀ f, f < n → q f = p f) :
    (List.range n).countP q = (List.range n).countP p := by
  apply List.countP_congr
  intro f hf
  rw [List.mem_range] at hf
  rw [h f hf]

theorem countP_range_update (p q : Nat → Bool) (n f0 : Nat) (hf0 : f0 < n)
    (h : ∀ f, f < n → f ≠ f0 → q f = p f) :
    (List.range n).countP q + (if p f0 then 1 else 0)
      = (List.range n).countP p + (if q f0 then 1 else 0) := by
  induction n with
  | zero => omega
  | succ n ih =>
    rw [List.range_succ, List.countP_append, List.countP_append]
    simp only [List.countP_cons, List.countP_nil, Nat.zero_add]
    by_cases hn : f0 = n
    · subst hn
      have := countP_range_congr p q f0 (fun f hf => h f (by omega) (by omega))
      rw [this]
      omega
    · have h1 := ih (by omega) (fun f hf hne => h f (by omega) hne)
      have h2 := h n (by omega) (fun e => hn e.symm)
      rw [h2]
      omega

theorem countP_range_pos (p : Nat → Bool) (n f0 : Nat) (hf0 : f0 < n) (hp : p f0 = true) :
    (List.range n).countP p ≥ 1 := by
  apply List.countP_pos_iff.mpr
  exact ⟨f0, List.mem_range.mpr hf0, hp⟩

theorem set_lookup {α : Type} {l : List α} {t : Nat} {c : α} (h : l[t]? = some c) {c1 : α}
    {u : Nat} {x : α} (hx : (l.set t c1)[u]? = some x) :
    (u = t ∧ x = c1) ∨ (u ≠ t ∧ l[u]? = some x) := by
  rw [get_set h] at hx
  by_cases hu : u = t
  · simp [hu] at hx
    exact Or.inl ⟨hu, hx.symm⟩
  · simp [hu] at hx
    exact Or.inr ⟨hu, hx⟩

theorem held_congr {a b : Abs} (hl : b.flags.length = a.flags.length)
    (h : ∀ f, f < a.flags.length → b.contrib f = a.contrib f) : b.held = a.held := by
  unfold Abs.held
  rw [hl]
  exact countP_range_congr _ _ _ h

theorem held_cats {a : Abs} {t : Nat} {c : Cat} (hc : a.cats[t]? = some c) (c1 : Cat)
    (hp : ∀ f, Cat.is_post f c1 = Cat.is_post f c) (b : Abs)
    (hflags : b.flags = a.flags) (hcats : b.cats = a.cats.set t c1) : b.held = a.held := by
  apply held_congr (by rw [hflags])
  intro f _
  unfold Abs.contrib
  rw [hflags, hcats, any_set_same hc c1 _ (hp f)]

theorem flag_lt {l : List Bool} {f : Nat} {v : Bool} (h : l[f]? = some v) : f < l.length := by
  rcases Nat.lt_or_ge f l.length with h1 | h1
  · exact h1
  · rw [List.getElem?_eq_none h1] at h; cases h

theorem getD_of_get {l : List Bool} {f : Nat} {v : Bool} (h : l[f]? = some v) :
    l.getD f false = v := by
  rw [List.getD_eq_getElem?_getD, h]
  rfl

/-- A slot whose thread is inside the pump accounts for a reference. -/
theorem inside_contrib {a : Abs} (ha : AInv a) {t f : Nat}
    (ht : a.cats[t]? = some (.inside f)) : a.contrib f = true := by
  unfold Abs.contrib
  rw [getD_of_get (ha.bound t f (Or.inl ht))]
  simp only [Bool.true_and, Bool.not_eq_true', Bool.eq_false_iff, ne_eq]
  intro hany
  obtain ⟨u, hu | hu⟩ := any_post_iff.mp hany
  · have := ha.own t u _ _ f ht hu rfl rfl
    subst this
    rw [ht] at hu
    cases hu
  · have := ha.own t u _ _ f ht hu rfl rfl
    subst this
    rw [ht] at hu
    cases hu

/-- With a thread inside the pump the session holds a reference. -/
theorem inside_refs {a : Abs} (ha : AInv a) {t f : Nat}
    (ht : a.cats[t]? = some (.inside f)) : a.refs ≥ 1 := by
  have h1 := inside_contrib ha ht
  have h2 := flag_lt (ha.bound t f (Or.inl ht))
  have h3 : a.held ≥ 1 := countP_range_pos _ _ f h2 h1
  have h4 := ha.count
  split at h4 <;> omega

theorem ainv_start_get {a : Abs} (ha : AInv a) {t f : Nat} (hc : a.cats[t]? = some .free)
    (hfree : ∀ c ∈ a.cats, c.slot ≠ some f) :
    AInv { a with cats := a.cats.set t (.getting f) } := by
  refine ⟨?_, ?_, ?_, ?_, ?_, ?_, ?_, ?_, ?_⟩
  · intro t1 u1 f1 g1 h1 h2
    rcases set_lookup hc h1 with ⟨_, h⟩ | ⟨_, h1'⟩
    · cases h
    rcases set_lookup hc h2 with ⟨_, h⟩ | ⟨_, h2'⟩
    · cases h
    exact ha.excl t1 u1 f1 g1 h1' h2'
  · intro t1 f1 h1
    rcases set_lookup hc h1 with ⟨_, h⟩ | ⟨_, h1'⟩
    · cases h
    exact ha.flag t1 f1 h1'
  · intro t1 u1 c1 d1 f1 h1 h2 hs1 hs2
    rcases set_lookup hc h1 with ⟨rfl, rfl⟩ | ⟨hn1, h1'⟩
    · rcases set_lookup hc h2 with ⟨rfl, _⟩ | ⟨_, h2'⟩
      · rfl
      · simp only [Cat.slot, Option.some.injEq] at hs1
        subst hs1
        exact absurd hs2 (hfree d1 (List.mem_iff_getElem?.mpr ⟨u1, h2'⟩))
    · rcases set_lookup hc h2 with ⟨rfl, rfl⟩ | ⟨_, h2'⟩
      · simp only [Cat.slot, Option.some.injEq] at hs2
        subst hs2
        exact absurd hs1 (hfree c1 (List.mem_iff_getElem?.mpr ⟨t1, h1'⟩))
      · exact ha.own t1 u1 c1 d1 f1 h1' h2' hs1 hs2
  · intro t1 f1 h
    apply ha.bound t1 f1
    rcases h with h | h | h
    · rcases set_lookup hc h with ⟨_, h⟩ | ⟨_, h'⟩
      · cases h
      · exact Or.inl h'
    · rcases set_lookup hc h with ⟨_, h⟩ | ⟨_, h'⟩
      · cases h
      · exact Or.inr (Or.inl h')
    · rcases set_lookup hc h with ⟨_, h⟩ | ⟨_, h'⟩
      · cases h
      · exact Or.inr (Or.inr h')
  · have := held_cats hc (.getting f) (fun _ => rfl) { a with cats := a.cats.set t (.getting f) }
      rfl rfl
    rw [this]
    exact ha.count
  · intro t1 h1
    rcases set_lookup hc h1 with ⟨_, h⟩ | ⟨_, h1'⟩
    · cases h
    exact ha.destroying t1 h1'
  · exact ha.gone
  · intro t1 c1 h1 hc1
    rcases set_lookup hc h1 with ⟨_, rfl⟩ | ⟨_, h1'⟩
    · cases hc1
    exact ha.tearing t1 c1 h1' hc1
  · intro t1 u1 h1 h2
    rcases set_lookup hc h1 with ⟨_, h⟩ | ⟨_, h1'⟩
    · cases h
    rcases set_lookup hc h2 with ⟨_, h⟩ | ⟨_, h2'⟩
    · cases h
    exact ha.single t1 u1 h1' h2'

/-- The invariant after thread `t` has moved from `c` to `c1`, from what the step
does to the rest of the state. -/
theorem ainv_set {a b : Abs} (ha : AInv a) {t : Nat} {c c1 : Cat}
    (hc : a.cats[t]? = some c) (hcats : b.cats = a.cats.set t c1)
    (henter : c1.is_inside = true → c.is_inside = true ∨ a.worked = false)
    (hflag1 : c1.is_inside = true → b.worked = true)
    (hflag2 : ∀ u g, u ≠ t → a.cats[u]? = some (.inside g) → b.worked = true)
    (hown : c1.slot = none ∨ c1.slot = c.slot ∨ ∀ d ∈ a.cats, d.slot ≠ c1.slot)
    (hbound1 : ∀ g, (c1 = .inside g ∨ c1 = .tearing g ∨ c1 = .released g) →
      b.flags[g]? = some true)
    (hbound2 : ∀ u g, u ≠ t → a.flags[g]? = some true →
      (a.cats[u]? = some (.inside g) ∨ a.cats[u]? = some (.tearing g) ∨
        a.cats[u]? = some (.released g)) → b.flags[g]? = some true)
    (hcount : b.refs = (if b.caller_ref then 1 else 0) + b.held)
    (hdes1 : c1 = .destroying → b.caller_ref = true ∧ b.dead = true)
    (hdes2 : ∀ u, u ≠ t → a.cats[u]? = some .destroying → b.caller_ref = true ∧ b.dead = true)
    (hgone : b.caller_ref = false → b.dead = true ∨ b.refs = 0)
    (htear1 : c1.is_tearing = true → b.refs = 0)
    (htear2 : ∀ u d, u ≠ t → a.cats[u]? = some d → d.is_tearing = true → b.refs = 0)
    (hsingle : c1 = .destroying → ∀ u, u ≠ t → a.cats[u]? ≠ some .destroying) :
    AInv b := by
  refine ⟨?_, ?_, ?_, ?_, hcount, ?_, hgone, ?_, ?_⟩
  · intro t1 u1 f1 g1 h1 h2
    rw [hcats] at h1 h2
    rcases set_lookup hc h1 with ⟨rfl, e1⟩ | ⟨hn1, h1'⟩
    · rcases set_lookup hc h2 with ⟨rfl, _⟩ | ⟨hn2, h2'⟩
      · rfl
      · exfalso
        rcases henter (by rw [← e1]; rfl) with hin | hw
        · cases c <;> simp [Cat.is_inside] at hin
          rename_i f0
          exact hn2 (ha.excl u1 t1 g1 f0 h2' hc)
        · have := ha.flag u1 g1 h2'
          rw [hw] at this
          cases this
    · rcases set_lookup hc h2 with ⟨rfl, e2⟩ | ⟨hn2, h2'⟩
      · exfalso
        rcases henter (by rw [← e2]; rfl) with hin | hw
        · cases c <;> simp [Cat.is_inside] at hin
          rename_i f0
          exact hn1 (ha.excl t1 u1 f1 f0 h1' hc)
        · have := ha.flag t1 f1 h1'
          rw [hw] at this
          cases this
      · exact ha.excl t1 u1 f1 g1 h1' h2'
  · intro t1 f1 h1
    rw [hcats] at h1
    rcases set_lookup hc h1 with ⟨rfl, e1⟩ | ⟨hn1, h1'⟩
    · exact hflag1 (by rw [← e1]; rfl)
    · exact hflag2 t1 f1 hn1 h1'
  · intro t1 u1 c2 d2 f1 h1 h2 hs1 hs2
    rw [hcats] at h1 h2
    rcases set_lookup hc h1 with ⟨rfl, rfl⟩ | ⟨hn1, h1'⟩
    · rcases set_lookup hc h2 with ⟨rfl, _⟩ | ⟨hn2, h2'⟩
      · rfl
      · rcases hown with h | h | h
        · rw [h] at hs1; cases hs1
        · rw [h] at hs1
          exact ha.own t1 u1 c d2 f1 hc h2' hs1 hs2
        · exact absurd (hs2.trans hs1.symm) (h d2 (List.mem_iff_getElem?.mpr ⟨u1, h2'⟩))
    · rcases set_lookup hc h2 with ⟨rfl, rfl⟩ | ⟨hn2, h2'⟩
      · rcases hown with h | h | h
        · rw [h] at hs2; cases hs2
        · rw [h] at hs2
          exact ha.own t1 u1 c2 c f1 h1' hc hs1 hs2
        · exact absurd (hs1.trans hs2.symm) (h c2 (List.mem_iff_getElem?.mpr ⟨t1, h1'⟩))
      · exact ha.own t1 u1 c2 d2 f1 h1' h2' hs1 hs2
  · intro t1 f1 h
    rw [hcats] at h
    by_cases ht : t1 = t
    · subst ht
      apply hbound1
      rw [get_set hc] at h
      simpa using h
    · rw [get_set hc] at h
      simp only [ht, if_false] at h
      exact hbound2 t1 f1 ht (ha.bound t1 f1 h) h
  · intro t1 h1
    rw [hcats] at h1
    rcases set_lookup hc h1 with ⟨rfl, e1⟩ | ⟨hn1, h1'⟩
    · exact hdes1 e1.symm
    · exact hdes2 t1 hn1 h1'
  · intro t1 c2 h1 hc2
    rw [hcats] at h1
    rcases set_lookup hc h1 with ⟨rfl, rfl⟩ | ⟨hn1, h1'⟩
    · exact htear1 hc2
    · exact htear2 t1 c2 hn1 h1' hc2
  · intro t1 u1 h1 h2
    rw [hcats] at h1 h2
    rcases set_lookup hc h1 with ⟨rfl, e1⟩ | ⟨hn1, h1'⟩
    · rcases set_lookup hc h2 with ⟨rfl, _⟩ | ⟨hn2, h2'⟩
      · rfl
      · exact absurd h2' (hsingle e1.symm u1 hn2)
    · rcases set_lookup hc h2 with ⟨rfl, e2⟩ | ⟨hn2, h2'⟩
      · exact absurd h1' (hsingle e2.symm t1 hn1)
      · exact ha.single t1 u1 h1' h2'

/-- A slot awaited by a thread that has not dropped its reference accounts for
one as soon as it is bound. -/
theorem getting_contrib {a : Abs} (ha : AInv a) {t f : Nat}
    (ht : a.cats[t]? = some (.getting f)) (hf : a.flags[f]? = some true) :
    a.contrib f = true := by
  unfold Abs.contrib
  rw [getD_of_get hf]
  simp only [Bool.true_and, Bool.not_eq_true', Bool.eq_false_iff, ne_eq]
  intro hany
  obtain ⟨u, hu | hu⟩ := any_post_iff.mp hany
  · have := ha.own t u _ _ f ht hu rfl rfl
    subst this
    rw [ht] at hu
    cases hu
  · have := ha.own t u _ _ f ht hu rfl rfl
    subst this
    rw [ht] at hu
    cases hu

theorem ainv_enter {a : Abs} (ha : AInv a) {t f : Nat} (hc : a.cats[t]? = some (.getting f))
    (hw : a.worked = false) (hf : a.flags[f]? = some true) :
    AInv { a with worked := true, cats := a.cats.set t (.inside f) } := by
  apply ainv_set ha hc rfl
  · intro _; exact Or.inr hw
  · intro _; rfl
  · intro _ _ _ _; rfl
  · exact Or.inr (Or.inl rfl)
  · intro g hg
    rcases hg with hg | hg | hg <;> cases hg
    exact hf
  · intro u g _ hfg _; exact hfg
  · have := held_cats hc (.inside f) (fun _ => rfl)
      { a with worked := true, cats := a.cats.set t (.inside f) } rfl rfl
    simp only [this]
    exact ha.count
  · intro h; cases h
  · intro u _ hu; exact ha.destroying u hu
  · exact ha.gone
  · intro h; cases h
  · intro u d _ hu hd; exact ha.tearing u d hu hd
  · intro h; cases h

theorem ainv_leave {a : Abs} (ha : AInv a) {t f : Nat} (hc : a.cats[t]? = some (.inside f))
    (worked : Bool) :
    AInv { a with worked := worked, cats := a.cats.set t (.getting f) } := by
  apply ainv_set ha hc rfl
  · intro h; cases h
  · intro h; cases h
  · intro u g hne hu; exact absurd (ha.excl u t g f hu hc) hne
  · exact Or.inr (Or.inl rfl)
  · intro g hg
    rcases hg with hg | hg | hg <;> cases hg
  · intro u g _ hfg _; exact hfg
  · have := held_cats hc (.getting f) (fun _ => rfl)
      { a with worked := worked, cats := a.cats.set t (.getting f) } rfl rfl
    simp only [this]
    exact ha.count
  · intro h; cases h
  · intro u _ hu; exact ha.destroying u hu
  · exact ha.gone
  · intro h; cases h
  · intro u d _ hu hd; exact ha.tearing u d hu hd
  · intro h; cases h

theorem held_release {a : Abs} (ha : AInv a) {t f : Nat} (hc : a.cats[t]? = some (.getting f))
    (hf : a.flags[f]? = some true) (c1 : Cat) (hc1 : c1 = .tearing f ∨ c1 = .released f)
    (b : Abs) (hflags : b.flags = a.flags) (hcats : b.cats = a.cats.set t c1) :
    b.held + 1 = a.held := by
  have hlt := flag_lt hf
  have hpost : Cat.is_post f c1 = true := by
    rcases hc1 with rfl | rfl <;> simp [Cat.is_post]
  have h := countP_range_update a.contrib b.contrib a.flags.length f hlt (by
    intro g _ hne
    unfold Abs.contrib
    rw [hflags, hcats, any_set_same hc c1]
    rcases hc1 with rfl | rfl <;> simp [Cat.is_post, Ne.symm hne])
  have hp : a.contrib f = true := getting_contrib ha hc hf
  have hq : b.contrib f = false := by
    unfold Abs.contrib
    rw [hcats, any_set_true hc c1 _ hpost]
    simp
  rw [hp, hq] at h
  unfold Abs.held
  rw [hflags]
  simpa using h

theorem ainv_release {a : Abs} (ha : AInv a) {t f : Nat} (hc : a.cats[t]? = some (.getting f))
    (hf : a.flags[f]? = some true) (hr : a.refs ≥ 1) :
    AInv { a with
      refs := a.refs - 1
      cats := a.cats.set t (if a.refs - 1 = 0 then .tearing f else .released f) } := by
  have hc1 : (if a.refs - 1 = 0 then Cat.tearing f else Cat.released f) = .tearing f ∨
      (if a.refs - 1 = 0 then Cat.tearing f else Cat.released f) = .released f := by
    split
    · exact Or.inl rfl
    · exact Or.inr rfl
  apply ainv_set ha hc rfl
  · intro h; rcases hc1 with e | e <;> (rw [e] at h; cases h)
  · intro h; rcases hc1 with e | e <;> (rw [e] at h; cases h)
  · intro u g _ hu; exact ha.flag u g hu
  · right; left
    rcases hc1 with e | e <;> (rw [e]; rfl)
  · intro g hg
    rcases hc1 with e | e <;> (rw [e] at hg; rcases hg with hg | hg | hg <;> cases hg; exact hf)
  · intro u g _ hfg _; exact hfg
  · have h1 := held_release ha hc hf _ hc1
      { a with
        refs := a.refs - 1
        cats := a.cats.set t (if a.refs - 1 = 0 then .tearing f else .released f) } rfl rfl
    have h2 := ha.count
    simp only
    split at h2 <;> simp_all <;> omega
  · intro h; rcases hc1 with e | e <;> (rw [e] at h; cases h)
  · intro u _ hu; exact ha.destroying u hu
  · intro hcr
    rcases ha.gone hcr with h | h
    · exact Or.inl h
    · simp only at h ⊢; omega
  · intro h
    simp only
    split at h
    · assumption
    · cases h
  · intro u d _ hu hd
    have := ha.tearing u d hu hd
    omega
  · intro h; rcases hc1 with e | e <;> (rw [e] at h; cases h)

theorem count_zero {a : Abs} (ha : AInv a) (hr : a.refs = 0) :
    a.caller_ref = false ∧ a.held = 0 := by
  have h := ha.count
  rw [hr] at h
  cases hcr : a.caller_ref with
  | true => rw [hcr] at h; simp at h; omega
  | false => rw [hcr] at h; simp at h; exact ⟨rfl, by omega⟩

theorem ainv_teardown {a : Abs} (ha : AInv a) {t f : Nat}
    (hc : a.cats[t]? = some (.tearing f)) :
    AInv { a with
      refs := 0, worked := false, dead := false, msgno := 0
      cats := a.cats.set t (.released f) } := by
  have hr : a.refs = 0 := ha.tearing t _ hc rfl
  obtain ⟨hcr, hheld⟩ := count_zero ha hr
  apply ainv_set ha hc rfl
  · intro h; cases h
  · intro h; cases h
  · intro u g _ hu
    have := inside_refs ha hu
    omega
  · exact Or.inr (Or.inl rfl)
  · intro g hg
    rcases hg with hg | hg | hg <;> cases hg
    exact ha.bound t f (Or.inr (Or.inl hc))
  · intro u g _ hfg _; exact hfg
  · have := held_cats hc (.released f) (fun _ => rfl)
      { a with refs := 0, worked := false, dead := false, msgno := 0,
               cats := a.cats.set t (.released f) } rfl rfl
    rw [hcr] at this
    simp only [hcr, this, hheld]
    rfl
  · intro h; cases h
  · intro u _ hu
    have := (ha.destroying u hu).1
    rw [hcr] at this
    cases this
  · intro _; exact Or.inr rfl
  · intro h; cases h
  · intro u d _ _ _; rfl
  · intro h; cases h

theorem ainv_memset {a : Abs} (ha : AInv a) {t f : Nat}
    (hc : a.cats[t]? = some (.released f)) :
    AInv { a with flags := a.flags.set f false, cats := a.cats.set t .free } := by
  have hf := ha.bound t f (Or.inr (Or.inr hc))
  apply ainv_set ha hc rfl
  · intro h; cases h
  · intro h; cases h
  · intro u g _ hu; exact ha.flag u g hu
  · exact Or.inl rfl
  · intro g hg
    rcases hg with hg | hg | hg <;> cases hg
  · intro u g hne hfg hu
    have hgf : g ≠ f := by
      intro e
      subst e
      rcases hu with hu | hu | hu
      · exact hne (ha.own u t _ _ g hu hc rfl rfl)
      · exact hne (ha.own u t _ _ g hu hc rfl rfl)
      · exact hne (ha.own u t _ _ g hu hc rfl rfl)
    simp only
    rw [List.getElem?_set_ne (Ne.symm hgf)]
    exact hfg
  · have hh : ({ a with flags := a.flags.set f false, cats := a.cats.set t .free } : Abs).held
        = a.held := by
      apply held_congr (by simp)
      intro g _
      unfold Abs.contrib
      simp only
      by_cases hgf : g = f
      · subst hgf
        have h1 : a.cats.any (Cat.is_post g) = true :=
          any_post_iff.mpr ⟨t, Or.inr hc⟩
        have h2 : (a.flags.set g false).getD g false = false := by
          rw [List.getD_eq_getElem?_getD, get_set hf]
          simp
        rw [h1, h2]
        simp
      · rw [any_set_same hc .free _ (by simp [Cat.is_post, Ne.symm hgf])]
        rw [List.getD_eq_getElem?_getD, List.getD_eq_getElem?_getD,
          List.getElem?_set_ne (Ne.symm hgf)]
    simp only [hh]
    exact ha.count
  · intro h; cases h
  · intro u _ hu; exact ha.destroying u hu
  · exact ha.gone
  · intro h; cases h
  · intro u d _ hu hd; exact ha.tearing u d hu hd
  · intro h; cases h

theorem ainv_destroy {a : Abs} (ha : AInv a) {t : Nat} (hc : a.cats[t]? = some .free)
    (hr : a.refs ≥ 1) (hd : a.dead = false) :
    AInv { a with dead := true, cats := a.cats.set t .destroying } := by
  have hcr : a.caller_ref = true := by
    cases h : a.caller_ref with
    | true => rfl
    | false =>
      rcases ha.gone h with h1 | h1
      · rw [hd] at h1; cases h1
      · omega
  apply ainv_set ha hc rfl
  · intro h; cases h
  · intro h; cases h
  · intro u g _ hu; exact ha.flag u g hu
  · exact Or.inl rfl
  · intro g hg
    rcases hg with hg | hg | hg <;> cases hg
  · intro u g _ hfg _; exact hfg
  · have := held_cats hc .destroying (fun _ => rfl)
      { a with dead := true, cats := a.cats.set t .destroying } rfl rfl
    simp only [this]
    exact ha.count
  · intro _; exact ⟨hcr, rfl⟩
  · intro u _ hu; exact ⟨hcr, rfl⟩
  · intro _; exact Or.inl rfl
  · intro h; cases h
  · intro u d _ hu hd; exact ha.tearing u d hu hd
  · intro _ u _ hu
    have := (ha.destroying u hu).2
    rw [hd] at this
    cases this

theorem ainv_destroy_release {a : Abs} (ha : AInv a) {t : Nat}
    (hc : a.cats[t]? = some .destroying) (hr : a.refs ≥ 1) :
    AInv { a with
      refs := a.refs - 1, caller_ref := false
      cats := a.cats.set t (if a.refs - 1 = 0 then .destroy_tearing else .free) } := by
  obtain ⟨hcr, hdead⟩ := ha.destroying t hc
  have hc1 : (if a.refs - 1 = 0 then Cat.destroy_tearing else Cat.free) = .destroy_tearing ∨
      (if a.refs - 1 = 0 then Cat.destroy_tearing else Cat.free) = .free := by
    split
    · exact Or.inl rfl
    · exact Or.inr rfl
  apply ainv_set ha hc rfl
  · intro h; rcases hc1 with e | e <;> (rw [e] at h; cases h)
  · intro h; rcases hc1 with e | e <;> (rw [e] at h; cases h)
  · intro u g _ hu; exact ha.flag u g hu
  · left
    rcases hc1 with e | e <;> (rw [e]; rfl)
  · intro g hg
    rcases hc1 with e | e <;> (rw [e] at hg; rcases hg with hg | hg | hg <;> cases hg)
  · intro u g _ hfg _; exact hfg
  · have h1 := held_cats hc (if a.refs - 1 = 0 then .destroy_tearing else .free)
      (by intro g; rcases hc1 with e | e <;> (rw [e]; rfl))
      { a with
        refs := a.refs - 1, caller_ref := false
        cats := a.cats.set t (if a.refs - 1 = 0 then .destroy_tearing else .free) } rfl rfl
    have h2 := ha.count
    rw [hcr] at h2
    simp only [h1]
    simp at h2 ⊢
    omega
  · intro h; rcases hc1 with e | e <;> (rw [e] at h; cases h)
  · intro u hne hu; exact absurd (ha.single u t hu hc) hne
  · intro _; exact Or.inl hdead
  · intro h
    simp only
    split at h
    · assumption
    · cases h
  · intro u d _ hu hd
    have := ha.tearing u d hu hd
    omega
  · intro h; rcases hc1 with e | e <;> (rw [e] at h; cases h)

theorem ainv_destroy_teardown {a : Abs} (ha : AInv a) {t : Nat}
    (hc : a.cats[t]? = some .destroy_tearing) :
    AInv { a with
      refs := 0, worked := false, dead := false, msgno := 0
      cats := a.cats.set t .free } := by
  have hr : a.refs = 0 := ha.tearing t _ hc rfl
  obtain ⟨hcr, hheld⟩ := count_zero ha hr
  apply ainv_set ha hc rfl
  · intro h; cases h
  · intro h; cases h
  · intro u g _ hu
    have := inside_refs ha hu
    omega
  · exact Or.inl rfl
  · intro g hg
    rcases hg with hg | hg | hg <;> cases hg
  · intro u g _ hfg _; exact hfg
  · have := held_cats hc .free (fun _ => rfl)
      { a with refs := 0, worked := false, dead := false, msgno := 0,
               cats := a.cats.set t .free } rfl rfl
    rw [hcr] at this
    simp only [hcr, this, hheld]
    rfl
  · intro h; cases h
  · intro u _ hu
    have := (ha.destroying u hu).1
    rw [hcr] at this
    cases this
  · intro _; exact Or.inr rfl
  · intro h; cases h
  · intro u d _ _ _; rfl
  · intro h; cases h

theorem ainv_bind {a : Abs} (ha : AInv a) {f : Nat} (hf : a.flags[f]? = some false)
    (hr : a.refs ≥ 1) (hd : a.dead = false) :
    AInv { a with
      refs := a.refs + 1, msgno := wrap64 (a.msgno + 1), flags := a.flags.set f true } := by
  have hlt := flag_lt hf
  refine ⟨ha.excl, ha.flag, ha.own, ?_, ?_, ha.destroying, ?_, ?_, ha.single⟩
  · intro t g hg
    have := ha.bound t g hg
    simp only
    rw [get_set hf]
    split
    · rfl
    · exact this
  · have hh : ({ a with refs := a.refs + 1, msgno := wrap64 (a.msgno + 1),
                        flags := a.flags.set f true } : Abs).held = a.held + 1 := by
      have h := countP_range_update a.contrib
        ({ a with refs := a.refs + 1, msgno := wrap64 (a.msgno + 1),
                  flags := a.flags.set f true } : Abs).contrib a.flags.length f hlt (by
          intro g _ hne
          unfold Abs.contrib
          simp only
          rw [List.getD_eq_getElem?_getD, List.getD_eq_getElem?_getD,
            List.getElem?_set_ne (Ne.symm hne)])
      have hp : a.contrib f = false := by
        unfold Abs.contrib
        rw [getD_of_get hf]
        rfl
      have hq : ({ a with refs := a.refs + 1, msgno := wrap64 (a.msgno + 1),
                          flags := a.flags.set f true } : Abs).contrib f = true := by
        unfold Abs.contrib
        simp only
        have h1 : (a.flags.set f true).getD f false = true := by
          rw [List.getD_eq_getElem?_getD, get_set hf]
          simp
        rw [h1]
        simp only [Bool.true_and, Bool.not_eq_true', Bool.eq_false_iff, ne_eq]
        intro hany
        obtain ⟨u, hu | hu⟩ := any_post_iff.mp hany
        · have := ha.bound u f (Or.inr (Or.inl hu))
          rw [hf] at this
          cases this
        · have := ha.bound u f (Or.inr (Or.inr hu))
          rw [hf] at this
          cases this
      rw [hp, hq] at h
      unfold Abs.held
      simp only [List.length_set]
      simpa using h
    have h2 := ha.count
    simp only [hh]
    split at h2 <;> simp_all
    omega
  · intro hcr
    rcases ha.gone hcr with h | h
    · rw [hd] at h; cases h
    · omega
  · intro t c hc hct
    have := ha.tearing t c hc hct
    omega

theorem ainv_new_slot {a : Abs} (ha : AInv a) :
    AInv { a with flags := a.flags ++ [false] } := by
  refine ⟨ha.excl, ha.flag, ha.own, ?_, ?_, ha.destroying, ha.gone, ha.tearing, ha.single⟩
  · intro t g hg
    have := ha.bound t g hg
    simp only
    rw [List.getElem?_append_left (flag_lt this)]
    exact this
  · have hh : ({ a with flags := a.flags ++ [false] } : Abs).held = a.held := by
      unfold Abs.held
      simp only [List.length_append, List.length_singleton]
      rw [List.range_succ, List.countP_append]
      have h1 : ({ a with flags := a.flags ++ [false] } : Abs).contrib a.flags.length = false := by
        unfold Abs.contrib
        simp only
        rw [List.getD_eq_getElem?_getD, List.getElem?_append_right (le_refl _)]
        simp
      have h2 := countP_range_congr a.contrib
        ({ a with flags := a.flags ++ [false] } : Abs).contrib a.flags.length (by
          intro g hg
          unfold Abs.contrib
          simp only
          rw [List.getD_eq_getElem?_getD, List.getD_eq_getElem?_getD,
            List.getElem?_append_left hg])
      rw [h2]
      simp [h1]
    simp only [hh]
    exact ha.count

/-- Every step of the threads keeps the invariant. -/
theorem astep_inv {a b : Abs} {l : Option Int} (h : AStep a l b) (ha : AInv a) : AInv b := by
  cases h with
  | stutter => exact ha
  | quiet t f c _ _ => exact ha
  | start_get t f hc hfree => exact ainv_start_get ha hc hfree
  | enter t f hc hw hf => exact ainv_enter ha hc hw hf
  | leave t f worked hc _ => exact ainv_leave ha hc worked
  | bind t f _ hf hr hd => exact ainv_bind ha hf hr hd
  | release t f hc hf hr => exact ainv_release ha hc hf hr
  | teardown t f hc => exact ainv_teardown ha hc
  | memset t f hc => exact ainv_memset ha hc
  | destroy t hc hr hd => exact ainv_destroy ha hc hr hd
  | destroy_release t hc hr => exact ainv_destroy_release ha hc hr
  | destroy_teardown t hc => exact ainv_destroy_teardown ha hc
  | new_slot => exact ainv_new_slot ha

theorem wrap64_small {k : Nat} (h : k < 2 ^ 63) : wrap64 (k : Int) = k := by
  unfold wrap64
  have h1 : ((k : Int) + 2 ^ 63) % 2 ^ 64 = (k : Int) + 2 ^ 63 := by
    apply Int.emod_eq_of_lt <;> omega
  rw [h1]
  omega

theorem wrap64_succ (x : Int) : wrap64 (wrap64 x + 1) = wrap64 (x + 1) := by
  unfold wrap64
  have : (x + 2 ^ 63) % 2 ^ 64 - 2 ^ 63 + 1 + 2 ^ 63 = (x + 2 ^ 63) % 2 ^ 64 + 1 := by ring
  rw [this]
  have h2 : x + 1 + 2 ^ 63 = (x + 2 ^ 63) + 1 := by ring
  rw [h2, Int.add_emod ((x + 2 ^ 63) % 2 ^ 64), Int.emod_emod, ← Int.add_emod]

theorem astep_msgno {a b : Abs} {l : Option Int} {issued : List Int} (h : AStep a l b)
    (hm : MsgnoInv a issued) : MsgnoInv b (issue issued l) := by
  obtain ⟨h1, h2⟩ := hm
  cases h with
  | stutter => exact ⟨h1, h2⟩
  | quiet t f c _ _ => exact ⟨h1, h2⟩
  | start_get t f hc hfree => exact ⟨h1, h2⟩
  | enter t f hc hw hf => exact ⟨h1, h2⟩
  | leave t f worked hc _ => exact ⟨h1, h2⟩
  | bind t f _ hf hr hd =>
    have hmsg := h1 hr
    refine ⟨?_, ?_⟩
    · intro _
      simp only [issue, List.length_append, List.length_singleton]
      rw [hmsg, wrap64_succ]
      congr 1
    · intro hlen
      simp only [issue, List.length_append, List.length_singleton] at hlen ⊢
      rw [List.range_succ, List.map_append, ← h2 (by omega), hmsg, wrap64_small (by omega)]
      rfl
  | release t f hc hf hr =>
    refine ⟨?_, h2⟩
    intro hr1
    simp only at hr1
    exact h1 (by omega)
  | teardown t f hc =>
    refine ⟨?_, h2⟩
    intro hr1
    simp only at hr1
    omega
  | memset t f hc => exact ⟨h1, h2⟩
  | destroy t hc hr hd => exact ⟨h1, h2⟩
  | destroy_release t hc hr =>
    refine ⟨?_, h2⟩
    intro hr1
    simp only at hr1
    exact h1 (by omega)
  | destroy_teardown t hc =>
    refine ⟨?_, h2⟩
    intro hr1
    simp only at hr1
    omega
  | new_slot => exact ⟨h1, h2⟩

theorem SameView.of_frame {w w1 : World} (h : PumpFrame w w1)
    (hw : w1.n.nn_worked = w.n.nn_worked) : SameView w w1 :=
  ⟨h.refs, hw, h.dead, h.msgno, h.flags⟩

theorem recv_parse_view {codec : Codec} {w w1 : World} {sock : Int} {nx : recv_next}
    (h : recv_parse codec w sock = .ok w1 nx) : SameView w w1 := by
  refine SameView.of_frame (recv_parse_frame h) ?_
  unfold recv_parse at h
  split at h
  · simp at h
  · split at h
    · split at h
      · simp at h
      · simp at h
        obtain ⟨rfl, _⟩ := h
        simp only [recv_grow]
        split <;> rfl
      · simp at h
      · dsimp only at h
        split at h <;>
        · simp at h
          obtain ⟨rfl, _⟩ := h
          simp only [recv_grow]
          split <;> rfl
    · simp at h
    · simp at h
      obtain ⟨rfl, _⟩ := h
      rfl

theorem recv_remove_view {w w1 : World} {m : Int} {f : Nat}
    (h : recv_remove w m = .ok w1 f) : SameView w w1 := by
  refine SameView.of_frame (recv_remove_frame h) ?_
  unfold recv_remove at h
  have hf := pending_remove_fields w.n m
  split at h
  · rename_i n1 fut heq
    simp at h
    obtain ⟨rfl, _⟩ := h
    rw [heq] at hf
    exact hf.2.2.2.2.2.2.1
  · simp at h

theorem recv_complete_view {w w1 : World} {g f : Nat} {o : Option hdfs_object}
    (h : recv_complete w g f o = .ok w1 ()) : SameView w w1 := by
  refine SameView.of_frame (recv_complete_frame h) ?_
  unfold recv_complete _future_complete_unlocked _future_complete at h
  split at h <;>
  · split at h
    · simp at h
    · split at h
      · simp at h
      · split at h
        · simp at h
        · simp at h
          subst h
          rfl

theorem connect_view {conn : Except String Int} {w w1 : World} {r : Option String}
    (h : hdfs_namenode_connect conn w = .ok w1 r) : SameView w w1 := by
  unfold hdfs_namenode_connect at h
  split at h
  · simp at h
  · split at h <;> (simp at h; obtain ⟨rfl, _⟩ := h; exact ⟨rfl, rfl, rfl, rfl, rfl⟩)

theorem authenticate_view {codec : Codec} {username : String} {werr r : Option String}
    {w w1 : World} (h : hdfs_namenode_authenticate codec username werr w = .ok w1 r) :
    SameView w w1 := by
  unfold hdfs_namenode_authenticate at h
  split at h
  · simp at h
  · split at h
    · simp at h
    · simp at h
      obtain ⟨rfl, _⟩ := h
      exact ⟨rfl, rfl, rfl, rfl, rfl⟩

theorem invoke_send_view {codec : Codec} {rpc : hdfs_object} {m : Int} {werr r : Option String}
    {w w1 : World} (h : invoke_send codec rpc m werr w = .ok w1 r) : SameView w w1 := by
  unfold invoke_send at h
  simp at h
  obtain ⟨rfl, _⟩ := h
  exact ⟨rfl, rfl, rfl, rfl, rfl⟩

theorem abs_cat {s : Threads} {t : Nat} {pc : Pc} (h : s.pcs[t]? = some pc) :
    s.abs.cats[t]? = some pc.cat := by
  simp [Threads.abs, List.getElem?_map, h]

theorem abs_view {s : Threads} {w1 : World} (hv : SameView s.w w1) (pcs1 : List Pc) :
    ({ s with w := w1, pcs := pcs1 } : Threads).abs = { s.abs with cats := pcs1.map Pc.cat } := by
  simp only [Threads.abs, hv.refs, hv.worked, hv.dead, hv.msgno, hv.flags]

theorem abs_same {s : Threads} {w1 : World} (hv : SameView s.w w1) {t : Nat} {pc : Pc}
    (h : s.pcs[t]? = some pc) (pc1 : Pc) (hc : pc1.cat = pc.cat) :
    ({ s with w := w1, pcs := s.pcs.set t pc1 } : Threads).abs = s.abs := by
  rw [abs_view hv]
  simp only [Threads.abs]
  rw [map_set_same Pc.cat s.pcs t pc pc1 h hc]

theorem sameview_refl (w : World) : SameView w w := ⟨rfl, rfl, rfl, rfl, rfl⟩

theorem abs_world {s : Threads} {w1 : World} (hv : SameView s.w w1) :
    ({ s with w := w1 } : Threads).abs = s.abs := by
  simp only [Threads.abs, hv.refs, hv.worked, hv.dead, hv.msgno, hv.flags]

theorem recv_enter_ok {w w1 : World} {g : Nat} {nnworked : Bool}
    (h : recv_enter w g = .ok w1 nnworked) :
    (w.futures.map fun fu => fu.fu_namenode)[g]? = some true ∧ nnworked = w.n.nn_worked ∧
    (nnworked = true → w1 = w) ∧
    (nnworked = false → w1 = { w with n := { w.n with nn_worked := true } }) := by
  unfold recv_enter at h
  split at h
  · simp at h
  · rename_i fu hfu
    split at h
    · simp at h
    · rename_i hb
      simp at hb
      dsimp only at h
      have hflag : (w.futures.map fun fu => fu.fu_namenode)[g]? = some true := by
        simp [List.getElem?_map, hfu, hb]
      split at h
      · rename_i hw
        simp at hw
        simp only [Outcome.ok.injEq] at h
        obtain ⟨rfl, rfl⟩ := h
        exact ⟨hflag, rfl, fun h => (by rw [hw] at h; cases h), fun _ => rfl⟩
      · rename_i hw
        simp at hw
        simp only [Outcome.ok.injEq] at h
        obtain ⟨rfl, rfl⟩ := h
        exact ⟨hflag, rfl, fun _ => rfl, fun h => (by rw [hw] at h; cases h)⟩

theorem recv_exit_ok {w w1 : World} {g : Nat} {r b : Bool}
    (h : recv_exit w g r = .ok w1 b) :
    w1.n.nn_refs = w.n.nn_refs ∧ w1.n.nn_worked = false ∧ w1.n.nn_dead = w.n.nn_dead ∧
    w1.n.nn_msgno = w.n.nn_msgno ∧
    w1.futures = w.futures ∧ w1.n.nn_pending = w.n.nn_pending ∧
    w1.n.nn_pending_len = w.n.nn_pending_len ∧ w.n.nn_worked = true := by
  unfold recv_exit at h
  split at h
  · simp at h
  · rename_i hw
    simp at hw
    simp at h
    obtain ⟨rfl, _⟩ := h
    exact ⟨rfl, rfl, rfl, rfl, rfl, rfl, rfl, hw⟩

theorem decref_locked_ok {w w1 : World} {lastref : Bool}
    (h : decref_locked w = .ok w1 lastref) :
    w.n.nn_refs ≥ 1 ∧ w1 = { w with n := { w.n with nn_refs := w.n.nn_refs - 1 } } ∧
    lastref = decide (w.n.nn_refs - 1 = 0) := by
  unfold decref_locked at h
  split at h
  · rename_i hr
    simp only [Outcome.ok.injEq] at h
    exact ⟨hr, h.1.symm, h.2.symm⟩
  · simp at h

theorem destroy_locked_ok {w w1 : World} {cb : Option Nat}
    (h : destroy_locked w cb = .ok w1 ()) :
    w.n.nn_refs ≥ 1 ∧ w.n.nn_dead = false ∧
    w1 = { w with n := { w.n with nn_dead := true, nn_destroy_cb := cb } } := by
  unfold destroy_locked at h
  split at h
  · simp at h
  · rename_i hr
    split at h
    · simp at h
    · rename_i hd
      simp at hd
      simp only [Outcome.ok.injEq, and_true] at h
      exact ⟨not_not.mp hr, hd, h.symm⟩

theorem cat_map_set (pcs : List Pc) (t : Nat) (pc : Pc) :
    (pcs.set t pc).map Pc.cat = (pcs.map Pc.cat).set t pc.cat := by
  rw [List.map_set]

theorem astep_same {s : Threads} {w1 : World} (hv : SameView s.w w1) {t : Nat} {pc : Pc}
    (h : s.pcs[t]? = some pc) (pc1 : Pc) (hc : pc1.cat = pc.cat) :
    AStep s.abs none ({ s with w := w1, pcs := s.pcs.set t pc1 } : Threads).abs := by
  rw [abs_same hv h pc1 hc]
  exact AStep.stutter _

/-- Every step of the threads is a step of `AStep` on the part of the state the
invariants speak of. -/
theorem step_sim {codec : Codec} {s s1 : Threads} {t : Nat} {mv : Move} {l : Option Int}
    (h : step codec s t mv = some (s1, l)) : AStep s.abs l s1.abs := by
  unfold step at h
  split at h
  · -- new_future
    simp only [Option.some.injEq, Prod.mk.injEq] at h
    obtain ⟨rfl, rfl⟩ := h
    have : ({ s with w := { s.w with futures := s.w.futures ++ [future_zero] } } : Threads).abs
        = { s.abs with flags := s.abs.flags ++ [false] } := by
      simp [Threads.abs, future_zero]
    rw [this]
    exact AStep.new_slot _
  · -- connect
    split at h
    · rename_i w1 r hc
      simp only [Option.some.injEq, Prod.mk.injEq] at h
      obtain ⟨rfl, rfl⟩ := h
      rw [abs_world (connect_view hc)]
      exact AStep.stutter _
    · simp at h
  · -- authenticate
    split at h
    · rename_i w1 r hc
      simp only [Option.some.injEq, Prod.mk.injEq] at h
      obtain ⟨rfl, rfl⟩ := h
      rw [abs_world (authenticate_view hc)]
      exact AStep.stutter _
    · simp at h
  · -- invoke
    rename_i rpc future hpc
    split at h
    · rename_i w1 err hc
      simp only [Option.some.injEq, Prod.mk.injEq] at h
      obtain ⟨rfl, rfl⟩ := h
      rcases invoke_locked_ok hc with ⟨_, _, rfl⟩ | ⟨_, hr, _⟩
      · exact AStep.stutter _
      · cases hr
    · rename_i w1 msgno r hc
      simp only [Option.some.injEq, Prod.mk.injEq] at h
      obtain ⟨rfl, rfl⟩ := h
      rcases invoke_locked_ok hc with ⟨_, hr, _⟩ |
        ⟨fu, hr, hfu, hb, hrefs, hdead, hfut, hrefs1, hdead1, hmsg, hworked, _, _⟩
      · cases hr
      · simp only [Sum.inr.injEq] at hr
        subst hr
        have hflag : s.abs.flags[future]? = some false := by
          simp [Threads.abs, List.getElem?_map, hfu, hb]
        have := AStep.bind s.abs t future (abs_cat hpc) hflag hrefs hdead
        have e : ({ s with w := w1, pcs := s.pcs.set t (.invoke_send r s.w.n.nn_msgno) } : Threads).abs
            = { s.abs with refs := s.abs.refs + 1, msgno := wrap64 (s.abs.msgno + 1),
                           flags := s.abs.flags.set future true } := by
          simp only [Threads.abs, hrefs1, hmsg, hworked, hfut, List.map_set,
            map_set_same Pc.cat s.pcs t _ (.invoke_send r s.w.n.nn_msgno) hpc rfl]
          simp [hdead, hdead1]
        rw [e]
        exact this
    · simp at h
  · -- future_get
    rename_i future hpc
    split at h
    · rename_i hall
      simp only [Option.some.injEq, Prod.mk.injEq] at h
      obtain ⟨rfl, rfl⟩ := h
      have := AStep.start_get s.abs t future (abs_cat hpc) (by
        intro c hc
        simp only [Threads.abs, List.mem_map] at hc
        obtain ⟨pc, hpcm, rfl⟩ := hc
        rw [List.all_eq_true] at hall
        simpa using hall pc hpcm)
      simp only [Threads.abs, cat_map_set] at this ⊢
      exact this
    · simp at h
  · -- destroy
    rename_i cb hpc
    split at h
    · rename_i w1 u hc
      simp only [Option.some.injEq, Prod.mk.injEq] at h
      obtain ⟨rfl, rfl⟩ := h
      obtain ⟨hr, hd, rfl⟩ := destroy_locked_ok hc
      have := AStep.destroy s.abs t (abs_cat hpc) hr hd
      simp only [Threads.abs, cat_map_set] at this ⊢
      exact this
    · simp at h
  · -- invoke_send
    rename_i rpc msgno werr hpc
    split at h
    · rename_i w1 r hc
      simp only [Option.some.injEq, Prod.mk.injEq] at h
      obtain ⟨rfl, rfl⟩ := h
      exact astep_same (invoke_send_view hc) hpc _ rfl
    · simp at h
  · -- get_loop
    rename_i future werr hpc
    split at h
    · simp at h
    · rename_i fu hfu
      simp only [Option.some.injEq, Prod.mk.injEq] at h
      obtain ⟨rfl, rfl⟩ := h
      exact astep_same (sameview_refl s.w) hpc _ (by split <;> rfl)
  · -- get_wait
    rename_i future werr hpc
    simp only [Option.some.injEq, Prod.mk.injEq] at h
    obtain ⟨rfl, rfl⟩ := h
    exact astep_same (sameview_refl s.w) hpc _ rfl
  · -- recv_enter
    rename_i g werr hpc
    split at h
    · rename_i w1 nnworked hc
      simp only [Option.some.injEq, Prod.mk.injEq] at h
      obtain ⟨rfl, rfl⟩ := h
      obtain ⟨hflag, hnw, h1, h2⟩ := recv_enter_ok hc
      cases nnworked with
      | true =>
        have := h1 rfl
        subst this
        exact astep_same (sameview_refl _) hpc _ rfl
      | false =>
        have := h2 rfl
        subst this
        have := AStep.enter s.abs t g (abs_cat hpc) hnw.symm hflag
        simp only [Threads.abs, cat_map_set] at this ⊢
        exact this
    · simp at h
  · -- recv_head
    rename_i g werr hpc
    split at h
    · split at h
      · rename_i w1 b hc
        simp only [Option.some.injEq, Prod.mk.injEq] at h
        obtain ⟨rfl, rfl⟩ := h
        obtain ⟨hr, hw, hd, hm, hf, _⟩ := recv_exit_ok hc
        have := AStep.leave s.abs t g false (abs_cat hpc) (Or.inr rfl)
        simp only [Threads.abs, cat_map_set, hr, hw, hd, hm, hf] at this ⊢
        exact this
      · simp at h
    · simp only [Option.some.injEq, Prod.mk.injEq] at h
      obtain ⟨rfl, rfl⟩ := h
      exact astep_same (sameview_refl s.w) hpc _ rfl
  · -- recv_parse
    rename_i g sock werr hpc
    split at h
    · rename_i w1 hc
      simp only [Option.some.injEq, Prod.mk.injEq] at h
      obtain ⟨rfl, rfl⟩ := h
      have hv := recv_parse_view hc
      have := AStep.leave s.abs t g s.abs.worked (abs_cat hpc) (Or.inl rfl)
      simp only [Threads.abs, cat_map_set, hv.refs, hv.worked, hv.dead, hv.msgno, hv.flags]
        at this ⊢
      exact this
    · rename_i w1 hc
      simp only [Option.some.injEq, Prod.mk.injEq] at h
      obtain ⟨rfl, rfl⟩ := h
      exact astep_same (recv_parse_view hc) hpc _ rfl
    · rename_i w1 m o hc
      simp only [Option.some.injEq, Prod.mk.injEq] at h
      obtain ⟨rfl, rfl⟩ := h
      exact astep_same (recv_parse_view hc) hpc _ rfl
    · simp at h
  · -- recv_remove
    rename_i g m o werr hpc
    split at h
    · rename_i w1 future hc
      simp only [Option.some.injEq, Prod.mk.injEq] at h
      obtain ⟨rfl, rfl⟩ := h
      exact astep_same (recv_remove_view hc) hpc _ rfl
    · simp at h
  · -- recv_complete
    rename_i g future o werr hpc
    split at h
    · rename_i w1 u hc
      simp only [Option.some.injEq, Prod.mk.injEq] at h
      obtain ⟨rfl, rfl⟩ := h
      exact astep_same (recv_complete_view hc) hpc _ (by split <;> rfl)
    · simp at h
  · -- recv_exit
    rename_i g werr hpc
    split at h
    · rename_i w1 b hc
      split at h
      · split at h
        · simp only [Option.some.injEq, Prod.mk.injEq] at h
          obtain ⟨rfl, rfl⟩ := h
          obtain ⟨hr, hw, hd, hm, hf, _⟩ := recv_exit_ok hc
          have := AStep.leave s.abs t g false (abs_cat hpc) (Or.inr rfl)
          simp only [Threads.abs, cat_map_set, hr, hw, hd, hm, hf] at this ⊢
          exact this
        · simp at h
      · simp at h
    · simp at h
  · -- get_finish
    rename_i future werr hpc
    split at h
    · simp at h
    · rename_i fu hfu
      split at h
      · rename_i hb
        split at h
        · rename_i w1 lastref hc
          simp only [Option.some.injEq, Prod.mk.injEq] at h
          obtain ⟨rfl, rfl⟩ := h
          obtain ⟨hr, rfl, rfl⟩ := decref_locked_ok hc
          have hflag : s.abs.flags[future]? = some true := by
            simp [Threads.abs, List.getElem?_map, hfu, hb]
          have := AStep.release s.abs t future (abs_cat hpc) hflag hr
          have e : (if decide (s.w.n.nn_refs - 1 = 0) = true then Pc.get_teardown future
              else Pc.get_memset future).cat
              = (if s.abs.refs - 1 = 0 then Cat.tearing future else Cat.released future) := by
            simp only [Threads.abs, decide_eq_true_eq]
            split <;> rfl
          simp only [Threads.abs, cat_map_set] at this e ⊢
          rw [e]
          exact this
        · simp at h
      · simp at h
  · -- get_teardown
    rename_i future werr hpc
    simp only [Option.some.injEq, Prod.mk.injEq] at h
    obtain ⟨rfl, rfl⟩ := h
    have := AStep.teardown s.abs t future (abs_cat hpc)
    simp only [Threads.abs, cat_map_set] at this ⊢
    exact this
  · -- get_memset
    rename_i future werr hpc
    simp only [Option.some.injEq, Prod.mk.injEq] at h
    obtain ⟨rfl, rfl⟩ := h
    have := AStep.memset s.abs t future (abs_cat hpc)
    simp only [Threads.abs, cat_map_set, List.map_set] at this ⊢
    exact this
  · -- destroy_decref
    rename_i werr hpc
    split at h
    · rename_i w1 lastref hc
      simp only [Option.some.injEq, Prod.mk.injEq] at h
      obtain ⟨rfl, rfl⟩ := h
      obtain ⟨hr, rfl, rfl⟩ := decref_locked_ok hc
      have := AStep.destroy_release s.abs t (abs_cat hpc) hr
      have e : (if decide (s.w.n.nn_refs - 1 = 0) = true then Pc.destroy_teardown
          else Pc.idle).cat
          = (if s.abs.refs - 1 = 0 then Cat.destroy_tearing else Cat.free) := by
        simp only [Threads.abs, decide_eq_true_eq]
        split <;> rfl
      simp only [Threads.abs, cat_map_set] at this e ⊢
      rw [e]
      exact this
    · simp at h
  · -- destroy_teardown
    rename_i werr hpc
    simp only [Option.some.injEq, Prod.mk.injEq] at h
    obtain ⟨rfl, rfl⟩ := h
    have := AStep.destroy_teardown s.abs t (abs_cat hpc)
    simp only [Threads.abs, cat_map_set] at this ⊢
    exact this
  · simp at h

theorem ainv_init (nthreads nslots : Nat) (sock_in : List ReadResult) :
    AInv (Threads.init nthreads nslots sock_in).abs := by
  have hcat : ∀ (t : Nat) (c : Cat),
      ((List.replicate nthreads Pc.idle).map Pc.cat)[t]? = some c → c = Cat.free := by
    intro t c h
    rw [List.map_replicate] at h
    have := List.mem_iff_getElem?.mpr ⟨t, h⟩
    exact (List.mem_replicate.mp this).2
  refine ⟨?_, ?_, ?_, ?_, ?_, ?_, ?_, ?_, ?_⟩
  · intro t u f g h1 _
    cases hcat t _ h1
  · intro t f h1
    cases hcat t _ h1
  · intro t u c d f h1 _ hs _
    rw [hcat t _ h1] at hs
    cases hs
  · intro t f h
    rcases h with h | h | h <;> cases hcat t _ h
  · have hh : (Threads.init nthreads nslots sock_in).abs.held = 0 := by
      unfold Abs.held
      rw [List.countP_eq_zero]
      intro f _
      simp [Abs.contrib, Threads.abs, Threads.init, World.init, future_zero,
        List.getD_eq_getElem?_getD, List.getElem?_replicate]
      intro h
      split at h <;> simp at h
    rw [hh]
    rfl
  · intro t h1
    cases hcat t _ h1
  · intro h
    cases h
  · intro t c h1 hc
    rw [hcat t _ h1] at hc
    cases hc
  · intro t u h1 _
    cases hcat t _ h1

theorem msgnoinv_init (nthreads nslots : Nat) (sock_in : List ReadResult) :
    MsgnoInv (Threads.init nthreads nslots sock_in).abs [] := by
  refine ⟨fun _ => ?_, fun _ => rfl⟩
  simp [Threads.abs, Threads.init, World.init, hdfs_namenode_init, wrap64]

theorem run_inv {codec : Codec} (sched : List (Nat × Move)) :
    ∀ {s s1 : Threads} {issued issued1 : List Int}, AInv s.abs → MsgnoInv s.abs issued →
      run codec sched s issued = some (s1, issued1) → AInv s1.abs ∧ MsgnoInv s1.abs issued1 := by
  induction sched with
  | nil =>
    intro s s1 issued issued1 ha hm h
    simp only [run, Option.some.injEq, Prod.mk.injEq] at h
    obtain ⟨rfl, rfl⟩ := h
    exact ⟨ha, hm⟩
  | cons x rest ih =>
    intro s s1 issued issued1 ha hm h
    obtain ⟨t, mv⟩ := x
    simp only [run] at h
    split at h
    · rename_i s2 l hstep
      have hs := step_sim hstep
      exact ih (astep_inv hs ha) (astep_msgno hs hm) h
    · simp at h

/-- C1: from a freshly initialised session, along any schedule of any number of
threads (calls of invoke interleaved with the steps of awaits, of the pump and
of destroy), the invokes that reach the insertion in the pending table take
the message numbers 0, 1, 2, ... in the order they reach it, as long as there
are at most 2^63 of them; so no two of them take the same number. -/
theorem msgno_sequence (codec : Codec) (nthreads nslots : Nat) (sock_in : List ReadResult)
    (sched : List (Nat × Move)) (s : Threads) (issued : List Int)
    (hrun : run codec sched (Threads.init nthreads nslots sock_in) [] = some (s, issued))
    (hfew : issued.length ≤ 2 ^ 63) :
    issued = (List.range issued.length).map Int.ofNat ∧ issued.Nodup := by
  have h := (run_inv sched (ainv_init nthreads nslots sock_in)
    (msgnoinv_init nthreads nslots sock_in) hrun).2.2 hfew
  refine ⟨h, ?_⟩
  rw [h]
  exact (List.nodup_range _).map Int.ofNat_injective

/-- Witness of C1: along `two_callers` the two invokes take 0 and 1. -/
theorem msgno_sequence_witness :
    (Threads.init 2 2 []).issued two_callers
        = (List.range ((Threads.init 2 2 []).issued two_callers).length).map Int.ofNat ∧
      ((Threads.init 2 2 []).issued two_callers).Nodup ∧
      (Threads.init 2 2 []).issued two_callers = [0, 1] :=
  ⟨(msgno_sequence stub_codec 2 2 [] two_callers ((Threads.init 2 2 []).after two_callers)
      ((Threads.init 2 2 []).issued two_callers) rfl (by decide)).1,
   (msgno_sequence stub_codec 2 2 [] two_callers ((Threads.init 2 2 []).after two_callers)
      ((Threads.init 2 2 []).issued two_callers) rfl (by decide)).2, by decide⟩

/-- C10: in every state reached from a freshly initialised session along any
schedule of any number of threads, each step being one region under the state
lock or one stretch of code between two such regions, at most one thread is
inside the main loop of the pump, and then `nn_worked` is set. A thread that
enters the pump on a bound slot while `nn_worked` is set comes back with
`false` and leaves the whole state as it was: the flag, the receive buffer,
the pending table and every slot. -/
theorem one_receiver (codec : Codec) (nthreads nslots : Nat) (sock_in : List ReadResult)
    (sched : List (Nat × Move)) (s : Threads) (issued : List Int)
    (hrun : run codec sched (Threads.init nthreads nslots sock_in) [] = some (s, issued)) :
    (∀ t u, s.in_pump t → s.in_pump u → t = u) ∧
    (∀ t, s.in_pump t → s.w.n.nn_worked = true) ∧
    (∀ (t g : Nat) (fu : hdfs_rpc_response_future) (werr : Option String),
      s.pcs[t]? = some (.recv_enter g) → s.w.n.nn_worked = true →
      s.w.futures[g]? = some fu → fu.fu_namenode = true →
        step codec s t (.next werr) = some ({ s with pcs := s.pcs.set t (.get_wait g) }, none) ∧
        _namenode_recv codec s.w g = .ok s.w false) := by
  have ha := (run_inv sched (ainv_init nthreads nslots sock_in)
    (msgnoinv_init nthreads nslots sock_in) hrun).1
  have hin : ∀ t, s.in_pump t → ∃ f, s.abs.cats[t]? = some (.inside f) := by
    intro t ⟨pc, hpc, hi⟩
    have := abs_cat hpc
    cases hc : pc.cat <;> rw [hc] at hi this <;> simp [Cat.is_inside] at hi
    exact ⟨_, this⟩
  refine ⟨?_, ?_, ?_⟩
  · intro t u ht hu
    obtain ⟨f, hf⟩ := hin t ht
    obtain ⟨g, hg⟩ := hin u hu
    exact ha.excl t u f g hf hg
  · intro t ht
    obtain ⟨f, hf⟩ := hin t ht
    exact ha.flag t f hf
  · intro t g fu werr hpc hw hfu hb
    have he : recv_enter s.w g = .ok s.w true := by
      simp [recv_enter, hfu, hb, hw]
    constructor
    · simp [step, hpc, he]
    · simp [_namenode_recv, he, Outcome.bind]

/-- Witness of C10: after `two_callers` thread 0 is inside the main loop of the
pump and thread 1, which found the flag set, is waiting. -/
theorem one_receiver_witness :
    ((∀ t u, ((Threads.init 2 2 []).after two_callers).in_pump t →
        ((Threads.init 2 2 []).after two_callers).in_pump u → t = u) ∧
      (∀ t, ((Threads.init 2 2 []).after two_callers).in_pump t →
        ((Threads.init 2 2 []).after two_callers).w.n.nn_worked = true)) ∧
    ((Threads.init 2 2 []).after two_callers).pcs = [.recv_head 0, .get_wait 1] ∧
    ((Threads.init 2 2 []).after two_callers).in_pump 0 :=
  ⟨⟨(one_receiver stub_codec 2 2 [] two_callers ((Threads.init 2 2 []).after two_callers)
      ((Threads.init 2 2 []).issued two_callers) rfl).1,
    (one_receiver stub_codec 2 2 [] two_callers ((Threads.init 2 2 []).after two_callers)
      ((Threads.init 2 2 []).issued two_callers) rfl).2.1⟩,
   by decide, ⟨.recv_head 0, by decide, rfl⟩⟩

theorem pending_remove_absent {n : hdfs_namenode} {m : Int}
    (hcap : n.nn_pending_len ≤ n.nn_pending.length)
    (h : ∀ e ∈ pending_entries n, e.pd_msgno ≠ m) :
    _namenode_pending_remove n m = (n, none) := by
  unfold _namenode_pending_remove
  cases hs : pending_scan n.nn_pending m n.nn_pending_len 0 with
  | none => rfl
  | some j =>
    exfalso
    obtain ⟨_, hjlt, hjm⟩ := pending_scan_some hs
    simp only [Nat.zero_add] at hjlt
    have hjl : j < n.nn_pending.length := by omega
    apply h (n.nn_pending.getD j default) _ hjm
    rw [List.getD_eq_getElem _ _ hjl]
    unfold pending_entries
    rw [List.mem_take_iff_getElem]
    exact ⟨j, by simp; omega, rfl⟩

/-- C16: on a pending table whose entries in use lie in the allocated array and
carry pairwise distinct message numbers, `_namenode_pending_remove` of a
message number of the table returns the slot stored with it; the length drops
by one; the last entry in use is moved into the vacated cell and every other
cell keeps its entry, so the remaining entries are the old ones without the
entry removed, and their message numbers are still pairwise distinct. For a
message number that is not in the table it returns `NULL` and leaves the
table as it was. -/
theorem pending_remove_correct (n : hdfs_namenode) (m : Int)
    (hcap : n.nn_pending_len ≤ n.nn_pending.length)
    (hdistinct : ((pending_entries n).map fun e => e.pd_msgno).Nodup) :
    (∀ f, (⟨m, f⟩ : _hdfs_pending) ∈ pending_entries n →
      (_namenode_pending_remove n m).2 = some f ∧
      (_namenode_pending_remove n m).1.nn_pending_len + 1 = n.nn_pending_len ∧
      (∀ e, e ∈ pending_entries (_namenode_pending_remove n m).1 ↔
        (e ∈ pending_entries n ∧ e ≠ ⟨m, f⟩)) ∧
      (pending_entries (_namenode_pending_remove n m).1).Perm
        ((pending_entries n).erase ⟨m, f⟩) ∧
      ((pending_entries (_namenode_pending_remove n m).1).map fun e => e.pd_msgno).Nodup ∧
      (∃ i, i < n.nn_pending_len ∧ n.nn_pending[i]? = some ⟨m, f⟩ ∧
        ∀ j, j < n.nn_pending_len - 1 →
          (_namenode_pending_remove n m).1.nn_pending[j]?
            = if j = i then n.nn_pending[n.nn_pending_len - 1]? else n.nn_pending[j]?)) ∧
    ((∀ e ∈ pending_entries n, e.pd_msgno ≠ m) →
      _namenode_pending_remove n m = (n, none)) := by
  refine ⟨?_, pending_remove_absent hcap⟩
  intro f he
  obtain ⟨h1, h2, _, h4⟩ := pending_remove_spec hcap hdistinct he
  have hnd := List.Nodup.of_map _ hdistinct
  refine ⟨h1, h2, ?_, h4, ?_, ?_⟩
  · intro e
    rw [h4.mem_iff, hnd.mem_erase_iff]
    exact and_comm
  · exact (h4.map _).nodup_iff.mpr
      (List.Nodup.sublist ((List.erase_sublist _ _).map _) hdistinct)
  · obtain ⟨j, hj⟩ := pending_scan_mem he rfl
    obtain ⟨_, hjlt, hjm⟩ := pending_scan_some hj
    simp only [Nat.zero_add] at hjlt
    have hjl : j < n.nn_pending.length := by omega
    have hjmem : n.nn_pending.getD j default ∈ pending_entries n := by
      rw [List.getD_eq_getElem _ _ hjl]
      unfold pending_entries
      rw [List.mem_take_iff_getElem]
      exact ⟨j, by simp; omega, rfl⟩
    have hje : n.nn_pending.getD j default = ⟨m, f⟩ := nodup_key_unique hdistinct hjmem he hjm
    refine ⟨j, hjlt, ?_, ?_⟩
    · rw [← hje, List.getD_eq_getElem _ _ hjl, List.getElem?_eq_getElem hjl]
    · intro k hk
      unfold _namenode_pending_remove
      rw [hj]
      simp only
      have hlast : n.nn_pending_len - 1 < n.nn_pending.length := by omega
      by_cases hjk : k = j
      · subst hjk
        have hne : k ≠ n.nn_pending_len - 1 := by omega
        simp only [hne, ne_eq, not_false_eq_true, if_true]
        rw [List.getD_eq_getElem _ _ hlast, List.getElem?_eq_getElem hlast]
        simp [hjl]
      · simp only [hjk, if_false]
        split
        · rw [List.getElem?_set_ne (Ne.symm hjk)]
        · rfl

/-- Witness of C16: removing message number 0 from `three_pending` returns its
slot 10 and moves the entry of message number 2 into cell 0. -/
theorem pending_remove_correct_witness :
    (_namenode_pending_remove three_pending 0).2 = some 10 ∧
    pending_entries (_namenode_pending_remove three_pending 0).1 = [⟨2, 12⟩, ⟨1, 11⟩] ∧
    _namenode_pending_remove three_pending 7 = (three_pending, none) :=
  ⟨((pending_remove_correct three_pending 0 (by decide) (by decide)).1 10 (by decide)).1,
   by decide,
   (pending_remove_correct three_pending 7 (by decide) (by decide)).2 (by decide)⟩

/-- C17: the advance step of the pump over a parsed frame of `s` bytes, with
`s` at most the used count and the used bytes inside the buffer, sets the used
count to `used - s` and leaves at the front of the buffer, in order, the old
bytes from offset `s` up to the old used count; the buffer keeps its size. The
pump takes this step exactly when the probe returns a record. -/
theorem advance_keeps_tail (n : hdfs_namenode) (s : Nat)
    (hs : s ≤ n.nn_recvbuf_used) (hu : n.nn_recvbuf_used ≤ n.nn_recvbuf.length) :
    (recv_advance n s).nn_recvbuf_used = n.nn_recvbuf_used - s ∧
    (recv_advance n s).nn_recvbuf.take (recv_advance n s).nn_recvbuf_used
      = (n.nn_recvbuf.take n.nn_recvbuf_used).drop s ∧
    (∀ i, i < n.nn_recvbuf_used - s →
      (recv_advance n s).nn_recvbuf[i]? = n.nn_recvbuf[s + i]?) ∧
    (recv_advance n s).nn_recvbuf.length = n.nn_recvbuf.length ∧
    (∀ (codec : Codec) (w : World) (sock : Int) (m : Int) (o : Option hdfs_object),
      w.n = n → sock ≠ -1 →
      codec._hdfs_result_deserialize (n.nn_recvbuf.take n.nn_recvbuf_used) = .result m o s →
      recv_parse codec w sock = .ok { w with n := recv_advance n s } (.got m o)) := by
  have htake : (recv_advance n s).nn_recvbuf.take (n.nn_recvbuf_used - s)
      = (n.nn_recvbuf.drop s).take (n.nn_recvbuf_used - s) := by
    unfold recv_advance memmove
    simp only
    split
    · simp only [List.take_zero, List.nil_append, Nat.zero_add]
      rw [List.take_append_of_le_length (by simp; omega)]
      simp
    · rename_i h0
      have : n.nn_recvbuf_used - s = 0 := by simpa using h0
      simp [this]
  refine ⟨rfl, ?_, ?_, ?_, ?_⟩
  · show (recv_advance n s).nn_recvbuf.take (n.nn_recvbuf_used - s) = _
    rw [htake, List.drop_take]
  · intro i hi
    have h1 : ((recv_advance n s).nn_recvbuf.take (n.nn_recvbuf_used - s))[i]?
        = (recv_advance n s).nn_recvbuf[i]? := List.getElem?_take_of_lt hi
    rw [← h1, htake, List.getElem?_take_of_lt hi, List.getElem?_drop]
  · unfold recv_advance memmove
    simp only
    split
    · simp only [List.take_zero, List.nil_append, Nat.zero_add, List.length_append,
        List.length_take, List.length_drop]
      omega
    · rfl
  · intro codec w sock m o hw hsock hres
    subst hw
    unfold recv_parse
    simp only [hsock, if_false, hres]

/-- Witness of C17: advancing `frame_and_a_half` over its frame of four bytes
leaves the two bytes of the next frame at the front. -/
theorem advance_keeps_tail_witness :
    (recv_advance frame_and_a_half 4).nn_recvbuf_used = 2 ∧
    (recv_advance frame_and_a_half 4).nn_recvbuf.take
      (recv_advance frame_and_a_half 4).nn_recvbuf_used = [1, 3] :=
  ⟨(advance_keeps_tail frame_and_a_half 4 (by decide) (by decide)).1,
   (advance_keeps_tail frame_and_a_half 4 (by decide) (by decide)).2.1⟩

theorem capinv_insert {n : hdfs_namenode} (h : CapInv n) (m : Int) (f : Nat) :
    ∃ n1, _namenode_pending_insert_unlocked n m f = some n1 ∧ CapInv n1 ∧
      n.nn_pending_len < n1.nn_pending.length ∧
      n1.nn_pending.length
        = (if n.nn_pending_len % 16 = 0 then n.nn_pending_len + 16 else n.nn_pending.length) ∧
      n1.nn_pending_len = n.nn_pending_len + 1 ∧
      n1.nn_pending[n.nn_pending_len]? = some ⟨m, f⟩ ∧
      (∀ i, i < n.nn_pending_len → n1.nn_pending[i]? = n.nn_pending[i]?) ∧
      pending_entries n1 = pending_entries n ++ [⟨m, f⟩] := by
  unfold CapInv at h
  have hle : n.nn_pending_len ≤ n.nn_pending.length := by omega
  unfold _namenode_pending_insert_unlocked
  by_cases h16 : n.nn_pending_len % 16 = 0
  · have hlen : (realloc (default : _hdfs_pending) n.nn_pending (n.nn_pending_len + 16)).length
        = n.nn_pending_len + 16 := by
      unfold realloc
      simp only [List.length_append, List.length_take, List.length_replicate]
      omega
    have hpre : ∀ i, i < n.nn_pending_len →
        (realloc (default : _hdfs_pending) n.nn_pending (n.nn_pending_len + 16))[i]?
          = n.nn_pending[i]? := by
      intro i hi
      unfold realloc
      rw [List.getElem?_append_left (by simp; omega), List.getElem?_take_of_lt (by omega)]
    simp only [h16, if_true, hlen, Nat.lt_add_right_iff_pos, Nat.zero_lt_succ]
    refine ⟨_, rfl, ?_, ?_, ?_, rfl, ?_, ?_, ?_⟩
    · unfold CapInv
      simp only [List.length_set, hlen]
      omega
    · simp only [List.length_set, hlen]; omega
    · simp only [List.length_set, hlen]
    · simp only [List.getElem?_set, hlen]
      simp
    · intro i hi
      simp only
      rw [List.getElem?_set_ne (by omega), hpre i hi]
    · unfold pending_entries
      simp only
      apply List.ext_getElem?
      intro i
      by_cases hi : i < n.nn_pending_len
      · rw [List.getElem?_take_of_lt (by omega), List.getElem?_set_ne (by omega), hpre i hi,
          List.getElem?_append_left (by simp; omega), List.getElem?_take_of_lt hi]
      · by_cases hi2 : i = n.nn_pending_len
        · subst hi2
          rw [List.getElem?_take_of_lt (by omega), List.getElem?_set]
          simp [hlen, hle]
        · rw [List.getElem?_eq_none (by simp; omega), List.getElem?_eq_none (by simp; omega)]
  · have hlt : n.nn_pending_len < n.nn_pending.length := by omega
    simp only [h16, if_false, hlt, if_true]
    refine ⟨_, rfl, ?_, ?_, ?_, rfl, ?_, ?_, ?_⟩
    · unfold CapInv
      simp only [List.length_set]
      omega
    · simp only [List.length_set]; exact hlt
    · simp only [List.length_set]
    · simp only [List.getElem?_set]
      simp [hlt]
    · intro i hi
      simp only
      rw [List.getElem?_set_ne (by omega)]
    · unfold pending_entries
      simp only
      apply List.ext_getElem?
      intro i
      by_cases hi : i < n.nn_pending_len
      · rw [List.getElem?_take_of_lt (by omega), List.getElem?_set_ne (by omega),
          List.getElem?_append_left (by simp; omega), List.getElem?_take_of_lt hi]
      · by_cases hi2 : i = n.nn_pending_len
        · subst hi2
          rw [List.getElem?_take_of_lt (by omega), List.getElem?_set]
          simp [hlt, hle]
        · rw [List.getElem?_eq_none (by simp; omega), List.getElem?_eq_none (by simp; omega)]

theorem capinv_remove {n : hdfs_namenode} (h : CapInv n) (m : Int) :
    CapInv (_namenode_pending_remove n m).1 := by
  unfold CapInv at h ⊢
  unfold _namenode_pending_remove
  split
  · exact h
  · simp only
    split
    · simp only [List.length_set]; omega
    · omega

theorem pending_ops_capinv (ops : List PendingOp) :
    ∀ n : hdfs_namenode, CapInv n → ∃ n1, pending_ops ops n = some n1 ∧ CapInv n1 := by
  induction ops with
  | nil => intro n h; exact ⟨n, rfl, h⟩
  | cons op ops ih =>
    intro n h
    cases op with
    | insert m f =>
      obtain ⟨n1, h1, h2, _⟩ := capinv_insert h m f
      simp only [pending_ops, PendingOp.apply, h1]
      exact ih n1 h2
    | remove m =>
      simp only [pending_ops, PendingOp.apply]
      exact ih _ (capinv_remove h m)

/-- C18: with the pending array modelled by its allocated cells (none at
init), every sequence of inserts and removes from the empty table runs without
an insert storing outside the array, and leaves a capacity of at least
`16 * ceil(len / 16)`; in the state reached every insert stores at an index
below the capacity it leaves, which is `len + 16` when `len` is a multiple of
16 (whatever the capacity was, so possibly less than before) and unchanged
otherwise, and every entry below `len` is still in place after it. -/
theorem pending_capacity (ops : List PendingOp) :
    hdfs_namenode_init.nn_pending.length = 0 ∧ hdfs_namenode_init.nn_pending_len = 0 ∧
    ∃ n, pending_ops ops hdfs_namenode_init = some n ∧
      16 * ((n.nn_pending_len + 15) / 16) ≤ n.nn_pending.length ∧
      ∀ (m : Int) (f : Nat), ∃ n1, _namenode_pending_insert_unlocked n m f = some n1 ∧
        n.nn_pending_len < n1.nn_pending.length ∧
        n1.nn_pending.length
          = (if n.nn_pending_len % 16 = 0 then n.nn_pending_len + 16 else n.nn_pending.length) ∧
        n1.nn_pending_len = n.nn_pending_len + 1 ∧
        n1.nn_pending[n.nn_pending_len]? = some ⟨m, f⟩ ∧
        (∀ i, i < n.nn_pending_len → n1.nn_pending[i]? = n.nn_pending[i]?) := by
  refine ⟨rfl, rfl, ?_⟩
  obtain ⟨n, h1, h2⟩ := pending_ops_capinv ops hdfs_namenode_init (by unfold CapInv; decide)
  refine ⟨n, h1, h2, ?_⟩
  intro m f
  obtain ⟨n1, e1, _, e3, e4, e5, e6, e7, _⟩ := capinv_insert h2 m f
  exact ⟨n1, e1, e3, e4, e5, e6, e7⟩

/-- After seventeen inserts and seventeen removes the table is empty with 32
cells allocated; the next insert leaves 16 cells. -/
theorem pending_shrinks :
    ((pending_ops grow_and_shrink hdfs_namenode_init).map
      fun n => (n.nn_pending_len, n.nn_pending.length)) = some (0, 32) ∧
    ((pending_ops (grow_and_shrink ++ [.insert 17 17]) hdfs_namenode_init).map
      fun n => (n.nn_pending_len, n.nn_pending.length)) = some (1, 16) := by
  constructor <;> rfl

/-- Witness of C18: the table reached by `grow_and_shrink` is empty with 32
cells allocated, and the insert that follows stores at index 0 of an array
shrunk to 16 cells. -/
theorem pending_capacity_witness :
    ∃ n, pending_ops grow_and_shrink hdfs_namenode_init = some n ∧
      16 * ((n.nn_pending_len + 15) / 16) ≤ n.nn_pending.length ∧
      ∀ (m : Int) (f : Nat), ∃ n1, _namenode_pending_insert_unlocked n m f = some n1 ∧
        n.nn_pending_len < n1.nn_pending.length ∧
        n1.nn_pending.length
          = (if n.nn_pending_len % 16 = 0 then n.nn_pending_len + 16 else n.nn_pending.length) ∧
        n1.nn_pending_len = n.nn_pending_len + 1 ∧
        n1.nn_pending[n.nn_pending_len]? = some ⟨m, f⟩ ∧
        (∀ i, i < n.nn_pending_len → n1.nn_pending[i]? = n.nn_pending[i]?) :=
  (pending_capacity grow_and_shrink).2.2

/-- C12: on `eof_world` (flag `nn_worked` clear, one call pending, `read`
returning 0) the pump called for slot 0 takes the receiver role and returns
`false` with `nn_worked` still set: the `goto out` of line 298 passes over
lines 361-362, which every other way out of the main loop goes through. -/
theorem eof_leaves_flag_set :
    eof_world.n.nn_worked = false ∧ pending_entries eof_world.n = [⟨0, 0⟩] ∧
    eof_world.sock_in = [.eof] ∧
    (_namenode_recv stub_codec eof_world 0).value = some false ∧
    ((_namenode_recv stub_codec eof_world 0).world.map fun w => w.n.nn_worked) = some true := by
  refine ⟨?_, ?_, ?_, ?_, ?_⟩ <;> rfl

/-- C13: on `eof_world` (one call in flight, empty receive buffer, `read`
returning 0) the pump returns `false` and leaves the session as it was: not
dead, socket still open. -/
theorem eof_leaves_session_live :
    eof_world.n.nn_recvbuf_used = 0 ∧ eof_world.n.nn_dead = false ∧
    pending_entries eof_world.n = [⟨0, 0⟩] ∧ eof_world.sock_in = [.eof] ∧
    (_namenode_recv stub_codec eof_world 0).value = some false ∧
    ((_namenode_recv stub_codec eof_world 0).world.map fun w => (w.n.nn_dead, w.n.nn_sock))
      = some (false, 5) := by
  refine ⟨?_, ?_, ?_, ?_, ?_, ?_⟩ <;> rfl

/-- C15: on `destroyed_world` the pending array holds slot 0 at index 0 and
slot 1 behind it. The pump called for slot 0 finds the session dead, leaves
through the end of its critical section (clearing `nn_worked`) and returns
`false`; the loop of lines 366-374 looks at entry 0 in both of its rounds,
finds the goal there, and broadcasts nothing, although slot 1 is pending. -/
theorem exit_wakes_nobody :
    pending_entries destroyed_world.n = [⟨0, 0⟩, ⟨1, 1⟩] ∧
    destroyed_world.n.nn_dead = true ∧ destroyed_world.n.nn_worked = false ∧
    (_namenode_recv stub_codec destroyed_world 0).value = some false ∧
    ((_namenode_recv stub_codec destroyed_world 0).world.map fun w => w.n.nn_worked)
      = some false ∧
    ((_namenode_recv stub_codec destroyed_world 0).world.map fun w => w.trace)
      = some destroyed_world.trace ∧
    recv_wake destroyed_world.n 0 2 = [] ∧
    recv_wake destroyed_world.n 1 2 = [Event.notifyall 0] := by
  refine ⟨?_, ?_, ?_, ?_, ?_, ?_, ?_, ?_⟩ <;> rfl

theorem sameslots_refl (w : World) : SameSlots w w := ⟨rfl, rfl, rfl⟩

theorem SlotInv.world {w w1 : World} {pcs : List Pc} (h : SlotInv w pcs)
    (hs : SameSlots w w1) : SlotInv w1 pcs := by
  have he : pending_entries w1.n = pending_entries w.n := by
    unfold pending_entries; rw [hs.pending, hs.len]
  refine ⟨?_, ?_, ?_, ?_, ?_, ?_⟩
  · have := h.cap
    unfold CapInv at this ⊢
    rw [hs.pending, hs.len]; exact this
  · rw [he]; exact h.nodup
  · rw [he, hs.futures]; exact h.pending
  · rw [he, hs.futures]; exact h.taken
  · rw [hs.futures]; exact h.unbound
  · rw [hs.futures]; exact h.finishing

theorem SlotInv.move {w : World} {pcs : List Pc} (h : SlotInv w pcs) {t : Nat} {pc : Pc}
    (hpc : pcs[t]? = some pc) (pc1 : Pc) (hc : pc1.completing = none)
    (hf : pc1.finishing = none ∨ pc1.finishing = pc.finishing ∨
      ∃ f fu, pc1.finishing = some f ∧ w.futures[f]? = some fu ∧ fu.fu_res.isSome = true) :
    SlotInv w (pcs.set t pc1) := by
  refine ⟨h.cap, h.nodup, h.pending, ?_, h.unbound, ?_⟩
  · intro u pcu f hu hcu
    rcases set_lookup hpc hu with ⟨_, rfl⟩ | ⟨_, hu0⟩
    · rw [hc] at hcu; cases hcu
    · exact h.taken u pcu f hu0 hcu
  · intro u pcu f hu hfu
    rcases set_lookup hpc hu with ⟨_, rfl⟩ | ⟨_, hu0⟩
    · rcases hf with hf | hf | ⟨f1, fu, hf1, hfu1, hres⟩
      · rw [hf] at hfu; cases hfu
      · rw [hf] at hfu; exact h.finishing t pc f hpc hfu
      · rw [hf1] at hfu
        cases hfu
        exact ⟨fu, hfu1, hres⟩
    · exact h.finishing u pcu f hu0 hfu

theorem recv_parse_slots {codec : Codec} {w w1 : World} {sock : Int} {nx : recv_next}
    (h : recv_parse codec w sock = .ok w1 nx) : SameSlots w w1 := by
  unfold recv_parse at h
  split at h
  · simp at h
  · split at h
    · have hg : (recv_grow w.n).nn_pending = w.n.nn_pending ∧
          (recv_grow w.n).nn_pending_len = w.n.nn_pending_len := by
        unfold recv_grow; split <;> exact ⟨rfl, rfl⟩
      split at h
      · simp at h
      · simp only [Outcome.ok.injEq] at h
        obtain ⟨rfl, _⟩ := h
        exact ⟨hg.1, hg.2, rfl⟩
      · simp at h
      · dsimp only at h
        split at h
        · simp only [Outcome.ok.injEq] at h
          obtain ⟨rfl, _⟩ := h
          exact ⟨hg.1, hg.2, rfl⟩
        · simp only [Outcome.ok.injEq] at h
          obtain ⟨rfl, _⟩ := h
          exact ⟨hg.1, hg.2, rfl⟩
    · simp at h
    · simp only [Outcome.ok.injEq] at h
      obtain ⟨rfl, _⟩ := h
      exact ⟨rfl, rfl, rfl⟩

theorem connect_slots {conn : Except String Int} {w w1 : World} {r : Option String}
    (h : hdfs_namenode_connect conn w = .ok w1 r) : SameSlots w w1 := by
  unfold hdfs_namenode_connect at h
  split at h
  · simp at h
  · split at h <;> (simp at h; obtain ⟨rfl, _⟩ := h; exact ⟨rfl, rfl, rfl⟩)

theorem authenticate_slots {codec : Codec} {username : String} {werr r : Option String}
    {w w1 : World} (h : hdfs_namenode_authenticate codec username werr w = .ok w1 r) :
    SameSlots w w1 := by
  unfold hdfs_namenode_authenticate at h
  split at h
  · simp at h
  · split at h
    · simp at h
    · simp at h
      obtain ⟨rfl, _⟩ := h
      exact ⟨rfl, rfl, rfl⟩

theorem invoke_send_slots {codec : Codec} {rpc : hdfs_object} {m : Int} {werr r : Option String}
    {w w1 : World} (h : invoke_send codec rpc m werr w = .ok w1 r) : SameSlots w w1 := by
  unfold invoke_send at h
  simp at h
  obtain ⟨rfl, _⟩ := h
  exact ⟨rfl, rfl, rfl⟩

theorem recv_enter_slots {w w1 : World} {g : Nat} {nnworked : Bool}
    (h : recv_enter w g = .ok w1 nnworked) : SameSlots w w1 := by
  obtain ⟨_, _, h1, h2⟩ := recv_enter_ok h
  cases nnworked with
  | true => rw [h1 rfl]; exact sameslots_refl w
  | false => rw [h2 rfl]; exact ⟨rfl, rfl, rfl⟩

theorem recv_exit_slots {w w1 : World} {g : Nat} {r b : Bool}
    (h : recv_exit w g r = .ok w1 b) : SameSlots w w1 := by
  obtain ⟨_, _, _, _, h5, h6, h7, _⟩ := recv_exit_ok h
  exact ⟨h6, h7, h5⟩

theorem decref_locked_slots {w w1 : World} {lastref : Bool}
    (h : decref_locked w = .ok w1 lastref) : SameSlots w w1 := by
  obtain ⟨_, rfl, _⟩ := decref_locked_ok h
  exact ⟨rfl, rfl, rfl⟩

theorem destroy_locked_slots {w w1 : World} {cb : Option Nat}
    (h : destroy_locked w cb = .ok w1 ()) : SameSlots w w1 := by
  obtain ⟨_, _, rfl⟩ := destroy_locked_ok h
  exact ⟨rfl, rfl, rfl⟩

theorem pending_remove_some {n n1 : hdfs_namenode} {m : Int} {f : Nat}
    (hcap : n.nn_pending_len ≤ n.nn_pending.length)
    (hd : (pending_entries n).Nodup)
    (h : _namenode_pending_remove n m = (n1, some f)) :
    ∃ e, e ∈ pending_entries n ∧ e.pd_future = f ∧ e.pd_msgno = m ∧
      (pending_entries n1).Perm ((pending_entries n).erase e) ∧
      n1.nn_pending.length = n.nn_pending.length ∧
      n1.nn_pending_len + 1 = n.nn_pending_len := by
  unfold _namenode_pending_remove at h
  cases hs : pending_scan n.nn_pending m n.nn_pending_len 0 with
  | none => rw [hs] at h; simp at h
  | some j =>
    rw [hs] at h
    simp only [Prod.mk.injEq, Option.some.injEq] at h
    obtain ⟨hn1, hf⟩ := h
    obtain ⟨_, hjlt, hjm⟩ := pending_scan_some hs
    simp only [Nat.zero_add] at hjlt
    have hjl : j < n.nn_pending.length := by omega
    have hjmem : n.nn_pending.getD j default ∈ pending_entries n := by
      rw [List.getD_eq_getElem _ _ hjl]
      unfold pending_entries
      rw [List.mem_take_iff_getElem]
      exact ⟨j, by simp; omega, rfl⟩
    obtain ⟨k, hk⟩ : ∃ k, n.nn_pending_len = k + 1 := ⟨n.nn_pending_len - 1, by omega⟩
    have hperm := swap_remove_perm default n.nn_pending k j (by omega) (by omega)
      (by
        unfold pending_entries at hd
        rw [hk] at hd
        exact hd)
    refine ⟨n.nn_pending.getD j default, hjmem, hf, hjm, ?_, ?_, ?_⟩
    · subst hn1
      unfold pending_entries
      simp only [hk, Nat.add_sub_cancel]
      exact hperm
    · subst hn1
      simp only
      split <;> simp
    · subst hn1
      simp only
      omega

theorem recv_remove_ok {w w1 : World} {m : Int} {f : Nat} (h : recv_remove w m = .ok w1 f) :
    ∃ n1, _namenode_pending_remove w.n m = (n1, some f) ∧ w1 = { w with n := n1 } := by
  unfold recv_remove at h
  split at h
  · rename_i n1 fut heq
    simp only [Outcome.ok.injEq] at h
    obtain ⟨rfl, rfl⟩ := h
    exact ⟨n1, heq, rfl⟩
  · simp at h

theorem recv_complete_ok {w w1 : World} {g f : Nat} {o : Option hdfs_object}
    (h : recv_complete w g f o = .ok w1 ()) :
    ∃ fu obj, o = some obj ∧ w.futures[f]? = some fu ∧ fu.fu_res = none ∧ w1.n = w.n ∧
      w1.futures = w.futures.set f { fu with fu_res := some obj } ∧
      w1.trace = w.trace ++ (if f = g then [] else [Event.notifyall f]) ∧
      w1.sock_in = w.sock_in := by
  unfold recv_complete _future_complete_unlocked _future_complete at h
  split at h <;>
  · rename_i hfg
    split at h
    · simp at h
    · rename_i obj
      split at h
      · simp at h
      · rename_i fu hfu
        split at h
        · simp at h
        · rename_i hres
          simp only [Outcome.ok.injEq, and_true] at h
          subst h
          refine ⟨fu, obj, rfl, hfu, ?_, rfl, rfl, ?_, rfl⟩
          · cases hr : fu.fu_res with
            | none => rfl
            | some x => rw [hr] at hres; simp at hres
          · simp [hfg]

theorem invoke_locked_pending {w w1 : World} {rpc : Option hdfs_object} {f : Nat} {m : Int}
    (h : invoke_locked w rpc f = .ok w1 (.inr m)) :
    ∃ n2 fu, n2.nn_pending = w.n.nn_pending ∧ n2.nn_pending_len = w.n.nn_pending_len ∧
      _namenode_pending_insert_unlocked n2 m f = some w1.n ∧
      w.futures[f]? = some fu ∧ fu.fu_namenode = false ∧
      w1.futures = w.futures.set f { fu with fu_namenode := true } := by
  unfold invoke_locked at h
  split at h
  · simp at h
  · rename_i fu hfu
    split at h
    · simp at h
    · rename_i hb
      split at h
      · simp at h
      · split at h
        · simp at h
        · split at h
          · simp at h
          · split at h
            · simp at h
            · split at h
              · simp at h
              · split at h
                · simp at h
                · dsimp only at h
                  split at h
                  · simp at h
                  · rename_i n2 hn2
                    split at h
                    · simp at h
                    · rename_i n3 hn3
                      simp only [Outcome.ok.injEq, Sum.inr.injEq] at h
                      obtain ⟨rfl, rfl⟩ := h
                      unfold _namenode_copyref_unlocked at hn2
                      split at hn2
                      · simp only [Option.some.injEq] at hn2
                        subst hn2
                        refine ⟨_, fu, ?_, ?_, hn3, hfu, by simpa using hb, rfl⟩ <;> rfl
                      · simp at hn2

theorem waiting_set_other {futures : List hdfs_rpc_response_future} {f g : Nat}
    (h : Waiting futures f) (hne : f ≠ g) (x : hdfs_rpc_response_future) :
    Waiting (futures.set g x) f := by
  obtain ⟨fu, h1, h2, h3⟩ := h
  exact ⟨fu, by rw [List.getElem?_set_ne (Ne.symm hne)]; exact h1, h2, h3⟩

theorem slotinv_new_future {w : World} {pcs : List Pc} (h : SlotInv w pcs) :
    SlotInv { w with futures := w.futures ++ [future_zero] } pcs := by
  have hw : ∀ f, Waiting w.futures f → Waiting (w.futures ++ [future_zero]) f := by
    intro f ⟨fu, h1, h2, h3⟩
    have hlt : f < w.futures.length := by
      rcases Nat.lt_or_ge f w.futures.length with h0 | h0
      · exact h0
      · rw [List.getElem?_eq_none h0] at h1; cases h1
    exact ⟨fu, by rw [List.getElem?_append_left hlt]; exact h1, h2, h3⟩
  refine ⟨h.cap, h.nodup, fun e he => hw _ (h.pending e he), ?_, ?_, ?_⟩
  · intro t pc f hpc hc
    exact ⟨hw _ (h.taken t pc f hpc hc).1, (h.taken t pc f hpc hc).2⟩
  · intro f fu hfu hb
    simp only at hfu
    rcases Nat.lt_or_ge f w.futures.length with h0 | h0
    · rw [List.getElem?_append_left h0] at hfu
      exact h.unbound f fu hfu hb
    · rw [List.getElem?_append_right h0] at hfu
      cases hi : f - w.futures.length with
      | zero =>
        rw [hi] at hfu
        simp only [List.getElem?_cons_zero, Option.some.injEq] at hfu
        subst hfu
        rfl
      | succ k => rw [hi] at hfu; simp at hfu
  · intro t pc f hpc hc
    obtain ⟨fu, h1, h2⟩ := h.finishing t pc f hpc hc
    have hlt : f < w.futures.length := by
      rcases Nat.lt_or_ge f w.futures.length with h0 | h0
      · exact h0
      · rw [List.getElem?_eq_none h0] at h1; cases h1
    exact ⟨fu, by simp only; rw [List.getElem?_append_left hlt]; exact h1, h2⟩

theorem slotinv_invoke {w w1 : World} {pcs : List Pc} {rpc : Option hdfs_object} {f : Nat}
    {m : Int} (h : SlotInv w pcs) (hc : invoke_locked w rpc f = .ok w1 (.inr m)) :
    SlotInv w1 pcs := by
  obtain ⟨n2, fu, hp, hl, hins, hfu, hb, hfut⟩ := invoke_locked_pending hc
  have hcap2 : CapInv n2 := by
    have := h.cap
    unfold CapInv at this ⊢
    rw [hp, hl]; exact this
  obtain ⟨n3, h3, hcap3, _, _, _, _, _, hent⟩ := capinv_insert hcap2 m f
  rw [hins] at h3
  simp only [Option.some.injEq] at h3
  subst h3
  have he2 : pending_entries n2 = pending_entries w.n := by
    unfold pending_entries; rw [hp, hl]
  rw [he2] at hent
  have hnotin : ∀ e ∈ pending_entries w.n, e.pd_future ≠ f := by
    intro e he heq
    obtain ⟨fu1, h1, h2, _⟩ := h.pending e he
    rw [heq, hfu] at h1
    cases h1
    rw [hb] at h2; cases h2
  have hres : fu.fu_res = none := h.unbound f fu hfu hb
  have hnew : Waiting w1.futures f := by
    refine ⟨{ fu with fu_namenode := true }, ?_, rfl, hres⟩
    rw [hfut, get_set hfu]; simp
  refine ⟨hcap3, ?_, ?_, ?_, ?_, ?_⟩
  · rw [hent, List.map_append, List.nodup_append]
    refine ⟨h.nodup, by simp, ?_⟩
    intro x hx hx1
    simp only [List.map_cons, List.map_nil, List.mem_singleton] at hx1
    subst hx1
    obtain ⟨e, he, heq⟩ := List.mem_map.mp hx
    exact hnotin e he heq
  · intro e he
    rw [hent, List.mem_append] at he
    rcases he with he | he
    · rw [hfut]
      exact waiting_set_other (h.pending e he) (hnotin e he) _
    · simp only [List.mem_singleton] at he
      subst he
      exact hnew
  · intro t pc f1 hpc hcm
    obtain ⟨hw1, hno⟩ := h.taken t pc f1 hpc hcm
    have hne : f1 ≠ f := by
      intro heq
      obtain ⟨fu1, h1, h2, _⟩ := hw1
      rw [heq, hfu] at h1
      cases h1
      rw [hb] at h2; cases h2
    refine ⟨by rw [hfut]; exact waiting_set_other hw1 hne _, ?_⟩
    intro e he
    rw [hent, List.mem_append] at he
    rcases he with he | he
    · exact hno e he
    · simp only [List.mem_singleton] at he
      subst he
      exact fun heq => hne heq.symm
  · intro g fu1 hg hb1
    rw [hfut, get_set hfu] at hg
    split at hg
    · simp only [Option.some.injEq] at hg
      subst hg
      cases hb1
    · exact h.unbound g fu1 hg hb1
  · intro t pc f1 hpc hfin
    obtain ⟨fu1, h1, h2⟩ := h.finishing t pc f1 hpc hfin
    by_cases hne : f1 = f
    · subst hne
      rw [hfu] at h1
      cases h1
      exact ⟨{ fu with fu_namenode := true }, by rw [hfut, get_set hfu]; simp, h2⟩
    · exact ⟨fu1, by rw [hfut, List.getElem?_set_ne (Ne.symm hne)]; exact h1, h2⟩

theorem slotinv_remove {w w1 : World} {pcs : List Pc} {m : Int} {f g t : Nat}
    {o : Option hdfs_object} (h : SlotInv w pcs) (hc : recv_remove w m = .ok w1 f)
    (hpc : pcs[t]? = some (.recv_remove g m o))
    (hsole : ∀ (u : Nat) (pcu : Pc) (f1 : Nat), pcs[u]? = some pcu →
      pcu.completing = some f1 → u = t) :
    SlotInv w1 (pcs.set t (.recv_complete g f o)) := by
  obtain ⟨n1, hrm, rfl⟩ := recv_remove_ok hc
  have hcap := h.cap
  have hle : w.n.nn_pending_len ≤ w.n.nn_pending.length := by unfold CapInv at hcap; omega
  have hnd : (pending_entries w.n).Nodup := List.Nodup.of_map _ h.nodup
  obtain ⟨e0, he0, hf0, _, hperm, hlen, hl1⟩ := pending_remove_some hle hnd hrm
  have hsub : ∀ e, e ∈ pending_entries n1 → e ∈ pending_entries w.n ∧ e ≠ e0 := by
    intro e he
    have := hperm.mem_iff.mp he
    rw [hnd.mem_erase_iff] at this
    exact ⟨this.2, this.1⟩
  have hinj : ∀ e, e ∈ pending_entries w.n → e ≠ e0 → e.pd_future ≠ f := by
    intro e he hne heq
    exact hne (List.inj_on_of_nodup_map h.nodup he he0 (by rw [heq, hf0]))
  refine ⟨?_, ?_, ?_, ?_, h.unbound, ?_⟩
  · have := capinv_remove hcap m
    rw [hrm] at this
    exact this
  · exact (hperm.map _).nodup_iff.mpr
      (List.Nodup.sublist ((List.erase_sublist _ _).map _) h.nodup)
  · intro e he
    exact h.pending e (hsub e he).1
  · intro u pcu f1 hu hcu
    rcases set_lookup hpc hu with ⟨_, rfl⟩ | ⟨hne, hu0⟩
    · simp only [Pc.completing, Option.some.injEq] at hcu
      subst hcu
      refine ⟨by rw [← hf0]; exact h.pending e0 he0, ?_⟩
      intro e he
      exact hinj e (hsub e he).1 (hsub e he).2
    · exact absurd (hsole u pcu f1 hu0 hcu) hne
  · intro u pcu f1 hu hfu
    rcases set_lookup hpc hu with ⟨_, rfl⟩ | ⟨_, hu0⟩
    · cases hfu
    · exact h.finishing u pcu f1 hu0 hfu

theorem slotinv_complete {w w1 : World} {pcs : List Pc} {f g t : Nat}
    {o : Option hdfs_object} (h : SlotInv w pcs) (hc : recv_complete w g f o = .ok w1 ())
    (hpc : pcs[t]? = some (.recv_complete g f o))
    (hsole : ∀ (u : Nat) (pcu : Pc) (f1 : Nat), pcs[u]? = some pcu →
      pcu.completing = some f1 → u = t)
    (pc1 : Pc) (hc1 : pc1.completing = none) (hf1 : pc1.finishing = none) :
    SlotInv w1 (pcs.set t pc1) := by
  obtain ⟨fu, obj, _, hfu, _, hn, hfut, _, _⟩ := recv_complete_ok hc
  obtain ⟨⟨fu0, hfu0, hb0, _⟩, hno⟩ := h.taken t _ f hpc rfl
  rw [hfu] at hfu0
  cases hfu0
  have he : pending_entries w1.n = pending_entries w.n := by rw [hn]
  refine ⟨?_, ?_, ?_, ?_, ?_, ?_⟩
  · rw [hn]; exact h.cap
  · rw [he]; exact h.nodup
  · intro e hemem
    rw [he] at hemem
    rw [hfut]
    exact waiting_set_other (h.pending e hemem) (hno e hemem) _
  · intro u pcu f1 hu hcu
    rcases set_lookup hpc hu with ⟨_, rfl⟩ | ⟨hne, hu0⟩
    · rw [hc1] at hcu; cases hcu
    · exact absurd (hsole u pcu f1 hu0 hcu) hne
  · intro k fu1 hk hb1
    rw [hfut, get_set hfu] at hk
    split at hk
    · simp only [Option.some.injEq] at hk
      subst hk
      rw [hb0] at hb1; cases hb1
    · exact h.unbound k fu1 hk hb1
  · intro u pcu f1 hu hfin
    rcases set_lookup hpc hu with ⟨_, rfl⟩ | ⟨_, hu0⟩
    · rw [hf1] at hfin; cases hfin
    · obtain ⟨fu1, h1, h2⟩ := h.finishing u pcu f1 hu0 hfin
      by_cases hne : f1 = f
      · subst hne
        exact ⟨{ fu with fu_res := some obj }, by rw [hfut, get_set hfu]; simp, rfl⟩
      · exact ⟨fu1, by rw [hfut, List.getElem?_set_ne (Ne.symm hne)]; exact h1, h2⟩

theorem slotinv_teardown {w : World} {pcs : List Pc} (h : SlotInv w pcs) :
    SlotInv (decref_teardown w) pcs := by
  refine ⟨by unfold CapInv; simp [decref_teardown, namenode_zero], List.nodup_nil, ?_, ?_,
    h.unbound, h.finishing⟩
  · intro e he
    simp [decref_teardown, pending_entries, namenode_zero] at he
  · intro t pc f hpc hc
    refine ⟨(h.taken t pc f hpc hc).1, ?_⟩
    intro e he
    simp [decref_teardown, pending_entries, namenode_zero] at he

theorem slotinv_memset {w : World} {pcs : List Pc} {f t : Nat} (h : SlotInv w pcs)
    (hpc : pcs[t]? = some (.get_memset f))
    (hsole : ∀ (u : Nat) (pcu : Pc), pcs[u]? = some pcu → pcu.finishing = some f → u = t) :
    SlotInv { w with futures := w.futures.set f future_zero } (pcs.set t .idle) := by
  obtain ⟨fu, hfu, hres⟩ := h.finishing t _ f hpc rfl
  have hnw : ∀ g, Waiting w.futures g → g ≠ f := by
    intro g ⟨fu1, h1, _, h3⟩ heq
    rw [heq, hfu] at h1
    cases h1
    rw [h3] at hres; cases hres
  refine ⟨h.cap, h.nodup, ?_, ?_, ?_, ?_⟩
  · intro e he
    exact waiting_set_other (h.pending e he) (hnw _ (h.pending e he)) _
  · intro u pcu f1 hu hcu
    rcases set_lookup hpc hu with ⟨_, rfl⟩ | ⟨_, hu0⟩
    · cases hcu
    · obtain ⟨h1, h2⟩ := h.taken u pcu f1 hu0 hcu
      exact ⟨waiting_set_other h1 (hnw _ h1) _, h2⟩
  · intro k fu1 hk hb1
    simp only at hk
    rw [get_set hfu] at hk
    split at hk
    · simp only [Option.some.injEq] at hk
      subst hk
      rfl
    · exact h.unbound k fu1 hk hb1
  · intro u pcu f1 hu hfin
    rcases set_lookup hpc hu with ⟨_, rfl⟩ | ⟨hne, hu0⟩
    · cases hfin
    · obtain ⟨fu1, h1, h2⟩ := h.finishing u pcu f1 hu0 hfin
      have hne1 : f1 ≠ f := by
        intro heq
        subst heq
        exact hne (hsole u pcu hu0 hfin)
      exact ⟨fu1, by simp only; rw [List.getElem?_set_ne (Ne.symm hne1)]; exact h1, h2⟩

theorem step_slotinv {codec : Codec} {s s1 : Threads} {t : Nat} {mv : Move} {l : Option Int}
    (ha : AInv s.abs) (hi : SlotInv s.w s.pcs)
    (h : step codec s t mv = some (s1, l)) : SlotInv s1.w s1.pcs := by
  have hsole : ∀ pc g, s.pcs[t]? = some pc → pc.cat = .inside g →
      ∀ (u : Nat) (pcu : Pc) (f1 : Nat), s.pcs[u]? = some pcu →
        pcu.completing = some f1 → u = t := by
    intro pc g hpc hin u pcu f1 hu hcu
    have h1 := abs_cat hu
    have h2 := abs_cat hpc
    rw [hin] at h2
    cases pcu <;> simp only [Pc.completing] at hcu <;> try cases hcu
    exact ha.excl u t _ _ h1 h2
  have hown : ∀ f, s.pcs[t]? = some (.get_memset f) →
      ∀ (u : Nat) (pcu : Pc), s.pcs[u]? = some pcu → pcu.finishing = some f → u = t := by
    intro f hpc u pcu hu hfu
    have hslot : pcu.cat.slot = some f := by
      cases pcu <;> simp only [Pc.finishing, Option.some.injEq] at hfu <;> try cases hfu
      all_goals rfl
    exact ha.own u t _ _ f (abs_cat hu) (abs_cat hpc) hslot rfl
  unfold step at h
  split at h
  · -- new_future
    simp only [Option.some.injEq, Prod.mk.injEq] at h
    obtain ⟨rfl, rfl⟩ := h
    exact slotinv_new_future hi
  · -- connect
    split at h
    · rename_i w1 r hc
      simp only [Option.some.injEq, Prod.mk.injEq] at h
      obtain ⟨rfl, rfl⟩ := h
      exact hi.world (connect_slots hc)
    · simp at h
  · -- authenticate
    split at h
    · rename_i w1 r hc
      simp only [Option.some.injEq, Prod.mk.injEq] at h
      obtain ⟨rfl, rfl⟩ := h
      exact hi.world (authenticate_slots hc)
    · simp at h
  · -- invoke
    rename_i rpc future hpc
    split at h
    · rename_i w1 err hc
      simp only [Option.some.injEq, Prod.mk.injEq] at h
      obtain ⟨rfl, rfl⟩ := h
      rcases invoke_locked_ok hc with ⟨_, _, rfl⟩ | ⟨_, hr, _⟩
      · exact hi
      · cases hr
    · rename_i w1 msgno r hc
      simp only [Option.some.injEq, Prod.mk.injEq] at h
      obtain ⟨rfl, rfl⟩ := h
      exact (slotinv_invoke hi hc).move hpc _ rfl (Or.inl rfl)
    · simp at h
  · -- future_get
    rename_i future hpc
    split at h
    · simp only [Option.some.injEq, Prod.mk.injEq] at h
      obtain ⟨rfl, rfl⟩ := h
      exact hi.move hpc _ rfl (Or.inl rfl)
    · simp at h
  · -- destroy
    rename_i cb hpc
    split at h
    · rename_i w1 u hc
      simp only [Option.some.injEq, Prod.mk.injEq] at h
      obtain ⟨rfl, rfl⟩ := h
      exact (hi.world (destroy_locked_slots hc)).move hpc _ rfl (Or.inl rfl)
    · simp at h
  · -- invoke_send
    rename_i rpc msgno werr hpc
    split at h
    · rename_i w1 r hc
      simp only [Option.some.injEq, Prod.mk.injEq] at h
      obtain ⟨rfl, rfl⟩ := h
      exact (hi.world (invoke_send_slots hc)).move hpc _ rfl (Or.inl rfl)
    · simp at h
  · -- get_loop
    rename_i future werr hpc
    split at h
    · simp at h
    · rename_i fu hfu
      simp only [Option.some.injEq, Prod.mk.injEq] at h
      obtain ⟨rfl, rfl⟩ := h
      by_cases hres : fu.fu_res.isSome = true
      · simp only [hres, if_true]
        exact hi.move hpc _ rfl (Or.inr (Or.inr ⟨future, fu, rfl, hfu, hres⟩))
      · simp only [hres, if_false]
        exact hi.move hpc _ rfl (Or.inl rfl)
  · -- get_wait
    rename_i future werr hpc
    simp only [Option.some.injEq, Prod.mk.injEq] at h
    obtain ⟨rfl, rfl⟩ := h
    exact hi.move hpc _ rfl (Or.inl rfl)
  · -- recv_enter
    rename_i g werr hpc
    split at h
    · rename_i w1 nnworked hc
      simp only [Option.some.injEq, Prod.mk.injEq] at h
      obtain ⟨rfl, rfl⟩ := h
      exact (hi.world (recv_enter_slots hc)).move hpc _ (by split <;> rfl)
        (Or.inl (by split <;> rfl))
    · simp at h
  · -- recv_head
    rename_i g werr hpc
    split at h
    · split at h
      · rename_i w1 b hc
        simp only [Option.some.injEq, Prod.mk.injEq] at h
        obtain ⟨rfl, rfl⟩ := h
        exact (hi.world (recv_exit_slots hc)).move hpc _ rfl (Or.inl rfl)
      · simp at h
    · simp only [Option.some.injEq, Prod.mk.injEq] at h
      obtain ⟨rfl, rfl⟩ := h
      exact hi.move hpc _ rfl (Or.inl rfl)
  · -- recv_parse
    rename_i g sock werr hpc
    split at h
    · rename_i w1 hc
      simp only [Option.some.injEq, Prod.mk.injEq] at h
      obtain ⟨rfl, rfl⟩ := h
      exact (hi.world (recv_parse_slots hc)).move hpc _ rfl (Or.inl rfl)
    · rename_i w1 hc
      simp only [Option.some.injEq, Prod.mk.injEq] at h
      obtain ⟨rfl, rfl⟩ := h
      exact (hi.world (recv_parse_slots hc)).move hpc _ rfl (Or.inl rfl)
    · rename_i w1 m o hc
      simp only [Option.some.injEq, Prod.mk.injEq] at h
      obtain ⟨rfl, rfl⟩ := h
      exact (hi.world (recv_parse_slots hc)).move hpc _ rfl (Or.inl rfl)
    · simp at h
  · -- recv_remove
    rename_i g m o werr hpc
    split at h
    · rename_i w1 future hc
      simp only [Option.some.injEq, Prod.mk.injEq] at h
      obtain ⟨rfl, rfl⟩ := h
      exact slotinv_remove hi hc hpc (hsole _ g hpc rfl)
    · simp at h
  · -- recv_complete
    rename_i g future o werr hpc
    split at h
    · rename_i w1 u hc
      simp only [Option.some.injEq, Prod.mk.injEq] at h
      obtain ⟨rfl, rfl⟩ := h
      exact slotinv_complete hi hc hpc (hsole _ g hpc rfl) _ (by split <;> rfl)
        (by split <;> rfl)
    · simp at h
  · -- recv_exit
    rename_i g werr hpc
    split at h
    · rename_i w1 b hc
      split at h
      · rename_i fu hfu
        split at h
        · rename_i hres
          simp only [Option.some.injEq, Prod.mk.injEq] at h
          obtain ⟨rfl, rfl⟩ := h
          exact (hi.world (recv_exit_slots hc)).move hpc _ rfl
            (Or.inr (Or.inr ⟨g, fu, rfl, hfu, hres⟩))
        · simp at h
      · simp at h
    · simp at h
  · -- get_finish
    rename_i future werr hpc
    split at h
    · simp at h
    · rename_i fu hfu
      split at h
      · split at h
        · rename_i w1 lastref hc
          simp only [Option.some.injEq, Prod.mk.injEq] at h
          obtain ⟨rfl, rfl⟩ := h
          exact (hi.world (decref_locked_slots hc)).move hpc _ (by split <;> rfl)
            (Or.inr (Or.inl (by split <;> rfl)))
        · simp at h
      · simp at h
  · -- get_teardown
    rename_i future werr hpc
    simp only [Option.some.injEq, Prod.mk.injEq] at h
    obtain ⟨rfl, rfl⟩ := h
    exact (slotinv_teardown hi).move hpc _ rfl (Or.inr (Or.inl rfl))
  · -- get_memset
    rename_i future werr hpc
    simp only [Option.some.injEq, Prod.mk.injEq] at h
    obtain ⟨rfl, rfl⟩ := h
    exact slotinv_memset hi hpc (hown future hpc)
  · -- destroy_decref
    rename_i werr hpc
    split at h
    · rename_i w1 lastref hc
      simp only [Option.some.injEq, Prod.mk.injEq] at h
      obtain ⟨rfl, rfl⟩ := h
      exact (hi.world (decref_locked_slots hc)).move hpc _ (by split <;> rfl)
        (Or.inl (by split <;> rfl))
    · simp at h
  · -- destroy_teardown
    rename_i werr hpc
    simp only [Option.some.injEq, Prod.mk.injEq] at h
    obtain ⟨rfl, rfl⟩ := h
    exact (slotinv_teardown hi).move hpc _ rfl (Or.inl rfl)
  · simp at h

theorem slotinv_init (nthreads nslots : Nat) (sock_in : List ReadResult) :
    SlotInv (Threads.init nthreads nslots sock_in).w (Threads.init nthreads nslots sock_in).pcs := by
  have hz : ∀ (f : Nat) (fu : hdfs_rpc_response_future),
      (List.replicate nslots future_zero)[f]? = some fu → fu = future_zero := by
    intro f fu h
    have := List.mem_iff_getElem?.mpr ⟨f, h⟩
    exact (List.mem_replicate.mp this).2
  have hp : ∀ (t : Nat) (pc : Pc), (List.replicate nthreads Pc.idle)[t]? = some pc → pc = .idle := by
    intro t pc h
    have := List.mem_iff_getElem?.mpr ⟨t, h⟩
    exact (List.mem_replicate.mp this).2
  refine ⟨by unfold CapInv; simp [Threads.init, World.init, hdfs_namenode_init],
    List.nodup_nil, ?_, ?_, ?_, ?_⟩
  · intro e he
    simp [Threads.init, World.init, pending_entries, hdfs_namenode_init] at he
  · intro t pc f hpc hc
    rw [hp t pc hpc] at hc
    cases hc
  · intro f fu hfu _
    rw [hz f fu hfu]
    rfl
  · intro t pc f hpc hc
    rw [hp t pc hpc] at hc
    cases hc

theorem run_slotinv {codec : Codec} (sched : List (Nat × Move)) :
    ∀ {s s1 : Threads} {issued issued1 : List Int}, AInv s.abs → SlotInv s.w s.pcs →
      run codec sched s issued = some (s1, issued1) → AInv s1.abs ∧ SlotInv s1.w s1.pcs := by
  induction sched with
  | nil =>
    intro s s1 issued issued1 ha hi h
    simp only [run, Option.some.injEq, Prod.mk.injEq] at h
    obtain ⟨rfl, rfl⟩ := h
    exact ⟨ha, hi⟩
  | cons x rest ih =>
    intro s s1 issued issued1 ha hi h
    obtain ⟨t, mv⟩ := x
    simp only [run] at h
    split at h
    · rename_i s2 l hstep
      exact ih (astep_inv (step_sim hstep) ha) (step_slotinv ha hi hstep) h
    · simp at h

/-- C11: in every state reached from a freshly initialised session with
zero-initialised slots along any schedule of any number of threads, whatever
bytes arrive and whatever records the probe parses out of them (message
numbers repeated or not), a thread that stands before lines 342-345 with a
slot taken out of the pending table finds that slot bound and empty, so the
`assert(!fu_res)` of `_future_complete` and `_future_complete_unlocked` holds;
the slot is in the pending table no more and no other thread is about to
complete a slot, so nothing completes it a second time. With an object to
store the completion goes through, leaves the object in the slot, and
broadcasts the condition of the slot exactly once when the slot is not the
goal and not at all when it is. -/
theorem complete_once (codec : Codec) (nthreads nslots : Nat) (sock_in : List ReadResult)
    (sched : List (Nat × Move)) (s : Threads) (issued : List Int)
    (hrun : run codec sched (Threads.init nthreads nslots sock_in) [] = some (s, issued))
    (t goal future : Nat) (rs_obj : Option hdfs_object)
    (hpc : s.pcs[t]? = some (.recv_complete goal future rs_obj)) :
    (∃ fu, s.w.futures[future]? = some fu ∧ fu.fu_namenode = true ∧ fu.fu_res = none) ∧
    (recv_complete s.w goal future rs_obj).fault ≠ some .assert_no_res ∧
    (_future_complete s.w future rs_obj).fault ≠ some .assert_no_res ∧
    (_future_complete_unlocked s.w future rs_obj).fault ≠ some .assert_no_res ∧
    (∀ e ∈ pending_entries s.w.n, e.pd_future ≠ future) ∧
    (∀ (u : Nat) (pcu : Pc) (f : Nat), s.pcs[u]? = some pcu → pcu.completing = some f → u = t) ∧
    (∀ obj, rs_obj = some obj →
      ∃ w1, recv_complete s.w goal future rs_obj = .ok w1 () ∧
        w1.futures[future]? = some ⟨true, some obj⟩ ∧
        w1.trace = s.w.trace ++ (if future = goal then [] else [Event.notifyall future]) ∧
        step codec s t (.next none)
          = some ({ s with
              w := w1
              pcs := s.pcs.set t (if future = goal then .recv_exit goal
                                  else .recv_head goal) }, none)) := by
  obtain ⟨ha, hi⟩ := run_slotinv sched (ainv_init nthreads nslots sock_in)
    (slotinv_init nthreads nslots sock_in) hrun
  obtain ⟨⟨fu, hfu, hb, hres⟩, hno⟩ := hi.taken t _ future hpc rfl
  have hlt : future < s.w.futures.length := by
    rcases Nat.lt_or_ge future s.w.futures.length with h0 | h0
    · exact h0
    · rw [List.getElem?_eq_none h0] at hfu; cases hfu
  refine ⟨⟨fu, hfu, hb, hres⟩, ?_, ?_, ?_, hno, ?_, ?_⟩
  · unfold recv_complete _future_complete_unlocked _future_complete
    rcases eq_or_ne future goal with rfl | hg
    · cases rs_obj <;> simp [hfu, hres, Outcome.fault]
    · cases rs_obj <;> simp [hg, hfu, hres, Outcome.fault]
  · unfold _future_complete
    cases rs_obj <;> simp [hfu, hres, Outcome.fault]
  · unfold _future_complete_unlocked
    cases rs_obj <;> simp [hfu, hres, Outcome.fault]
  · intro u pcu f hu hcu
    have h1 := abs_cat hu
    have h2 := abs_cat hpc
    cases pcu <;> simp only [Pc.completing] at hcu <;> try cases hcu
    exact ha.excl u t _ _ h1 h2
  · intro obj ho
    subst ho
    have hfb : fu = ⟨true, none⟩ := by
      cases fu
      simp only at hb hres
      subst hb; subst hres
      rfl
    subst hfb
    by_cases hg : future = goal
    · subst hg
      have hc : recv_complete s.w future future (some obj)
          = .ok { s.w with futures := s.w.futures.set future ⟨true, some obj⟩ } () := by
        simp [recv_complete, _future_complete_unlocked, hfu]
      refine ⟨_, hc, ?_, ?_, ?_⟩
      · simp [hlt]
      · simp
      · simp only [step, hpc, hc]
    · have hc : recv_complete s.w goal future (some obj)
          = .ok { s.w with
              futures := s.w.futures.set future ⟨true, some obj⟩
              trace := s.w.trace ++ [Event.notifyall future] } () := by
        simp [recv_complete, hg, _future_complete, hfu]
      refine ⟨_, hc, ?_, ?_, ?_⟩
      · simp [hlt]
      · simp [hg]
      · simp only [step, hpc, hc]

/-- Witness of C11: after `until_complete`, with the response to message number
1 on the wire, thread 0 is about to complete slot 1 on behalf of thread 1;
slot 1 is bound and empty and gone from the pending table. -/
theorem complete_once_witness :
    (((Threads.init 2 2 [.data [1, 3, 0, 42]]).after until_complete).pcs.map Pc.completing
      = [some 1, none]) ∧
    pending_entries ((Threads.init 2 2 [.data [1, 3, 0, 42]]).after until_complete).w.n
      = [⟨0, 0⟩] ∧
    (∃ fu, ((Threads.init 2 2 [.data [1, 3, 0, 42]]).after until_complete).w.futures[1]?
      = some fu ∧ fu.fu_namenode = true ∧ fu.fu_res = none) :=
  ⟨by decide, by decide,
   (complete_once stub_codec 2 2 [.data [1, 3, 0, 42]] until_complete
      ((Threads.init 2 2 [.data [1, 3, 0, 42]]).after until_complete)
      ((Threads.init 2 2 [.data [1, 3, 0, 42]]).issued until_complete) rfl
      0 0 1 _ rfl).1⟩

theorem length_realloc {α : Type} (fill : α) (block : List α) (k : Nat) :
    (realloc fill block k).length = k := by
  unfold realloc
  simp only [List.length_append, List.length_take, List.length_replicate]
  omega

theorem take_realloc {α : Type} (fill : α) (block : List α) (k u : Nat)
    (hu : u ≤ block.length) (hk : block.length ≤ k) :
    (realloc fill block k).take u = block.take u := by
  unfold realloc
  rw [List.take_of_length_le hk, List.take_append_of_le_length hu]

theorem take_memcpy (buf : List Nat) (u : Nat) (bytes : List Nat)
    (h : u + bytes.length ≤ buf.length) :
    (memcpy buf u bytes).take (u + bytes.length) = buf.take u ++ bytes := by
  unfold memcpy
  have h1 : (buf.take u).length = u := by simp; omega
  rw [List.take_append_eq_append_take, h1, List.take_of_length_le (by omega)]
  simp

theorem length_memcpy (buf : List Nat) (u : Nat) (bytes : List Nat)
    (h : u + bytes.length ≤ buf.length) : (memcpy buf u bytes).length = buf.length := by
  unfold memcpy
  simp only [List.length_append, List.length_take, List.length_drop]
  omega

theorem holds_le {n : hdfs_namenode} {c : List Nat} (h : Holds n c) :
    c.length ≤ n.nn_recvbuf.length := by
  have := congrArg List.length h.2.1
  simp only [List.length_take] at this
  omega

theorem grow_rebuf (n : hdfs_namenode) :
    ∃ B S, recv_grow n = n.rebuf B n.nn_recvbuf_used S ∧ n.nn_recvbuf_size ≤ S ∧
      (recv_grow n).nn_recvbuf_size = S ∧
      (∀ c, Holds n c → B.take c.length = c ∧ S = B.length) := by
  unfold recv_grow
  split
  · refine ⟨_, _, rfl, by omega, rfl, ?_⟩
    intro c hc
    have hle := holds_le hc
    rw [length_realloc, hc.2.2, take_realloc _ _ _ _ hle (by omega)]
    exact ⟨hc.2.1, rfl⟩
  · refine ⟨n.nn_recvbuf, n.nn_recvbuf_size, rfl, le_refl _, rfl, ?_⟩
    intro c hc
    exact ⟨hc.2.1, hc.2.2⟩

theorem recv_parse_read {codec : Codec} {w : World} {sock : Int} {c bytes : List Nat}
    {rest : List ReadResult} (hsock : sock ≠ -1) (hc : Holds w.n c)
    (hinc : codec._hdfs_result_deserialize c = .incomplete)
    (hin : w.sock_in = .data bytes :: rest) (hne : bytes ≠ [])
    (hfit : c.length + bytes.length ≤ (recv_grow w.n).nn_recvbuf_size) :
    ∃ B, recv_parse codec w sock
        = .ok { w with
            n := w.n.rebuf B (c.length + bytes.length) (recv_grow w.n).nn_recvbuf_size
            sock_in := rest } .again ∧
      Holds (w.n.rebuf B (c.length + bytes.length) (recv_grow w.n).nn_recvbuf_size)
        (c ++ bytes) := by
  obtain ⟨B, S, hg, _, hS, hB⟩ := grow_rebuf w.n
  obtain ⟨hB1, hB2⟩ := hB c hc
  have hlen : 0 < bytes.length := List.length_pos.mpr hne
  rw [hS] at hfit
  refine ⟨memcpy B c.length bytes, ?_, ?_⟩
  · unfold recv_parse
    simp only [hsock, if_false]
    rw [hc.1, hc.2.1, hinc]
    simp only [hin, hg, hS, hdfs_namenode.rebuf]
    have ht : ((S : Int) - (w.n.nn_recvbuf_used : Int)).toNat = S - c.length := by
      rw [hc.1]; omega
    rw [ht]
    have h1 : List.take (S - c.length) bytes = bytes := List.take_of_length_le (by omega)
    have h2 : List.drop (S - c.length) bytes = [] := List.drop_of_length_le (by omega)
    simp only [h1, h2, if_true]
    have h3 : ¬ bytes.length = 0 := by omega
    simp only [h3, if_false, hc.1]
  · refine ⟨by simp [hdfs_namenode.rebuf], ?_, ?_⟩
    · show (memcpy B c.length bytes).take (c ++ bytes).length = c ++ bytes
      rw [List.length_append, take_memcpy _ _ _ (by omega), hB1]
    · show (recv_grow w.n).nn_recvbuf_size = (memcpy B c.length bytes).length
      rw [hS, length_memcpy _ _ _ (by omega)]
      exact hB2

theorem advance_take (n : hdfs_namenode) (s : Nat)
    (hs : s ≤ n.nn_recvbuf_used) (hu : n.nn_recvbuf_used ≤ n.nn_recvbuf.length) :
    (recv_advance n s).nn_recvbuf.take (n.nn_recvbuf_used - s)
      = (n.nn_recvbuf.take n.nn_recvbuf_used).drop s ∧
    (recv_advance n s).nn_recvbuf.length = n.nn_recvbuf.length := by
  unfold recv_advance memmove
  simp only
  split
  · simp only [List.take_zero, List.nil_append, Nat.zero_add, List.length_append,
      List.length_take, List.length_drop]
    refine ⟨?_, by omega⟩
    rw [List.take_append_of_le_length (by simp; omega), List.drop_take]
    simp
  · rename_i h0
    have : n.nn_recvbuf_used - s = 0 := by simpa using h0
    refine ⟨?_, rfl⟩
    rw [this, List.take_zero]
    symm
    apply List.drop_of_length_le
    simp only [List.length_take]
    omega

theorem recv_parse_got {codec : Codec} {w : World} {sock : Int} {c : List Nat} {m : Int}
    {o : Option hdfs_object} {size : Nat} (hsock : sock ≠ -1) (hc : Holds w.n c)
    (hres : codec._hdfs_result_deserialize c = .result m o size) (hsize : size ≤ c.length) :
    ∃ B, recv_parse codec w sock
        = .ok { w with n := w.n.rebuf B (c.length - size) w.n.nn_recvbuf_size } (.got m o) ∧
      Holds (w.n.rebuf B (c.length - size) w.n.nn_recvbuf_size) (c.drop size) := by
  have hle := holds_le hc
  obtain ⟨h1, h2⟩ := advance_take w.n size (by rw [hc.1]; exact hsize) (by rw [hc.1]; exact hle)
  refine ⟨(recv_advance w.n size).nn_recvbuf, ?_, ?_⟩
  · unfold recv_parse
    simp only [hsock, if_false]
    rw [hc.1, hc.2.1, hres]
    simp only [Outcome.ok.injEq, and_true]
    have : recv_advance w.n size
        = w.n.rebuf (recv_advance w.n size).nn_recvbuf (c.length - size) w.n.nn_recvbuf_size := by
      unfold recv_advance hdfs_namenode.rebuf
      simp only [hc.1]
    rw [← this]
  · refine ⟨by simp [hdfs_namenode.rebuf], ?_, ?_⟩
    · show (recv_advance w.n size).nn_recvbuf.take (c.drop size).length = c.drop size
      rw [List.length_drop, ← hc.1, h1, hc.1, hc.2.1]
    · show w.n.nn_recvbuf_size = (recv_advance w.n size).nn_recvbuf.length
      rw [h2]; exact hc.2.2

theorem remove_rebuf (n : hdfs_namenode) (m : Int) (B : List Nat) (U S : Nat) :
    _namenode_pending_remove (n.rebuf B U S) m
      = ((_namenode_pending_remove n m).1.rebuf B U S, (_namenode_pending_remove n m).2) := by
  unfold _namenode_pending_remove
  show (match pending_scan n.nn_pending m n.nn_pending_len 0 with
    | none => _
    | some i => _) = _
  cases pending_scan n.nn_pending m n.nn_pending_len 0 <;> rfl

theorem loop_read {codec : Codec} {w : World} (goal : Nat) {c bytes : List Nat}
    {rest : List ReadResult} (hsock : w.n.nn_sock ≠ -1) (hdead : w.n.nn_dead = false)
    (hrefs : w.n.nn_refs ≠ 1) (hc : Holds w.n c)
    (hinc : codec._hdfs_result_deserialize c = .incomplete)
    (hin : w.sock_in = .data bytes :: rest) (hne : bytes ≠ [])
    (hfit : c.length + bytes.length ≤ (recv_grow w.n).nn_recvbuf_size) :
    ∃ B, Holds (w.n.rebuf B (c.length + bytes.length) (recv_grow w.n).nn_recvbuf_size)
        (c ++ bytes) ∧
      ∀ k, recv_loop codec goal (k + 1) w
        = recv_loop codec goal k
            { w with
              n := w.n.rebuf B (c.length + bytes.length) (recv_grow w.n).nn_recvbuf_size
              sock_in := rest } := by
  obtain ⟨B, hp, hh⟩ := recv_parse_read hsock hc hinc hin hne hfit
  refine ⟨B, hh, fun k => ?_⟩
  rw [recv_loop]
  simp only [hdead, hrefs, Bool.false_eq_true, or_self, if_false, hp, Outcome.bind]

theorem loop_got {codec : Codec} {w : World} (goal : Nat) {c : List Nat} {m : Int}
    {o : Option hdfs_object} {size : Nat} (hsock : w.n.nn_sock ≠ -1)
    (hdead : w.n.nn_dead = false) (hrefs : w.n.nn_refs ≠ 1) (hc : Holds w.n c)
    (hres : codec._hdfs_result_deserialize c = .result m o size) (hsize : size ≤ c.length) :
    ∃ B, Holds (w.n.rebuf B (c.length - size) w.n.nn_recvbuf_size) (c.drop size) ∧
      ∀ k, recv_loop codec goal (k + 1) w
        = (recv_demux { w with n := w.n.rebuf B (c.length - size) w.n.nn_recvbuf_size }
            goal m o).bind fun w2 mine =>
              if mine then recv_exit w2 goal true else recv_loop codec goal k w2 := by
  obtain ⟨B, hp, hh⟩ := recv_parse_got hsock hc hres hsize
  refine ⟨B, hh, fun k => ?_⟩
  rw [recv_loop]
  simp only [hdead, hrefs, Bool.false_eq_true, or_self, if_false, hp, Outcome.bind]

theorem demux_served {w : World} (goal : Nat) {m : Int} {f : Nat} (obj : hdfs_object)
    {fu : hdfs_rpc_response_future} (B : List Nat) (U S : Nat) (rest : List ReadResult)
    (hcap : w.n.nn_pending_len ≤ w.n.nn_pending.length)
    (hd : ((pending_entries w.n).map fun e => e.pd_msgno).Nodup)
    (he : (⟨m, f⟩ : _hdfs_pending) ∈ pending_entries w.n)
    (hfu : w.futures[f]? = some fu) (hempty : fu.fu_res = none) :
    recv_demux { w with n := w.n.rebuf B U S, sock_in := rest } goal m (some obj)
      = .ok (served w goal f m obj fu B U S rest) (decide (f = goal)) := by
  obtain ⟨w1, h1, h2, h3, h4, h5⟩ :=
    recv_demux_spec (w := { w with n := w.n.rebuf B U S, sock_in := rest }) goal obj
      hcap hd he hfu hempty
  rw [h1]
  congr 1
  cases w1
  simp only at h2 h3 h4 h5
  subst h2 h3 h4 h5
  simp only [served, remove_rebuf]

theorem trim_served (w : World) (goal f : Nat) (m : Int) (obj : hdfs_object)
    (fu : hdfs_rpc_response_future) (B2 B1 : List Nat) (U S2 S1 : Nat) (rest : List ReadResult)
    (h : B2.take U = B1.take U) :
    (served w goal f m obj fu B2 U S2 rest).trim = (served w goal f m obj fu B1 U S1 rest).trim := by
  simp only [World.trim, served, hdfs_namenode.rebuf, h]

theorem grow_size_le (n : hdfs_namenode) : n.nn_recvbuf_size ≤ (recv_grow n).nn_recvbuf_size := by
  obtain ⟨_, _, _, h1, h2, _⟩ := grow_rebuf n
  rw [h2]; exact h1

theorem served_after_got {codec : Codec} {w : World} (goal : Nat) {f : Nat} {m : Int}
    {obj : hdfs_object} {fu : hdfs_rpc_response_future} {c tail : List Nat} {size : Nat}
    (B : List Nat) (U S : Nat) (rest : List ReadResult)
    (hc : Holds (w.n.rebuf B U S) c)
    (hres : codec._hdfs_result_deserialize c = .result m (some obj) size)
    (hsize : size ≤ c.length) (htail : c.drop size = tail)
    (hsock : w.n.nn_sock ≠ -1) (hdead : w.n.nn_dead = false) (hrefs : w.n.nn_refs ≠ 1)
    (hcap : w.n.nn_pending_len ≤ w.n.nn_pending.length)
    (hd : ((pending_entries w.n).map fun e => e.pd_msgno).Nodup)
    (he : (⟨m, f⟩ : _hdfs_pending) ∈ pending_entries w.n)
    (hfu : w.futures[f]? = some fu) (hempty : fu.fu_res = none) :
    ∃ B1, B1.take tail.length = tail ∧
      ∀ k, recv_loop codec goal (k + 1) { w with n := w.n.rebuf B U S, sock_in := rest }
        = if f = goal then recv_exit (served w goal f m obj fu B1 tail.length S rest) goal true
          else recv_loop codec goal k (served w goal f m obj fu B1 tail.length S rest) := by
  obtain ⟨B1, hH, hL⟩ := loop_got (w := { w with n := w.n.rebuf B U S, sock_in := rest }) goal
    hsock hdead hrefs hc hres hsize
  have hU : c.length - size = tail.length := by rw [← htail, List.length_drop]
  rw [htail] at hH
  refine ⟨B1, hH.2.1, fun k => ?_⟩
  rw [hL k, hU]
  have := demux_served goal obj B1 tail.length S rest hcap hd he hfu hempty
  show (recv_demux { w with n := w.n.rebuf B1 tail.length S, sock_in := rest } goal m
    (some obj)).bind _ = _
  rw [this]
  by_cases hg : f = goal <;> simp [Outcome.bind, hg]

theorem split_loop {codec : Codec} {w : World} (goal : Nat) {f : Nat} {m : Int}
    {obj : hdfs_object} {fu : hdfs_rpc_response_future} {frame pre a b tail : List Nat}
    (rest : List ReadResult)
    (hinc : ∀ p, p <+: frame → p ≠ frame → codec._hdfs_result_deserialize p = .incomplete)
    (hres : ∀ t, codec._hdfs_result_deserialize (frame ++ t) = .result m (some obj) frame.length)
    (hpre : Holds w.n pre) (ha : a ≠ [])
    (hframe : pre ++ a ++ b = frame ++ tail) (hcut : (pre ++ a).length < frame.length)
    (hfit : pre.length + (a ++ b).length ≤ (recv_grow w.n).nn_recvbuf_size)
    (hsock : w.n.nn_sock ≠ -1) (hdead : w.n.nn_dead = false) (hrefs : w.n.nn_refs ≠ 1)
    (hcap : w.n.nn_pending_len ≤ w.n.nn_pending.length)
    (hd : ((pending_entries w.n).map fun e => e.pd_msgno).Nodup)
    (he : (⟨m, f⟩ : _hdfs_pending) ∈ pending_entries w.n)
    (hfu : w.futures[f]? = some fu) (hempty : fu.fu_res = none) :
    ∃ B2 S2 B1 S1, B2.take tail.length = tail ∧ B1.take tail.length = tail ∧
      (∀ k, recv_loop codec goal (k + 3) { w with sock_in := .data a :: .data b :: rest }
        = if f = goal then recv_exit (served w goal f m obj fu B2 tail.length S2 rest) goal true
          else recv_loop codec goal k (served w goal f m obj fu B2 tail.length S2 rest)) ∧
      (∀ k, recv_loop codec goal (k + 2) { w with sock_in := .data (a ++ b) :: rest }
        = if f = goal then recv_exit (served w goal f m obj fu B1 tail.length S1 rest) goal true
          else recv_loop codec goal k (served w goal f m obj fu B1 tail.length S1 rest)) := by
  have hlen := congrArg List.length hframe
  simp only [List.length_append] at hlen hcut hfit
  have hpa : pre ++ a <+: frame :=
    List.prefix_of_prefix_length_le ⟨b, hframe⟩ (List.prefix_append frame tail)
      (by simp only [List.length_append]; omega)
  have hp1 : codec._hdfs_result_deserialize (pre ++ a) = .incomplete :=
    hinc _ hpa (fun h => by
      have := congrArg List.length h
      simp only [List.length_append] at this
      omega)
  have hp0 : codec._hdfs_result_deserialize pre = .incomplete :=
    hinc _ ((List.prefix_append pre a).trans hpa) (fun h => by
      have := congrArg List.length h
      omega)
  have hp2 : codec._hdfs_result_deserialize (pre ++ a ++ b)
      = .result m (some obj) frame.length := by rw [hframe]; exact hres tail
  have hb : b ≠ [] := by
    intro h
    subst h
    simp only [List.length_nil] at hlen
    omega
  have hab : a ++ b ≠ [] := by simp [ha]
  have hdrop : (pre ++ a ++ b).drop frame.length = tail := by
    rw [hframe, List.drop_left]
  -- two reads
  obtain ⟨Ba, hHa, hLa⟩ := loop_read (w := { w with sock_in := .data a :: .data b :: rest })
    goal hsock hdead hrefs hpre hp0 rfl ha
    (by show pre.length + a.length ≤ (recv_grow w.n).nn_recvbuf_size; omega)
  dsimp only at hHa hLa
  obtain ⟨Bb, hHb, hLb⟩ := loop_read
    (w := { w with
      n := w.n.rebuf Ba (pre.length + a.length) (recv_grow w.n).nn_recvbuf_size
      sock_in := .data b :: rest })
    goal hsock hdead hrefs hHa hp1 rfl hb (by
      have := grow_size_le
        (w.n.rebuf Ba (pre.length + a.length) (recv_grow w.n).nn_recvbuf_size)
      have e : (w.n.rebuf Ba (pre.length + a.length)
        (recv_grow w.n).nn_recvbuf_size).nn_recvbuf_size = (recv_grow w.n).nn_recvbuf_size := rfl
      rw [e] at this
      show (pre ++ a).length + b.length
        ≤ (recv_grow (w.n.rebuf Ba (pre.length + a.length)
            (recv_grow w.n).nn_recvbuf_size)).nn_recvbuf_size
      simp only [List.length_append]
      omega)
  dsimp only at hHb hLb
  obtain ⟨B2, hB2, hL2⟩ := served_after_got (w := w) goal Bb _ _ rest hHb hp2
    (by simp only [List.length_append]; omega) hdrop hsock hdead hrefs hcap hd he hfu hempty
  -- one read
  obtain ⟨Bs, hHs, hLs⟩ := loop_read (w := { w with sock_in := .data (a ++ b) :: rest })
    goal hsock hdead hrefs hpre hp0 rfl hab
    (by
      show pre.length + (a ++ b).length ≤ (recv_grow w.n).nn_recvbuf_size
      simp only [List.length_append]; omega)
  dsimp only at hHs hLs
  rw [← List.append_assoc] at hHs
  obtain ⟨B1, hB1, hL1⟩ := served_after_got (w := w) goal Bs _ _ rest hHs hp2
    (by simp only [List.length_append]; omega) hdrop hsock hdead hrefs hcap hd he hfu hempty
  refine ⟨B2, (recv_grow (w.n.rebuf Ba (pre.length + a.length)
      (recv_grow w.n).nn_recvbuf_size)).nn_recvbuf_size, B1, (recv_grow w.n).nn_recvbuf_size,
    hB2, hB1, fun k => ?_, fun k => ?_⟩
  · rw [hLa (k + 2), hLb (k + 1)]
    exact hL2 k
  · rw [hLs (k + 1)]
    exact hL1 k

theorem recv_wake_congr (n n1 : hdfs_namenode) (h : n1.nn_pending = n.nn_pending) (g : Nat) :
    ∀ k, recv_wake n1 g k = recv_wake n g k := by
  intro k
  induction k with
  | zero => rfl
  | succ k ih => simp only [recv_wake, h, ih]

theorem grow_size_worked (n : hdfs_namenode) (b : Bool) :
    (recv_grow { n with nn_worked := b }).nn_recvbuf_size = (recv_grow n).nn_recvbuf_size := by
  unfold recv_grow
  dsimp only
  split <;> rfl

theorem exit_served (w : World) (goal f : Nat) (m : Int) (obj : hdfs_object)
    (fu : hdfs_rpc_response_future) (B : List Nat) (U S : Nat) (rest : List ReadResult)
    (hw : w.n.nn_worked = true) :
    recv_exit (served w goal f m obj fu B U S rest) goal true
      = .ok (served_exit w goal f m obj fu B U S rest) true := by
  have hf := (pending_remove_fields w.n m).2.2.2.2.2.2.1
  unfold recv_exit
  have h1 : (served w goal f m obj fu B U S rest).n.nn_worked = true := by
    show (_namenode_pending_remove w.n m).1.nn_worked = true
    rw [hf]; exact hw
  simp only [h1, not_true_eq_false, if_false]
  have h2 := recv_wake_congr (_namenode_pending_remove w.n m).1
    { (served w goal f m obj fu B U S rest).n with nn_worked := false } rfl goal
  simp only [h2]
  rfl

/-- C14: for a probe that reports an incomplete frame on every proper prefix
of `frame` and returns the record `(m, obj, frame.length)` on every buffer
that begins with `frame`, on a live session whose buffer holds `pre`, whose
pending table (message numbers distinct) has slot `f` under `m`, slot `f`
bound and empty: when the bytes `a ++ b` complete the frame (the cut after `a`
falls inside the frame, `a` is not empty, and `a ++ b` fits the room the
single `read` has), the main loop of the pump that reads `a` and then `b`
and the one that reads `a ++ b` at once reach, three and two rounds on, worlds
that agree on every slot, on the pending table, on the used count and on the
used bytes (the rest of the frame's read, `tail`), and on everything else
but the spare room of the buffer; from there both leave with `true` when `f`
is the goal and go on with the main loop otherwise. Called for slot `f` with
`nn_worked` clear, `_namenode_recv` returns `true` on both inputs with such
worlds, slot `f` holding `obj`. -/
theorem split_read_same (codec : Codec) (w : World) (goal f : Nat) (m : Int)
    (obj : hdfs_object) (fu : hdfs_rpc_response_future) (frame pre a b tail : List Nat)
    (rest : List ReadResult)
    (hinc : ∀ p, p <+: frame → p ≠ frame → codec._hdfs_result_deserialize p = .incomplete)
    (hres : ∀ t, codec._hdfs_result_deserialize (frame ++ t) = .result m (some obj) frame.length)
    (hpre : Holds w.n pre) (ha : a ≠ [])
    (hframe : pre ++ a ++ b = frame ++ tail) (hcut : (pre ++ a).length < frame.length)
    (hfit : pre.length + (a ++ b).length ≤ (recv_grow w.n).nn_recvbuf_size)
    (hsock : w.n.nn_sock ≠ -1) (hdead : w.n.nn_dead = false) (hrefs : w.n.nn_refs ≠ 1)
    (hcap : w.n.nn_pending_len ≤ w.n.nn_pending.length)
    (hd : ((pending_entries w.n).map fun e => e.pd_msgno).Nodup)
    (he : (⟨m, f⟩ : _hdfs_pending) ∈ pending_entries w.n)
    (hfu : w.futures[f]? = some fu) (hbound : fu.fu_namenode = true)
    (hempty : fu.fu_res = none) :
    (∃ r2 r1 : World,
      (∀ k, recv_loop codec goal (k + 3) { w with sock_in := .data a :: .data b :: rest }
        = if f = goal then recv_exit r2 goal true else recv_loop codec goal k r2) ∧
      (∀ k, recv_loop codec goal (k + 2) { w with sock_in := .data (a ++ b) :: rest }
        = if f = goal then recv_exit r1 goal true else recv_loop codec goal k r1) ∧
      r2.trim = r1.trim ∧
      r2.futures = r1.futures ∧ r1.futures[f]? = some { fu with fu_res := some obj } ∧
      r2.n.nn_pending = r1.n.nn_pending ∧ r2.n.nn_pending_len = r1.n.nn_pending_len ∧
      r1.n.nn_pending = (_namenode_pending_remove w.n m).1.nn_pending ∧
      r1.n.nn_pending_len + 1 = w.n.nn_pending_len ∧
      r2.n.nn_recvbuf_used = tail.length ∧ r1.n.nn_recvbuf_used = tail.length ∧
      r2.n.nn_recvbuf.take tail.length = tail ∧ r1.n.nn_recvbuf.take tail.length = tail) ∧
    (f = goal → w.n.nn_worked = false →
      ∃ e2 e1 : World,
        _namenode_recv codec { w with sock_in := .data a :: .data b :: rest } goal
          = .ok e2 true ∧
        _namenode_recv codec { w with sock_in := .data (a ++ b) :: rest } goal = .ok e1 true ∧
        e2.trim = e1.trim ∧
        e2.futures = e1.futures ∧ e1.futures[f]? = some { fu with fu_res := some obj } ∧
        e2.n.nn_pending = e1.n.nn_pending ∧ e2.n.nn_pending_len = e1.n.nn_pending_len ∧
        e1.n.nn_pending = (_namenode_pending_remove w.n m).1.nn_pending ∧
        e1.n.nn_pending_len + 1 = w.n.nn_pending_len ∧
        e2.n.nn_recvbuf_used = tail.length ∧ e1.n.nn_recvbuf_used = tail.length ∧
        e2.n.nn_recvbuf.take tail.length = tail ∧ e1.n.nn_recvbuf.take tail.length = tail ∧
        e1.n.nn_worked = false ∧ e2.n.nn_worked = false) := by
  have hlt : f < w.futures.length := by
    rcases Nat.lt_or_ge f w.futures.length with h0 | h0
    · exact h0
    · rw [List.getElem?_eq_none h0] at hfu; cases hfu
  have hlen1 := (pending_remove_spec hcap hd he).2.1
  constructor
  · obtain ⟨B2, S2, B1, S1, hB2, hB1, hL2, hL1⟩ :=
      split_loop goal rest hinc hres hpre ha hframe hcut hfit hsock hdead hrefs hcap hd he
        hfu hempty
    refine ⟨served w goal f m obj fu B2 tail.length S2 rest,
      served w goal f m obj fu B1 tail.length S1 rest, hL2, hL1,
      trim_served _ _ _ _ _ _ _ _ _ _ _ _ (hB2.trans hB1.symm), rfl, ?_, rfl, rfl, rfl, hlen1,
      rfl, rfl, hB2, hB1⟩
    simp [served, hlt]
  · intro hg hworked
    subst hg
    have hent : ∀ (sock_in : List ReadResult),
        recv_enter { w with sock_in := sock_in } f
          = .ok { w with n := { w.n with nn_worked := true }, sock_in := sock_in } false := by
      intro sock_in
      simp [recv_enter, hfu, hbound, hworked]
    obtain ⟨B2, S2, B1, S1, hB2, hB1, hL2, hL1⟩ :=
      split_loop (w := { w with n := { w.n with nn_worked := true } }) f rest hinc hres hpre ha
        hframe hcut (by rw [grow_size_worked]; exact hfit) hsock hdead hrefs hcap hd he hfu hempty
    have hx2 := exit_served { w with n := { w.n with nn_worked := true } } f f m obj fu
      B2 tail.length S2 rest rfl
    have hx1 := exit_served { w with n := { w.n with nn_worked := true } } f f m obj fu
      B1 tail.length S1 rest rfl
    have hapos : 0 < a.length := List.length_pos.mpr ha
    refine ⟨served_exit { w with n := { w.n with nn_worked := true } } f f m obj fu
        B2 tail.length S2 rest,
      served_exit { w with n := { w.n with nn_worked := true } } f f m obj fu
        B1 tail.length S1 rest, ?_, ?_, ?_, ?_, ?_, ?_, ?_, ?_, ?_, ?_, ?_, ?_, ?_, ?_, ?_⟩
    · unfold _namenode_recv
      rw [hent]
      simp only [Outcome.bind, Bool.false_eq_true, if_false]
      obtain ⟨k, hk⟩ : ∃ k, sock_in_size (.data a :: .data b :: rest) + w.n.nn_pending_len + 1
          = k + 3 := ⟨sock_in_size (.data a :: .data b :: rest) + w.n.nn_pending_len + 1 - 3, by
            simp only [sock_in_size]; omega⟩
      rw [hk]
      have := hL2 k
      simp only [if_true] at this
      rw [this]
      exact hx2
    · unfold _namenode_recv
      rw [hent]
      simp only [Outcome.bind, Bool.false_eq_true, if_false]
      obtain ⟨k, hk⟩ : ∃ k, sock_in_size (.data (a ++ b) :: rest) + w.n.nn_pending_len + 1
          = k + 2 := ⟨sock_in_size (.data (a ++ b) :: rest) + w.n.nn_pending_len + 1 - 2, by
            simp only [sock_in_size, List.length_append]; omega⟩
      rw [hk]
      have := hL1 k
      simp only [if_true] at this
      rw [this]
      exact hx1
    · simp only [World.trim, served_exit, served, hdfs_namenode.rebuf, hB2, hB1]
    · rfl
    · simp [served_exit, served, hlt]
    · rfl
    · rfl
    · show (_namenode_pending_remove { w.n with nn_worked := true } m).1.nn_pending = _
      unfold _namenode_pending_remove
      show (match pending_scan w.n.nn_pending m w.n.nn_pending_len 0 with
        | none => _
        | some i => _ : hdfs_namenode × Option Nat).1.nn_pending = (match
          pending_scan w.n.nn_pending m w.n.nn_pending_len 0 with
        | none => _
        | some i => _ : hdfs_namenode × Option Nat).1.nn_pending
      cases pending_scan w.n.nn_pending m w.n.nn_pending_len 0 <;> rfl
    · exact (pending_remove_spec (n := { w.n with nn_worked := true }) hcap hd he).2.1
    · rfl
    · rfl
    · exact hB2
    · exact hB1
    · rfl
    · rfl

theorem stub_incomplete (p : List Nat) (hp : p <+: [0, 3, 0, 42]) (hne : p ≠ [0, 3, 0, 42]) :
    stub_codec._hdfs_result_deserialize p = .incomplete := by
  rcases p with _ | ⟨x0, _ | ⟨x1, _ | ⟨x2, _ | ⟨x3, p⟩⟩⟩⟩
  · rfl
  · rfl
  · rfl
  · rfl
  · exfalso
    obtain ⟨t, ht⟩ := hp
    simp only [List.cons_append, List.cons.injEq, List.append_eq_nil] at ht
    obtain ⟨rfl, rfl, rfl, rfl, rfl, _⟩ := ht
    exact hne rfl

/-- Witness of C14: with one call in flight on slot 0, the frame
`[0, 3, 0, 42]` followed by a byte 7 arrives as `[0, 3]` then `[0, 42, 7]`, or
at once; either way the pump called for slot 0 returns `true`, slot 0 holds
the long integer 42 and the byte 7 is left in the buffer. -/
theorem split_read_same_witness :
    ∃ e2 e1 : World,
      _namenode_recv stub_codec
        { flight_world with sock_in := [.data [0, 3], .data [0, 42, 7]] } 0 = .ok e2 true ∧
      _namenode_recv stub_codec
        { flight_world with sock_in := [.data [0, 3, 0, 42, 7]] } 0 = .ok e1 true ∧
      e2.trim = e1.trim ∧ e1.futures[0]? = some ⟨true, some long_42⟩ ∧
      e1.n.nn_recvbuf.take 1 = [7] ∧ e2.n.nn_recvbuf.take 1 = [7] := by
  obtain ⟨e2, e1, h1, h2, h3, _, h5, _, _, _, _, _, _, h12, h13, _⟩ :=
    (split_read_same stub_codec flight_world 0 0 0 long_42 ⟨true, none⟩ [0, 3, 0, 42] []
      [0, 3] [0, 42, 7] [7] [] stub_incomplete (fun _ => rfl) ⟨rfl, rfl, rfl⟩ (by decide) rfl
      (by decide) (by decide) (by decide) rfl (by decide) (by decide) (by decide) (by decide)
      rfl rfl rfl).2 rfl rfl
  exact ⟨e2, e1, h1, h2, h3, h5, h13, h12⟩

end Hadoofus
